import Mathlib

/-!
Verification development for the `csc-230-projects` repository.

Project 5 (`src/p5`): Galois-field byte arithmetic (`field.c`, `field.h`) and the
AES-128 block cipher declared in `aes.h`.

Bytes are natural numbers below 256; every narrowing the C code performs
(`unsigned short`, `byte`) is an explicit `% 65536` or `% 256`.
Arrays are lists read with `List.getD`.
-/

namespace P5

/-! ## Definitions -/

/-! ### `field.c` -/

/-- The function `fieldAdd` of `field.c`: `return a ^ b;` narrowed to a `byte`. -/
def fieldAdd (a b : Nat) : Nat := (a ^^^ b) % 256

/-- The function `fieldSub` of `field.c`: `return a ^ b;` narrowed to a `byte`. -/
def fieldSub (a b : Nat) : Nat := (a ^^^ b) % 256

/-- The function `fieldMulPhase1` of `field.c`: for `i = 0 .. 7`, when `b & (1 << i)` is non-zero,
`result ^= (a << i)` on an `unsigned short` accumulator. -/
def fieldMulPhase1 (a b : Nat) : Nat :=
  (List.range 8).foldl
    (fun result i =>
      if b &&& (1 <<< i) ≠ 0 then (result ^^^ (a <<< i)) % 65536 else result)
    0

/-- The `while (value_copy)` loop of `getBitCount`; the first argument bounds the number of
iterations (an `unsigned short` is exhausted after 16 right shifts). -/
def getBitCountLoop : Nat → Nat → Nat → Nat
  | 0, bit_count, _ => bit_count
  | fuel + 1, bit_count, value_copy =>
    if value_copy ≠ 0 then getBitCountLoop fuel (bit_count + 1) (value_copy >>> 1)
    else bit_count

/-- The function `getBitCount` of `field.c`. -/
def getBitCount (value : Nat) : Nat := getBitCountLoop 16 0 value

/-- The `while (diff >= 0)` loop of `fieldMulPhase2` on the state
`(value_copy, bit_count, diff)`; the first argument bounds the number of iterations. -/
def fieldMulPhase2Loop : Nat → Nat → Int → Int → Nat
  | 0, value_copy, _, _ => value_copy
  | fuel + 1, value_copy, bit_count, diff =>
    if diff ≥ 0 then
      fieldMulPhase2Loop fuel
        (if value_copy >>> (bit_count - 1).toNat ≠ 0
          then (value_copy ^^^ (283 <<< diff.toNat)) % 65536
          else value_copy)
        (bit_count - 1) (diff - 1)
    else value_copy

/-- The value `value_copy` holds when the loop of `fieldMulPhase2` ends, before the
`return` narrows it to a `byte`. -/
def fieldMulPhase2Wide (value : Nat) : Nat :=
  fieldMulPhase2Loop 8 value (getBitCount value) ((getBitCount value : Int) - 9)

/-- The function `fieldMulPhase2` of `field.c`: the loop result narrowed to a `byte`. -/
def fieldMulPhase2 (value : Nat) : Nat := fieldMulPhase2Wide value % 256

/-- The function `fieldMul` of `field.c`: phase 1, then phase 2. -/
def fieldMul (a b : Nat) : Nat := fieldMulPhase2 (fieldMulPhase1 a b)

/-! ### GF(2) polynomials as bit patterns (the mathematical side of the field claims) -/

/-- Carry-less product of the GF(2) polynomials with bit patterns `a` and `b`:
`a * 0 = 0` and `a * (b₀ + x * b') = b₀ * a + (x * a) * b'`, sums being XOR. -/
def clMul (a b : Nat) : Nat :=
  if b = 0 then 0 else (if b % 2 = 1 then a else 0) ^^^ clMul (2 * a) (b / 2)
termination_by b
decreasing_by omega

/-- Long division of `p` by `m` over GF(2), `k` quotient positions left: the coefficient
of `x ^ (k - 1 + deg m)` is cancelled by adding `x ^ (k - 1) * m`, from the top down. -/
def polyModAux (m : Nat) : Nat → Nat → Nat
  | 0, p => p
  | k + 1, p => polyModAux m k (if p.testBit (k + m.log2) then p ^^^ (m <<< k) else p)

/-- Remainder of the GF(2) polynomial `p` modulo `m` (degree of `m` is `m.log2`). -/
def polyMod (p m : Nat) : Nat := polyModAux m (p.log2 + 1 - m.log2) p

/-! ### `aes.h`: the block cipher

`aes.c` is not among the sources; the functions declared in `aes.h` are modelled from the
specification, on top of `fieldAdd` and `fieldMul` above. -/

/-- Modelled from the spec: the forward S-box table of FIPS-197 (defined in `aes.c`, which
is missing from the sources). -/
def sboxTable : List Nat :=
  [
    0x63, 0x7c, 0x77, 0x7b, 0xf2, 0x6b, 0x6f, 0xc5, 0x30, 0x01, 0x67, 0x2b, 0xfe, 0xd7, 0xab, 0x76,
    0xca, 0x82, 0xc9, 0x7d, 0xfa, 0x59, 0x47, 0xf0, 0xad, 0xd4, 0xa2, 0xaf, 0x9c, 0xa4, 0x72, 0xc0,
    0xb7, 0xfd, 0x93, 0x26, 0x36, 0x3f, 0xf7, 0xcc, 0x34, 0xa5, 0xe5, 0xf1, 0x71, 0xd8, 0x31, 0x15,
    0x04, 0xc7, 0x23, 0xc3, 0x18, 0x96, 0x05, 0x9a, 0x07, 0x12, 0x80, 0xe2, 0xeb, 0x27, 0xb2, 0x75,
    0x09, 0x83, 0x2c, 0x1a, 0x1b, 0x6e, 0x5a, 0xa0, 0x52, 0x3b, 0xd6, 0xb3, 0x29, 0xe3, 0x2f, 0x84,
    0x53, 0xd1, 0x00, 0xed, 0x20, 0xfc, 0xb1, 0x5b, 0x6a, 0xcb, 0xbe, 0x39, 0x4a, 0x4c, 0x58, 0xcf,
    0xd0, 0xef, 0xaa, 0xfb, 0x43, 0x4d, 0x33, 0x85, 0x45, 0xf9, 0x02, 0x7f, 0x50, 0x3c, 0x9f, 0xa8,
    0x51, 0xa3, 0x40, 0x8f, 0x92, 0x9d, 0x38, 0xf5, 0xbc, 0xb6, 0xda, 0x21, 0x10, 0xff, 0xf3, 0xd2,
    0xcd, 0x0c, 0x13, 0xec, 0x5f, 0x97, 0x44, 0x17, 0xc4, 0xa7, 0x7e, 0x3d, 0x64, 0x5d, 0x19, 0x73,
    0x60, 0x81, 0x4f, 0xdc, 0x22, 0x2a, 0x90, 0x88, 0x46, 0xee, 0xb8, 0x14, 0xde, 0x5e, 0x0b, 0xdb,
    0xe0, 0x32, 0x3a, 0x0a, 0x49, 0x06, 0x24, 0x5c, 0xc2, 0xd3, 0xac, 0x62, 0x91, 0x95, 0xe4, 0x79,
    0xe7, 0xc8, 0x37, 0x6d, 0x8d, 0xd5, 0x4e, 0xa9, 0x6c, 0x56, 0xf4, 0xea, 0x65, 0x7a, 0xae, 0x08,
    0xba, 0x78, 0x25, 0x2e, 0x1c, 0xa6, 0xb4, 0xc6, 0xe8, 0xdd, 0x74, 0x1f, 0x4b, 0xbd, 0x8b, 0x8a,
    0x70, 0x3e, 0xb5, 0x66, 0x48, 0x03, 0xf6, 0x0e, 0x61, 0x35, 0x57, 0xb9, 0x86, 0xc1, 0x1d, 0x9e,
    0xe1, 0xf8, 0x98, 0x11, 0x69, 0xd9, 0x8e, 0x94, 0x9b, 0x1e, 0x87, 0xe9, 0xce, 0x55, 0x28, 0xdf,
    0x8c, 0xa1, 0x89, 0x0d, 0xbf, 0xe6, 0x42, 0x68, 0x41, 0x99, 0x2d, 0x0f, 0xb0, 0x54, 0xbb, 0x16
  ]

/-- Modelled from the spec: the inverse S-box table of FIPS-197 (defined in `aes.c`, which
is missing from the sources). -/
def invSboxTable : List Nat :=
  [
    0x52, 0x09, 0x6a, 0xd5, 0x30, 0x36, 0xa5, 0x38, 0xbf, 0x40, 0xa3, 0x9e, 0x81, 0xf3, 0xd7, 0xfb,
    0x7c, 0xe3, 0x39, 0x82, 0x9b, 0x2f, 0xff, 0x87, 0x34, 0x8e, 0x43, 0x44, 0xc4, 0xde, 0xe9, 0xcb,
    0x54, 0x7b, 0x94, 0x32, 0xa6, 0xc2, 0x23, 0x3d, 0xee, 0x4c, 0x95, 0x0b, 0x42, 0xfa, 0xc3, 0x4e,
    0x08, 0x2e, 0xa1, 0x66, 0x28, 0xd9, 0x24, 0xb2, 0x76, 0x5b, 0xa2, 0x49, 0x6d, 0x8b, 0xd1, 0x25,
    0x72, 0xf8, 0xf6, 0x64, 0x86, 0x68, 0x98, 0x16, 0xd4, 0xa4, 0x5c, 0xcc, 0x5d, 0x65, 0xb6, 0x92,
    0x6c, 0x70, 0x48, 0x50, 0xfd, 0xed, 0xb9, 0xda, 0x5e, 0x15, 0x46, 0x57, 0xa7, 0x8d, 0x9d, 0x84,
    0x90, 0xd8, 0xab, 0x00, 0x8c, 0xbc, 0xd3, 0x0a, 0xf7, 0xe4, 0x58, 0x05, 0xb8, 0xb3, 0x45, 0x06,
    0xd0, 0x2c, 0x1e, 0x8f, 0xca, 0x3f, 0x0f, 0x02, 0xc1, 0xaf, 0xbd, 0x03, 0x01, 0x13, 0x8a, 0x6b,
    0x3a, 0x91, 0x11, 0x41, 0x4f, 0x67, 0xdc, 0xea, 0x97, 0xf2, 0xcf, 0xce, 0xf0, 0xb4, 0xe6, 0x73,
    0x96, 0xac, 0x74, 0x22, 0xe7, 0xad, 0x35, 0x85, 0xe2, 0xf9, 0x37, 0xe8, 0x1c, 0x75, 0xdf, 0x6e,
    0x47, 0xf1, 0x1a, 0x71, 0x1d, 0x29, 0xc5, 0x89, 0x6f, 0xb7, 0x62, 0x0e, 0xaa, 0x18, 0xbe, 0x1b,
    0xfc, 0x56, 0x3e, 0x4b, 0xc6, 0xd2, 0x79, 0x20, 0x9a, 0xdb, 0xc0, 0xfe, 0x78, 0xcd, 0x5a, 0xf4,
    0x1f, 0xdd, 0xa8, 0x33, 0x88, 0x07, 0xc7, 0x31, 0xb1, 0x12, 0x10, 0x59, 0x27, 0x80, 0xec, 0x5f,
    0x60, 0x51, 0x7f, 0xa9, 0x19, 0xb5, 0x4a, 0x0d, 0x2d, 0xe5, 0x7a, 0x9f, 0x93, 0xc9, 0x9c, 0xef,
    0xa0, 0xe0, 0x3b, 0x4d, 0xae, 0x2a, 0xf5, 0xb0, 0xc8, 0xeb, 0xbb, 0x3c, 0x83, 0x53, 0x99, 0x61,
    0x17, 0x2b, 0x04, 0x7e, 0xba, 0x77, 0xd6, 0x26, 0xe1, 0x69, 0x14, 0x63, 0x55, 0x21, 0x0c, 0x7d
  ]

/-- Modelled from the spec: S-box image of a byte (lookup in the table of `aes.c`). -/
def sbox (v : Nat) : Nat := sboxTable.getD v 0

/-- Modelled from the spec: inverse S-box image of a byte (lookup in the table of `aes.c`). -/
def invSbox (v : Nat) : Nat := invSboxTable.getD v 0

/-- Modelled from the spec: `blockToSquare` of the missing `aes.c`; the byte at flat index
`i` occupies row `i mod 4`, column `i div 4`, so `square[r][c] = data[4 * c + r]`. -/
def blockToSquare (data : List Nat) : List (List Nat) :=
  (List.range 4).map fun r => (List.range 4).map fun c => data.getD (4 * c + r) 0

/-- Modelled from the spec: `squareToBlock` of the missing `aes.c`;
`data[i] = square[i mod 4][i div 4]`. -/
def squareToBlock (square : List (List Nat)) : List Nat :=
  (List.range 16).map fun i => (square.getD (i % 4) []).getD (i / 4) 0

/-- Modelled from the spec: `subBytes` of the missing `aes.c`; every byte of the state is
replaced by its S-box image. -/
def subBytes (square : List (List Nat)) : List (List Nat) :=
  square.map fun row => row.map sbox

/-- Modelled from the spec: `invSubBytes` of the missing `aes.c`; every byte of the state
is replaced by its inverse S-box image. -/
def invSubBytes (square : List (List Nat)) : List (List Nat) :=
  square.map fun row => row.map invSbox

/-- Modelled from the spec: `shiftRows` of the missing `aes.c`; row `r` is cyclically
shifted left by `r` positions. -/
def shiftRows (square : List (List Nat)) : List (List Nat) :=
  (List.range 4).map fun r => (List.range 4).map fun c =>
    (square.getD r []).getD ((c + r) % 4) 0

/-- Modelled from the spec: `unShiftRows` of the missing `aes.c`; row `r` is cyclically
shifted right by `r` positions. -/
def unShiftRows (square : List (List Nat)) : List (List Nat) :=
  (List.range 4).map fun r => (List.range 4).map fun c =>
    (square.getD r []).getD ((c + 4 - r) % 4) 0

/-- Modelled from the spec: the forward MixColumns matrix, row-major. -/
def mixMatrix : List (List Nat) :=
  [[0x02, 0x03, 0x01, 0x01], [0x01, 0x02, 0x03, 0x01],
   [0x01, 0x01, 0x02, 0x03], [0x03, 0x01, 0x01, 0x02]]

/-- Modelled from the spec: the inverse MixColumns matrix, row-major. -/
def invMixMatrix : List (List Nat) :=
  [[0x0E, 0x0B, 0x0D, 0x09], [0x09, 0x0E, 0x0B, 0x0D],
   [0x0D, 0x09, 0x0E, 0x0B], [0x0B, 0x0D, 0x09, 0x0E]]

/-- Modelled from the spec: product of a 4x4 matrix with a column of four bytes over
GF(2^8), with `fieldMul` for the products and `fieldAdd` for the sums. -/
def mulColumn (m : List (List Nat)) (col : List Nat) : List Nat :=
  m.map fun row => (List.zipWith fieldMul row col).foldl fieldAdd 0

/-- Column `c` of a 4x4 state. -/
def getColumn (square : List (List Nat)) (c : Nat) : List Nat :=
  (List.range 4).map fun r => (square.getD r []).getD c 0

/-- Modelled from the spec: every column of the state is replaced by its product with the
matrix `m`. -/
def mulColumns (m : List (List Nat)) (square : List (List Nat)) : List (List Nat) :=
  (List.range 4).map fun r => (List.range 4).map fun c =>
    (mulColumn m (getColumn square c)).getD r 0

/-- Modelled from the spec: `mixColumns` of the missing `aes.c`. -/
def mixColumns (square : List (List Nat)) : List (List Nat) := mulColumns mixMatrix square

/-- Modelled from the spec: `unMixColumns` of the missing `aes.c`. -/
def unMixColumns (square : List (List Nat)) : List (List Nat) :=
  mulColumns invMixMatrix square

/-- Modelled from the spec: `addSubkey` of the missing `aes.c`; byte-wise field addition of
the 16 bytes of the subkey to the 16 bytes of the data. -/
def addSubkey (data key : List Nat) : List Nat :=
  (List.range 16).map fun i => fieldAdd (data.getD i 0) (key.getD i 0)

/-- Modelled from the spec: the round constant of round `r`, `x ^ (r - 1)` in GF(2^8),
obtained by `r - 1` multiplications of `0x01` by `0x02`. -/
def roundConstant (r : Nat) : Nat := (fieldMul 0x02)^[r - 1] 0x01

/-- Modelled from the spec: `gFunction` of the missing `aes.c`; rotate the word left by one
byte, substitute the four bytes through the S-box, add the round constant to the first. -/
def gFunction (src : List Nat) (r : Nat) : List Nat :=
  [fieldAdd (sbox (src.getD 1 0)) (roundConstant r), sbox (src.getD 2 0),
   sbox (src.getD 3 0), sbox (src.getD 0 0)]

/-- Byte-wise field addition of two 4-byte words. -/
def addWord (u v : List Nat) : List Nat :=
  (List.range 4).map fun i => fieldAdd (u.getD i 0) (v.getD i 0)

/-- Modelled from the spec: the key-schedule words `W[0 .. 43]`; `W[0 .. 3]` are the key,
and for `i = 4 .. 43`, `W[i] = W[i-4] + gFunction(W[i-1], i/4)` when `i mod 4 = 0` and
`W[i] = W[i-4] + W[i-1]` otherwise. -/
def expandKey (key : List Nat) : List (List Nat) :=
  (List.range' 4 40).foldl
    (fun w i =>
      w ++ [if i % 4 = 0 then addWord (w.getD (i - 4) []) (gFunction (w.getD (i - 1) []) (i / 4))
            else addWord (w.getD (i - 4) []) (w.getD (i - 1) [])])
    ((List.range 4).map fun j => (List.range 4).map fun i => key.getD (4 * j + i) 0)

/-- Modelled from the spec: `generateSubkeys` of the missing `aes.c`; subkey `k` is made of
the words `W[4k .. 4k+3]`, for `k = 0 .. 10`. -/
def generateSubkeys (key : List Nat) : List (List Nat) :=
  (List.range 11).map fun k =>
    (List.range 16).map fun i => ((expandKey key).getD (4 * k + i / 4) []).getD (i % 4) 0

/-- Modelled from the spec: one of the rounds 1 .. 9 of encryption: SubBytes, ShiftRows,
MixColumns, AddRoundKey. -/
def encryptRound (subkey : List (List Nat)) (data : List Nat) (r : Nat) : List Nat :=
  addSubkey (squareToBlock (mixColumns (shiftRows (subBytes (blockToSquare data)))))
    (subkey.getD r [])

/-- Modelled from the spec: one of the rounds 9 .. 1 of decryption: InvShiftRows,
InvSubBytes, AddRoundKey, InvMixColumns. -/
def decryptRound (subkey : List (List Nat)) (data : List Nat) (r : Nat) : List Nat :=
  squareToBlock (unMixColumns (blockToSquare
    (addSubkey (squareToBlock (invSubBytes (unShiftRows (blockToSquare data))))
      (subkey.getD r []))))

/-- Modelled from the spec: `encryptBlock` of the missing `aes.c`; AddRoundKey(0), rounds
1 .. 9, then the final round SubBytes, ShiftRows, AddRoundKey(10). -/
def encryptBlock (data key : List Nat) : List Nat :=
  let subkey := generateSubkeys key
  let data := addSubkey data (subkey.getD 0 [])
  let data := (List.range' 1 9).foldl (encryptRound subkey) data
  addSubkey (squareToBlock (shiftRows (subBytes (blockToSquare data)))) (subkey.getD 10 [])

/-- Modelled from the spec: `decryptBlock` of the missing `aes.c`; AddRoundKey(10), rounds
9 .. 1, then the final step InvShiftRows, InvSubBytes, AddRoundKey(0). -/
def decryptBlock (data key : List Nat) : List Nat :=
  let subkey := generateSubkeys key
  let data := addSubkey data (subkey.getD 10 [])
  let data := (List.range' 1 9).reverse.foldl (decryptRound subkey) data
  addSubkey (squareToBlock (invSubBytes (unShiftRows (blockToSquare data))))
    (subkey.getD 0 [])

/-- A byte array of `n` elements: a list of length `n` whose entries are below 256. -/
def IsBytes (n : Nat) (l : List Nat) : Prop := l.length = n ∧ ∀ x ∈ l, x < 256

instance (n : Nat) (l : List Nat) : Decidable (IsBytes n l) :=
  inferInstanceAs (Decidable (l.length = n ∧ ∀ x ∈ l, x < 256))

/-- A 4x4 state: four rows of four bytes. -/
def IsSquare (s : List (List Nat)) : Prop := s.length = 4 ∧ ∀ row ∈ s, IsBytes 4 row

instance (s : List (List Nat)) : Decidable (IsSquare s) :=
  inferInstanceAs (Decidable (s.length = 4 ∧ ∀ row ∈ s, IsBytes 4 row))

/-- The column whose entry `j` is `c` and whose other three entries are zero. -/
def unitColumn (j c : Nat) : List Nat := (List.range 4).map fun i => if i = j then c else 0

/-- Entry-wise XOR of two columns. -/
def xorColumn (x y : List Nat) : List Nat := List.zipWith (fun u v => u ^^^ v) x y

/-! ### `encrypt.c` and `decrypt.c`

Sizes are byte counts, hence natural numbers; a buffer is the list of its bytes; `exit`
is an `Except.error` carrying the exit status. -/

/-- The exit status `EXIT_FAILURE` of `stdlib.h`. -/
def EXIT_FAILURE : Nat := 1

/-- The block `realloc(data, new_size)` hands back: the old bytes up to the lesser of the two
sizes, and indeterminate bytes `junk i` beyond them. -/
def realloc (junk : Nat → Nat) (data : List Nat) (new_size : Nat) : List Nat :=
  (List.range new_size).map fun i => if i < data.length then data.getD i 0 else junk i

/-- The 16 bytes `data[16 * i + j]`, `j = 0 .. 15`, that the block loops of both `main`
functions copy into `data_copy`. -/
def blockAt (data : List Nat) (i : Nat) : List Nat :=
  (List.range 16).map fun j => data.getD (16 * i + j) 0

/-- The loop `data[16 * i + j] = data_copy[j]`, `j = 0 .. 15`, of both `main` functions. -/
def copyBack (data : List Nat) (i : Nat) (data_copy : List Nat) : List Nat :=
  (List.range 16).foldl (fun data j => data.set (16 * i + j) (data_copy.getD j 0)) data

/-- The block loop shared by the two `main` functions, for `i = 0 .. byte16_sections - 1`:
copy out block `i`, run the block function `cipher` on the copy with the key, copy the
result back. -/
def blockLoop (cipher : List Nat → List Nat → List Nat) (data key : List Nat)
    (byte16_sections : Nat) : List Nat :=
  (List.range byte16_sections).foldl
    (fun data i => copyBack data i (cipher (blockAt data i) key)) data

namespace Encrypt

/-- The function `checkSizes` of `encrypt.c`, as `main` sees it: exit with failure unless the
key has 16 bytes; when the data size is not a multiple of 16, `*datasize` becomes the next
multiple, and the block is reallocated and its added bytes set to `0x00` through the
parameter `data`. That parameter is the function's own copy of the pointer, so `main` keeps
the pointer it had before the call. `moved` tells whether `realloc` (taken to succeed)
returned a block at another address, which frees the old block. The result is the updated
`*datasize` and the contents of the block that the pointer `data` of `main` designates
after the call, `none` when that block has been freed. -/
def checkSizes (junk : Nat → Nat) (moved : Bool) (keysize datasize : Nat) (data : List Nat) :
    Except Nat (Nat × Option (List Nat)) :=
  if keysize ≠ 16 then Except.error EXIT_FAILURE
  else if datasize % 16 ≠ 0 then
    let remainder := datasize % 16
    let padding := 16 - remainder
    let new_size := datasize + padding
    let data := realloc junk data new_size
    let data := (List.range' datasize (new_size - datasize)).foldl
      (fun data i => data.set i 0x00) data
    Except.ok (new_size, if moved then none else some data)
  else Except.ok (datasize, some data)

/-- The block loop of `main` in `encrypt.c`, with `byte16_sections = datasize / 16`. -/
def mainLoop (data key : List Nat) (datasize : Nat) : List Nat :=
  blockLoop encryptBlock data key (datasize / 16)

end Encrypt

namespace Decrypt

/-- The function `checkSizes` of `decrypt.c`: exit with failure unless the key has 16 bytes
and the data size is a multiple of 16. -/
def checkSizes (keysize datasize : Nat) : Except Nat Unit :=
  if keysize ≠ 16 then Except.error EXIT_FAILURE
  else if datasize % 16 ≠ 0 then Except.error EXIT_FAILURE
  else Except.ok ()

/-- The block loop of `main` in `decrypt.c`, with `byte16_sections = datasize / 16`. -/
def mainLoop (data key : List Nat) (datasize : Nat) : List Nat :=
  blockLoop decryptBlock data key (datasize / 16)

/-- The loop `while (data[datasize - 1] == 0x00) datasize -= 1;` of `main` in `decrypt.c`,
returning the final `datasize`. With `datasize = 0` the loop reads `data[-1]`, outside the
buffer: the behaviour is undefined and the result is `none`. -/
def stripPadding (data : List Nat) : Nat → Option Nat
  | 0 => none
  | datasize + 1 =>
    if data.getD datasize 0 = 0x00 then stripPadding data datasize else some (datasize + 1)

/-- What `main` of `decrypt.c` writes: the first `datasize` bytes of the buffer, `datasize`
being what the padding loop leaves. -/
def written (data : List Nat) : Option (List Nat) :=
  (stripPadding data data.length).map fun datasize => data.take datasize

end Decrypt

/-- The ten round constants listed by the specification, for rounds 1 to 10. -/
def roundConstants : List Nat := [0x01, 0x02, 0x04, 0x08, 0x10, 0x20, 0x40, 0x80, 0x1B, 0x36]

end P5

namespace P2

/-! ### `operation.c`: arithmetic on `long`

A `long` is an integer in `[LONG_MIN, LONG_MAX]`; signed overflow wraps around (two's
complement, 64 bits); `exit` is an `Except.error` carrying the exit status. -/

/-- The largest `long`, `2^63 - 1`. -/
def LONG_MAX : Int := 9223372036854775807

/-- The smallest `long`, `-2^63`. -/
def LONG_MIN : Int := -9223372036854775808

/-- The exit status `OUTSIDE_LONG_RANGE` of `operation.h`. -/
def OUTSIDE_LONG_RANGE : Nat := 100

/-- The 64-bit two's-complement value of an integer: the representative of `x` modulo
`2^64` in `[-2^63, 2^63)`. -/
def wrapLong (x : Int) : Int :=
  (x + 9223372036854775808) % 18446744073709551616 - 9223372036854775808

/-- The function `plus` of `operation.c`. -/
def plus (a b : Int) : Except Nat Int :=
  let sum := wrapLong (a + b)
  if a > 0 ∧ b > 0 ∧ sum < 0 then Except.error OUTSIDE_LONG_RANGE
  else if a < 0 ∧ b < 0 ∧ sum > 0 then Except.error OUTSIDE_LONG_RANGE
  else Except.ok sum

end P2

namespace P2

/-- The exit status `DIVIDE_BY_ZERO_ERR` of `operation.h`. -/
def DIVIDE_BY_ZERO_ERR : Nat := 101

/-- The exit status `NEGATIVE_EXPONENT` of `operation.h`. -/
def NEGATIVE_EXPONENT : Nat := 103

/-- The exit status `FAIL_INPUT` of `number.h`. -/
def FAIL_INPUT : Nat := 102

/-- The function `minus` of `operation.c`. -/
def minus (a b : Int) : Except Nat Int :=
  let difference := wrapLong (a - b)
  if a < 0 ∧ b > 0 ∧ difference > 0 then Except.error OUTSIDE_LONG_RANGE
  else if a > 0 ∧ b < 0 ∧ difference < 0 then Except.error OUTSIDE_LONG_RANGE
  else Except.ok difference

/-- The function `divide` of `operation.c`; the quotient of C is the one truncated toward
zero, `Int.tdiv`. -/
def divide (a b : Int) : Except Nat Int :=
  if b = 0 then Except.error DIVIDE_BY_ZERO_ERR
  else if a = LONG_MIN ∧ b = -1 then Except.error OUTSIDE_LONG_RANGE
  else Except.ok (Int.tdiv a b)

/-- The function `times` of `operation.c`: the two thresholds are computed first, by calls
of `divide`, which may exit. -/
def times (a b : Int) : Except Nat Int :=
  match divide LONG_MAX b with
  | Except.error status => Except.error status
  | Except.ok same_sign_threshold =>
    match divide LONG_MIN b with
    | Except.error status => Except.error status
    | Except.ok diff_sign_threshold =>
      if a > 0 ∧ b > 0 ∧ a > same_sign_threshold then Except.error OUTSIDE_LONG_RANGE
      else if a < 0 ∧ b < 0 ∧ a < same_sign_threshold then Except.error OUTSIDE_LONG_RANGE
      else if a > 0 ∧ b < 0 ∧ a > diff_sign_threshold then Except.error OUTSIDE_LONG_RANGE
      else if a < 0 ∧ b > 0 ∧ a < diff_sign_threshold then Except.error OUTSIDE_LONG_RANGE
      else Except.ok (wrapLong (a * b))

/-- The value `INT_MAX` of `limits.h`, for a 32-bit `int`. -/
def INT_MAX : Int := 2147483647

/-- The loop `for (int i = 0; i < b; i++) result = times(result, a);` of `exponential` on
the state `(i, result)`. The counter `i` is an `int` compared with the `long` `b`: when the
loop goes on at `i = INT_MAX`, the increment `i++` overflows and the function returns
nothing, which is the result `none` (the behaviour is undefined; where the counter wraps
around to a negative value the loop goes on for ever). The first argument bounds the number
of iterations; `none` is returned when the bound is reached. -/
def exponentialLoop (a b : Int) : Nat → Int → Int → Option (Except Nat Int)
  | 0, _, _ => none
  | fuel + 1, i, result =>
    if i < b then
      match times result a with
      | Except.error status => some (Except.error status)
      | Except.ok product =>
        if i = INT_MAX then none else exponentialLoop a b fuel (i + 1) product
    else some (Except.ok result)

/-- The function `exponential` of `operation.c`: the value returned or the exit status, and
`none` when the function does not return. The counter of the loop takes the values `0` to
`INT_MAX` at most, so the bound of `2^31 + 1` iterations is never reached. -/
def exponential (a b : Int) : Option (Except Nat Int) :=
  if b < 0 then some (Except.error NEGATIVE_EXPONENT)
  else exponentialLoop a b 2147483649 0 1

end P2


namespace P2

/-! ### `number_10.c` and `infix.c`: reading and evaluating an expression

Standard input is the list of the character codes not read yet. A function that reads
returns the stream it leaves. A loop takes a bound on its iterations and returns `none` when
the bound is reached; `exit` is `Except.error` with the exit status. The result is also
`none` when a call of `exponential` does not return. -/

/-- The value `EOF` of `stdio.h`. -/
def EOF : Int := -1

/-- The constant `ASCII_CODE_0` of `number.h`. -/
def ASCII_CODE_0 : Int := 48

/-- The constant `ASCII_CODE_9` of `number.h`. -/
def ASCII_CODE_9 : Int := 57

/-- The constant `BASE_10` of `number.h`. -/
def BASE_10 : Int := 10

/-- The call `ungetc(c, stdin)`: the character is put back on the stream, and nothing
happens when `c` is `EOF`. -/
def ungetc (c : Int) (stdin : List Nat) : List Nat :=
  if c = EOF then stdin else c.toNat :: stdin

/-- The function `skip_space` of `number_10.c`: the first character read that is no space
(`EOF` at the end of the input) and the stream left. -/
def skip_space : List Nat → Int × List Nat
  | [] => (EOF, [])
  | current_char :: stdin =>
    if (current_char : Int) = (' '.toNat : Int) then skip_space stdin
    else ((current_char : Int), stdin)

/-- The loop `while (ASCII_CODE_0 <= current_char && current_char <= ASCII_CODE_9)` of
`parse_value` on the state `(value, has_loop_run, current_char)` and the stream; the
arithmetic on `long` wraps. -/
def parseValueLoop : Nat → Int → Bool → Int → List Nat → Option (Int × Bool × Int × List Nat)
  | 0, _, _, _, _ => none
  | fuel + 1, value, has_loop_run, current_char, stdin =>
    if ASCII_CODE_0 ≤ current_char ∧ current_char ≤ ASCII_CODE_9 then
      parseValueLoop fuel (wrapLong (wrapLong (value * BASE_10) + (current_char - ASCII_CODE_0)))
        true (skip_space stdin).1 (skip_space stdin).2
    else some (value, has_loop_run, current_char, stdin)

/-- The function `parse_value` of `number_10.c`: the number parsed and the stream left. -/
def parse_value (fuel : Nat) (stdin : List Nat) : Option (Except Nat (Int × List Nat)) :=
  let first := skip_space stdin
  let is_negative : Bool := first.1 == ('-'.toNat : Int)
  let start := if is_negative then skip_space first.2 else first
  match parseValueLoop fuel 0 false start.1 start.2 with
  | none => none
  | some (value, has_loop_run, current_char, stdin) =>
    if !has_loop_run then some (Except.error FAIL_INPUT)
    else some (Except.ok
      (if is_negative then wrapLong (-value) else value, ungetc current_char stdin))

/-- The loop `while (next_char == '^')` of `parse_exp` on the state
`(current_val, next_char)` and the stream. -/
def parseExpLoop : Nat → Int → Int → List Nat → Option (Except Nat (Int × Int × List Nat))
  | 0, _, _, _ => none
  | fuel + 1, current_val, next_char, stdin =>
    if next_char = ('^'.toNat : Int) then
      match parse_value fuel stdin with
      | none => none
      | some (Except.error status) => some (Except.error status)
      | some (Except.ok (value, stdin)) =>
        match exponential current_val value with
        | none => none
        | some (Except.error status) => some (Except.error status)
        | some (Except.ok current_val) =>
          parseExpLoop fuel current_val (skip_space stdin).1 (skip_space stdin).2
    else some (Except.ok (current_val, next_char, stdin))

/-- The function `parse_exp` of `infix.c`: the value of the factor and the stream left. -/
def parse_exp (fuel : Nat) (stdin : List Nat) : Option (Except Nat (Int × List Nat)) :=
  match parse_value fuel stdin with
  | none => none
  | some (Except.error status) => some (Except.error status)
  | some (Except.ok (current_val, stdin)) =>
    match parseExpLoop fuel current_val (skip_space stdin).1 (skip_space stdin).2 with
    | none => none
    | some (Except.error status) => some (Except.error status)
    | some (Except.ok (current_val, next_char, stdin)) =>
      some (Except.ok (current_val, ungetc next_char stdin))

/-- The loop `while (next_char == '*' || next_char == '/')` of `parse_mul_div` on the state
`(current_val, next_char)` and the stream. -/
def parseMulDivLoop :
    Nat → Int → Int → List Nat → Option (Except Nat (Int × Int × List Nat))
  | 0, _, _, _ => none
  | fuel + 1, current_val, next_char, stdin =>
    if next_char = ('*'.toNat : Int) then
      match parse_exp fuel stdin with
      | none => none
      | some (Except.error status) => some (Except.error status)
      | some (Except.ok (value, stdin)) =>
        match times current_val value with
        | Except.error status => some (Except.error status)
        | Except.ok current_val =>
          parseMulDivLoop fuel current_val (skip_space stdin).1 (skip_space stdin).2
    else if next_char = ('/'.toNat : Int) then
      match parse_exp fuel stdin with
      | none => none
      | some (Except.error status) => some (Except.error status)
      | some (Except.ok (value, stdin)) =>
        match divide current_val value with
        | Except.error status => some (Except.error status)
        | Except.ok current_val =>
          parseMulDivLoop fuel current_val (skip_space stdin).1 (skip_space stdin).2
    else some (Except.ok (current_val, next_char, stdin))

/-- The function `parse_mul_div` of `infix.c`: the value of the term and the stream left. -/
def parse_mul_div (fuel : Nat) (stdin : List Nat) : Option (Except Nat (Int × List Nat)) :=
  match parse_exp fuel stdin with
  | none => none
  | some (Except.error status) => some (Except.error status)
  | some (Except.ok (current_val, stdin)) =>
    match parseMulDivLoop fuel current_val (skip_space stdin).1 (skip_space stdin).2 with
    | none => none
    | some (Except.error status) => some (Except.error status)
    | some (Except.ok (current_val, next_char, stdin)) =>
      some (Except.ok (current_val, ungetc next_char stdin))

/-- The loop `while (next_char == '+' || next_char == '-')` of `main` on the state
`(result, next_char)` and the stream. -/
def mainLoop : Nat → Int → Int → List Nat → Option (Except Nat (Int × Int))
  | 0, _, _, _ => none
  | fuel + 1, result, next_char, stdin =>
    if next_char = ('+'.toNat : Int) then
      match parse_mul_div fuel stdin with
      | none => none
      | some (Except.error status) => some (Except.error status)
      | some (Except.ok (value, stdin)) =>
        match plus result value with
        | Except.error status => some (Except.error status)
        | Except.ok result => mainLoop fuel result (skip_space stdin).1 (skip_space stdin).2
    else if next_char = ('-'.toNat : Int) then
      match parse_mul_div fuel stdin with
      | none => none
      | some (Except.error status) => some (Except.error status)
      | some (Except.ok (value, stdin)) =>
        match minus result value with
        | Except.error status => some (Except.error status)
        | Except.ok result => mainLoop fuel result (skip_space stdin).1 (skip_space stdin).2
    else some (Except.ok (result, next_char))

/-- The function `main` of `infix.c`: the value printed, or the exit status. -/
def main (fuel : Nat) (stdin : List Nat) : Option (Except Nat Int) :=
  match parse_mul_div fuel stdin with
  | none => none
  | some (Except.error status) => some (Except.error status)
  | some (Except.ok (result, stdin)) =>
    match mainLoop fuel result (skip_space stdin).1 (skip_space stdin).2 with
    | none => none
    | some (Except.error status) => some (Except.error status)
    | some (Except.ok (result, next_char)) =>
      if next_char ≠ (' '.toNat : Int) ∧ next_char ≠ ('\n'.toNat : Int) then
        some (Except.error FAIL_INPUT)
      else some (Except.ok result)

/-! #### Well-formed input lines

A well-formed line is given by its structure; any number of spaces may stand before each of
its characters. -/

/-- The spaces that stand before a character of the line. -/
def pad (k : Nat) : List Nat := List.replicate k ' '.toNat

/-- A number as written in the line: an optional minus sign (with the number of spaces
before it) and the decimal digits, each with the number of spaces before it. -/
structure Literal where
  sign : Option Nat
  digits : List (Nat × Nat)

/-- A factor as written in the line: numbers joined by `^`, each operator with the number
of spaces before it. -/
structure Factor where
  first : Literal
  rest : List (Nat × Literal)

/-- A term as written in the line: factors joined by `*` (`true`) or `/` (`false`), each
operator with the number of spaces before it. -/
structure Term where
  first : Factor
  rest : List (Nat × Bool × Factor)

/-- An expression as written in the line: terms joined by `+` (`true`) or `-` (`false`),
each operator with the number of spaces before it. -/
structure Expr where
  first : Term
  rest : List (Nat × Bool × Term)

/-- The characters of a sequence of digits. -/
def renderDigits (digits : List (Nat × Nat)) : List Nat :=
  digits.flatMap fun d => pad d.1 ++ ['0'.toNat + d.2]

/-- The characters of a number. -/
def Literal.render (l : Literal) : List Nat :=
  (match l.sign with
    | none => []
    | some k => pad k ++ ['-'.toNat]) ++ renderDigits l.digits

/-- The characters of the operators and numbers that follow the first number of a factor. -/
def renderPowers (rest : List (Nat × Literal)) : List Nat :=
  rest.flatMap fun p => pad p.1 ++ ['^'.toNat] ++ p.2.render

/-- The characters of a factor. -/
def Factor.render (f : Factor) : List Nat := f.first.render ++ renderPowers f.rest

/-- The characters of the operators and factors that follow the first factor of a term. -/
def renderFactors (rest : List (Nat × Bool × Factor)) : List Nat :=
  rest.flatMap fun p => pad p.1 ++ [if p.2.1 then '*'.toNat else '/'.toNat] ++ p.2.2.render

/-- The characters of a term. -/
def Term.render (t : Term) : List Nat := t.first.render ++ renderFactors t.rest

/-- The characters of the operators and terms that follow the first term of an
expression. -/
def renderTerms (rest : List (Nat × Bool × Term)) : List Nat :=
  rest.flatMap fun p => pad p.1 ++ [if p.2.1 then '+'.toNat else '-'.toNat] ++ p.2.2.render

/-- The characters of an expression. -/
def Expr.render (e : Expr) : List Nat := e.first.render ++ renderTerms e.rest

/-- The number that a sequence of decimal digits denotes. -/
def digitsValue (digits : List (Nat × Nat)) : Nat :=
  digits.foldl (fun value d => value * 10 + d.2) 0

/-- The parsed value of a number. -/
def Literal.value (l : Literal) : Int :=
  match l.sign with
  | none => (digitsValue l.digits : Int)
  | some _ => -(digitsValue l.digits : Int)

/-- A number is well formed: it has a digit, its digits are decimal, and its magnitude is
at most `LONG_MAX`. -/
def Literal.WellFormed (l : Literal) : Prop :=
  l.digits ≠ [] ∧ (∀ d ∈ l.digits, d.2 < 10) ∧ (digitsValue l.digits : Int) ≤ LONG_MAX

/-- All the numbers of a factor are well formed. -/
def Factor.WellFormed (f : Factor) : Prop :=
  f.first.WellFormed ∧ ∀ p ∈ f.rest, p.2.WellFormed

/-- All the factors of a term are well formed. -/
def Term.WellFormed (t : Term) : Prop :=
  t.first.WellFormed ∧ ∀ p ∈ t.rest, p.2.2.WellFormed

/-- All the terms of an expression are well formed. -/
def Expr.WellFormed (e : Expr) : Prop :=
  e.first.WellFormed ∧ ∀ p ∈ e.rest, p.2.2.WellFormed

/-- One computation after another: when the first one does not return (`none`) or exits,
that is the outcome; otherwise the second one runs on the value of the first. -/
def andThen {α β : Type} (x : Option (Except Nat α)) (f : α → Option (Except Nat β)) :
    Option (Except Nat β) :=
  match x with
  | none => none
  | some (Except.error status) => some (Except.error status)
  | some (Except.ok a) => f a

/-- The value of a factor: `exponential` folded from left to right over the parsed
values. -/
def Factor.eval (f : Factor) : Option (Except Nat Int) :=
  f.rest.foldl (fun acc p => andThen acc fun a => exponential a p.2.value)
    (some (Except.ok f.first.value))

/-- The value of a term: `times` and `divide` folded from left to right over the
factors. -/
def Term.eval (t : Term) : Option (Except Nat Int) :=
  t.rest.foldl
    (fun acc p => andThen acc fun a => andThen p.2.2.eval fun b =>
      some (if p.2.1 then times a b else divide a b))
    t.first.eval

/-- The value of an expression: `plus` and `minus` folded from left to right over the
terms. -/
def Expr.eval (e : Expr) : Option (Except Nat Int) :=
  e.rest.foldl
    (fun acc p => andThen acc fun a => andThen p.2.2.eval fun b =>
      some (if p.2.1 then plus a b else minus a b))
    e.first.eval

/-- Every exponent of the factor is at most `INT_MAX`. -/
def Factor.ExponentsFit (f : Factor) : Prop :=
  ∀ p ∈ f.rest, p.2.value ≤ INT_MAX

/-- Every exponent of the term is at most `INT_MAX`. -/
def Term.ExponentsFit (t : Term) : Prop :=
  t.first.ExponentsFit ∧ ∀ p ∈ t.rest, p.2.2.ExponentsFit

/-- Every exponent of the expression is at most `INT_MAX`. -/
def Expr.ExponentsFit (e : Expr) : Prop :=
  e.first.ExponentsFit ∧ ∀ p ∈ e.rest, p.2.2.ExponentsFit

end P2

namespace P3

/-! ### `syntax.c`: identifiers in a line of text

A C string is the list of the character codes before its terminating `'\0'`; reading the
string at its length gives the terminator `0`. -/

/-- The constant `LINE_LIMIT` of `io.h`. -/
def LINE_LIMIT : Nat := 100

/-- The constant `DEFAULT_COLOR` of `io.h`. -/
def DEFAULT_COLOR : Int := 0

/-- The constant `IDENT_COLOR` of `io.h`. -/
def IDENT_COLOR : Int := 1

/-- The exit status `EXIT_FAILURE` of `stdlib.h`. -/
def EXIT_FAILURE : Nat := 1

/-- The function `isLetter` of `syntax.c`. -/
def isLetter (ch : Nat) : Bool :=
  ('A'.toNat ≤ ch && ch ≤ 'Z'.toNat) || ('a'.toNat ≤ ch && ch ≤ 'z'.toNat)

/-- The function `isUnderscore` of `syntax.c`. -/
def isUnderscore (ch : Nat) : Bool := ch == '_'.toNat

/-- The function `isDigit` of `syntax.c`. -/
def isDigit (ch : Nat) : Bool := '0'.toNat ≤ ch && ch ≤ '9'.toNat

/-- The loop `for (i = 1; ident[i]; i++)` of `validIdentifier`, on the characters from
index `i` on: it stops at the terminator, or returns `false` at the first character that is
no letter, digit or underscore. -/
def validIdentifierLoop : List Nat → Bool
  | [] => true
  | ch :: rest =>
    if ch = 0 then true
    else if !isLetter ch && !isDigit ch && !isUnderscore ch then false
    else validIdentifierLoop rest

/-- The function `validIdentifier` of `syntax.c`. -/
def validIdentifier (ident : List Nat) : Bool :=
  if !isLetter (ident.getD 0 0) && !isUnderscore (ident.getD 0 0) then false
  else validIdentifierLoop (ident.drop 1)

/-- The loop `for (j = 0; j < strlen(word); j++) color[color_idx++] = value;` of
`markIdentifier`, started with `color_idx = start`. -/
def writeColor (color : List Int) (start count : Nat) (value : Int) : List Int :=
  (List.range count).foldl (fun color j => color.set (start + j) value) color

/-- The main loop of `markIdentifier` on the state `(i, found_identifier, color)`; the first
argument bounds the number of iterations. -/
def markLoop (word line : List Nat) : Nat → Nat → Bool → List Int → Bool × List Int
  | 0, _, found_identifier, color => (found_identifier, color)
  | fuel + 1, i, found_identifier, color =>
    if (i : Int) ≤ (line.length : Int) - (word.length : Int) then
      if (line.drop i).take word.length ≠ word
          ∨ (i ≠ 0 ∧ validIdentifier [line.getD (i - 1) 0] = true)
          ∨ ((i : Int) ≠ (line.length : Int) - (word.length : Int)
              ∧ validIdentifier [line.getD (i + word.length) 0] = true) then
        markLoop word line fuel (i + 1) found_identifier
          (writeColor color i word.length DEFAULT_COLOR)
      else
        markLoop word line fuel (i + (word.length - 1) + 1) true
          ((writeColor color i word.length IDENT_COLOR).set (i + word.length) DEFAULT_COLOR)
    else (found_identifier, color)

/-- The function `markIdentifier` of `syntax.c`: the value returned and the `color` array
it leaves, or the exit status. The index `i` grows in every iteration and stays at most
`strlen(line)`, so `strlen(line) + 1` iterations are enough. -/
def markIdentifier (word line : List Nat) (color : List Int) : Except Nat (Bool × List Int) :=
  if validIdentifier word = false ∨ line.length > LINE_LIMIT then Except.error EXIT_FAILURE
  else Except.ok (markLoop word line (line.length + 1) 0 false color)

/-- An identifier character: a letter, a digit or an underscore. -/
def isIdentChar (ch : Nat) : Bool :=
  (65 ≤ ch && ch ≤ 90) || (97 ≤ ch && ch ≤ 122) || (48 ≤ ch && ch ≤ 57) || ch == 95

/-- The target identifier `word` occurs in `line` at position `i`: the line contains `word`
there, and the characters immediately before and after, when present, are not identifier
characters. -/
def occursAt (word line : List Nat) (i : Nat) : Bool :=
  i + word.length ≤ line.length && (line.drop i).take word.length == word
    && (i == 0 || !isIdentChar (line.getD (i - 1) 0))
    && (i + word.length == line.length || !isIdentChar (line.getD (i + word.length) 0))

/-- Index `p` of the line lies inside an occurrence of the target identifier. -/
def insideOccurrence (word line : List Nat) (p : Nat) : Bool :=
  (List.range line.length).any fun i => occursAt word line i && i ≤ p && p < i + word.length

end P3


namespace P6

/-! ### `queue.c`: a queue as a linked list

A node is known by its address, a natural number; a pointer to a node is an `Option`, with
`none` for `NULL`. The memory is the map `next` from nodes to their `next` pointers. The
field `tail` of the queue, a pointer to a pointer, is `none` when it is `&q->head` and
`some n` when it is `&n->next`. -/

/-- The memory (the `next` field of every node) together with the fields of the queue. -/
structure QState where
  next : Nat → Option Nat
  head : Option Nat
  tail : Option Nat

/-- The function `makeQueue` of `queue.c`, in a given memory. -/
def makeQueue (next : Nat → Option Nat) : QState :=
  { next := next, head := none, tail := none }

/-- The assignment `*(q->tail) = n`. -/
def storeAtTail (s : QState) (n : Nat) : QState :=
  match s.tail with
  | none => { s with head := some n }
  | some t => { s with next := fun m => if m = t then some n else s.next m }

/-- The function `enqueue` of `queue.c`. -/
def enqueue (s : QState) (n : Nat) : QState :=
  match s.head with
  | none => { s with head := some n, tail := some n }
  | some _ => { storeAtTail s n with tail := some n }

/-- The function `dequeue` of `queue.c`: the node returned and the new state. -/
def dequeue (s : QState) : Option Nat × QState :=
  match s.head with
  | none => (none, s)
  | some front =>
    match s.next front with
    | none => (some front, { s with head := none, tail := none })
    | some second => (some front, { s with head := some second })

/-- The outcome of `k` successive calls of `dequeue`: the nodes returned, in order, and the
final state. -/
def dequeueMany : Nat → QState → List (Option Nat) × QState
  | 0, s => ([], s)
  | k + 1, s =>
    ((dequeue s).1 :: (dequeueMany k (dequeue s).2).1, (dequeueMany k (dequeue s).2).2)

/-- The loop `while (current && !current->equals(example, current))` of `promote`, on the
state `(prev, current)`; `found n` is the value of `n->equals(example, n)`. The first
argument bounds the number of iterations; `none` is returned when the bound is reached. -/
def promoteLoop (next : Nat → Option Nat) (found : Nat → Bool) :
    Nat → Option Nat → Option Nat → Option (Option Nat × Option Nat)
  | 0, _, _ => none
  | fuel + 1, prev, current =>
    match current with
    | none => some (prev, none)
    | some c =>
      if found c then some (prev, some c)
      else promoteLoop next found fuel (some c) (next c)

/-- The function `promote` of `queue.c`: the value returned and the new state, `none` when
the bound on the iterations of the loop is reached. -/
def promote (fuel : Nat) (found : Nat → Bool) (s : QState) : Option (Bool × QState) :=
  match s.head with
  | none => some (false, s)
  | some h =>
    match promoteLoop s.next found fuel none (some h) with
    | none => none
    | some (_, none) => some (false, s)
    | some (prev, some current) =>
      if current = h then some (true, s)
      else
        match prev with
        | none => none
        | some p =>
          let tail := if s.next current = none then some p else s.tail
          let next1 := fun m => if m = p then s.next current else s.next m
          let next2 := fun m => if m = current then s.head else next1 m
          some (true, { next := next2, head := some current, tail := tail })

/-- The nodes reached from the pointer `p` by following `next` are exactly the nodes of the
list, in order, and the last one has a null `next` pointer. -/
def chain (next : Nat → Option Nat) : Option Nat → List Nat → Prop
  | p, [] => p = none
  | p, x :: l => p = some x ∧ chain next (next x) l

/-- The state holds a well-formed queue with the nodes `l`, front first: the nodes are
distinct, linked from `head` in order, and `tail` designates the null pointer that ends the
list. -/
def IsQueue (s : QState) (l : List Nat) : Prop :=
  chain s.next s.head l ∧ l.Nodup ∧ s.tail = l.getLast?

end P6

namespace P4

/-! ### `schedule.c`: ordering courses by timeslot

A C string is the list of the character codes before its terminating `'\0'`. -/

end P4


namespace P5

/-! ## Theorems -/

/-! ### Bit-level facts about natural numbers -/

theorem testBit_false_of_lt {p n i : Nat} (h : p < 2 ^ n) (hi : n ≤ i) :
    p.testBit i = false :=
  Nat.testBit_lt_two_pow (Nat.lt_of_lt_of_le h (Nat.pow_le_pow_right (by decide) hi))

theorem testBit_top {p n : Nat} (h1 : 2 ^ n ≤ p) (h2 : p < 2 ^ (n + 1)) :
    p.testBit n = true := by
  by_contra hc
  have hlt : p < 2 ^ n := by
    apply Nat.lt_pow_two_of_testBit
    intro i hi
    rcases Nat.eq_or_lt_of_le hi with h | h
    · subst h; simpa using hc
    · exact testBit_false_of_lt h2 h
  omega

theorem xor_shiftLeft (x y i : Nat) : (x ^^^ y) <<< i = (x <<< i) ^^^ (y <<< i) := by
  apply Nat.eq_of_testBit_eq
  intro j
  simp only [Nat.testBit_shiftLeft, Nat.testBit_xor]
  cases decide (j ≥ i) <;> simp

theorem two_mul_xor (x y : Nat) : 2 * (x ^^^ y) = (2 * x) ^^^ (2 * y) := by
  have h := xor_shiftLeft x y 1
  simp only [Nat.shiftLeft_eq, Nat.pow_one] at h
  rw [Nat.mul_comm 2 (x ^^^ y), Nat.mul_comm 2 x, Nat.mul_comm 2 y]
  exact h

theorem xor_mod_256 {x y : Nat} (hx : x < 256) (hy : y < 256) : (x ^^^ y) % 256 = x ^^^ y :=
  Nat.mod_eq_of_lt (Nat.xor_lt_two_pow (n := 8) hx hy)

theorem and_one_shiftLeft_ne_zero (b i : Nat) : b &&& (1 <<< i) ≠ 0 ↔ b.testBit i = true := by
  rw [Nat.shiftLeft_eq, Nat.one_mul, Nat.and_two_pow]
  cases b.testBit i <;> simp

theorem mod_two_pow_succ (b n : Nat) :
    b % 2 ^ (n + 1) = (b % 2 ^ n) ^^^ (if b.testBit n then 2 ^ n else 0) := by
  apply Nat.eq_of_testBit_eq
  intro i
  simp only [Nat.testBit_mod_two_pow, Nat.testBit_xor]
  by_cases hb : b.testBit n = true
  · simp only [hb, if_true, Nat.testBit_two_pow]
    by_cases hi : n = i
    · subst hi; simp [hb]
    · have : (i < n + 1) ↔ (i < n) := by omega
      simp [hi, this]
  · simp only [hb, Nat.zero_testBit, Bool.xor_false]
    by_cases hi : i = n
    · subst hi; simp [hb]
    · have : (i < n + 1) ↔ (i < n) := by omega
      simp [this]

/-- Cancelling the top coefficient: a value below `2 ^ (j + 9)` whose bit `j + 8` is set
drops below `2 ^ (j + 8)` when the reducer `283`, shifted by `j`, is added. -/
theorem xor_reducer_lt {p j : Nat} (h : p < 2 ^ (j + 9)) (ht : p.testBit (j + 8) = true) :
    p ^^^ (283 <<< j) < 2 ^ (j + 8) := by
  apply Nat.lt_pow_two_of_testBit
  intro i hi
  rw [Nat.testBit_xor, Nat.testBit_shiftLeft]
  rcases Nat.eq_or_lt_of_le hi with h' | h'
  · subst h'
    have : j + 8 - j = 8 := by omega
    rw [ht, this]
    have : decide (j + 8 ≥ j) = true := by simp
    rw [this]
    decide
  · have h1 : p.testBit i = false := testBit_false_of_lt h h'
    have h2 : Nat.testBit 283 (i - j) = false :=
      testBit_false_of_lt (n := 9) (by decide) (by omega)
    simp [h1, h2]

theorem lt_of_testBit_top_false {p n : Nat} (h : p < 2 ^ (n + 1)) (ht : p.testBit n = false) :
    p < 2 ^ n := by
  apply Nat.lt_pow_two_of_testBit
  intro i hi
  rcases Nat.eq_or_lt_of_le hi with h' | h'
  · subst h'; exact ht
  · exact testBit_false_of_lt h h'

theorem shiftRight_ne_zero_iff {p n : Nat} (h : p < 2 ^ (n + 1)) :
    p >>> n ≠ 0 ↔ p.testBit n = true := by
  rw [Nat.shiftRight_eq_div_pow]
  constructor
  · intro hne
    apply testBit_top _ h
    by_contra hc
    exact hne (Nat.div_eq_of_lt (by omega))
  · intro ht hz
    have := Nat.testBit_implies_ge ht
    have hpos : 0 < 2 ^ n := Nat.two_pow_pos n
    rw [Nat.div_eq_zero_iff hpos] at hz
    omega

/-! ### `getBitCount` and the reduction loop of `fieldMulPhase2` -/

theorem log2_reducer : Nat.log2 283 = 8 := by
  simp [Nat.log2]

theorem getBitCountLoop_eq : ∀ (fuel bit_count value : Nat), value < 2 ^ fuel →
    getBitCountLoop fuel bit_count value
      = bit_count + (if value = 0 then 0 else value.log2 + 1) := by
  intro fuel
  induction fuel with
  | zero =>
    intro c v hv
    have : v = 0 := by simpa using hv
    simp [getBitCountLoop, this]
  | succ fuel ih =>
    intro c v hv
    by_cases h0 : v = 0
    · simp [getBitCountLoop, h0]
    · have hhalf : v >>> 1 < 2 ^ fuel := by
        rw [Nat.shiftRight_eq_div_pow, Nat.pow_one]
        rw [Nat.pow_succ] at hv
        omega
      rw [getBitCountLoop, if_pos h0, ih _ _ hhalf, if_neg h0]
      rw [Nat.shiftRight_eq_div_pow, Nat.pow_one]
      conv => rhs; rw [Nat.log2]
      by_cases h2 : v ≥ 2
      · have : v / 2 ≠ 0 := by omega
        simp [h2, this]; omega
      · have : v / 2 = 0 := by omega
        simp [h2, this]

/-- On an `unsigned short`, the loop of `getBitCount` stops by its own condition within
16 iterations and returns the bit length of the value. -/
theorem getBitCount_eq {value : Nat} (h : value < 65536) :
    getBitCount value = if value = 0 then 0 else value.log2 + 1 := by
  have := getBitCountLoop_eq 16 0 value (by simpa using h)
  simpa [getBitCount] using this

theorem lt_two_pow_getBitCount {value : Nat} (h : value < 65536) :
    value < 2 ^ getBitCount value := by
  rw [getBitCount_eq h]
  by_cases h0 : value = 0
  · simp [h0]
  · simp only [if_neg h0]; exact Nat.lt_log2_self

theorem getBitCount_le {value : Nat} (h : value < 65536) : getBitCount value ≤ 16 := by
  rw [getBitCount_eq h]
  by_cases h0 : value = 0
  · simp [h0]
  · simp only [if_neg h0]
    have : value.log2 < 16 := (Nat.log2_lt h0).2 (by simpa using h)
    omega

theorem polyModAux_lt : ∀ (k p : Nat), p < 2 ^ (k + 8) → polyModAux 283 k p < 256 := by
  intro k
  induction k with
  | zero => intro p hp; simpa [polyModAux] using hp
  | succ k ih =>
    intro p hp
    rw [polyModAux, log2_reducer]
    apply ih
    by_cases ht : p.testBit (k + 8) = true
    · rw [if_pos ht]; exact xor_reducer_lt hp ht
    · rw [if_neg ht]; exact lt_of_testBit_top_false hp (by simpa using ht)

theorem polyModAux_succ_of_lt {k p : Nat} (hp : p < 2 ^ (k + 8)) :
    polyModAux 283 (k + 1) p = polyModAux 283 k p := by
  rw [polyModAux, log2_reducer, if_neg]
  simp [Nat.testBit_lt_two_pow hp]

theorem polyModAux_of_le {k p : Nat} (hp : p < 2 ^ (k + 8)) :
    ∀ d, polyModAux 283 (k + d) p = polyModAux 283 k p := by
  intro d
  induction d with
  | zero => rfl
  | succ d ih =>
    rw [← Nat.add_assoc, polyModAux_succ_of_lt, ih]
    exact Nat.lt_of_lt_of_le hp (Nat.pow_le_pow_right (by decide) (by omega))

/-- Long division is additive: the remainder of a sum is the sum of the remainders. -/
theorem polyModAux_xor (m : Nat) : ∀ (k x y : Nat),
    polyModAux m k (x ^^^ y) = polyModAux m k x ^^^ polyModAux m k y := by
  intro k
  induction k with
  | zero => intro x y; rfl
  | succ k ih =>
    intro x y
    simp only [polyModAux]
    rw [← ih]
    congr 1
    rw [Nat.testBit_xor]
    cases hx : x.testBit (k + m.log2) <;> cases hy : y.testBit (k + m.log2) <;> simp
    · ac_rfl
    · ac_rfl
    · rw [Nat.xor_assoc, Nat.xor_comm (m <<< k), Nat.xor_assoc, Nat.xor_self, Nat.xor_zero]

/-- The loop of `fieldMulPhase2`, entered with `bit_count = k + 8` and `diff = k - 1` on a
value of at most `k + 8` bits, carries out the long division by `283`; `k` iterations are
enough for it to stop by its own condition `diff < 0`. -/
theorem fieldMulPhase2Loop_eq : ∀ (fuel k p : Nat), k ≤ fuel → k ≤ 8 → p < 2 ^ (k + 8) →
    fieldMulPhase2Loop fuel p ((k : Int) + 8) ((k : Int) - 1) = polyModAux 283 k p := by
  intro fuel
  induction fuel with
  | zero =>
    intro k p hk _ _
    have : k = 0 := by omega
    subst this
    simp [fieldMulPhase2Loop, polyModAux]
  | succ fuel ih =>
    intro k p hk hk8 hp
    cases k with
    | zero => simp [fieldMulPhase2Loop, polyModAux]
    | succ j =>
      have e1 : ((j + 1 : Nat) : Int) + 8 - 1 = (j : Int) + 8 := by push_cast; ring
      have e2 : ((j + 1 : Nat) : Int) - 1 = (j : Int) := by push_cast; ring
      have e3 : ((j : Int) + 8).toNat = j + 8 := by omega
      have hge : ((j + 1 : Nat) : Int) - 1 ≥ 0 := by omega
      rw [fieldMulPhase2Loop, if_pos hge, e1, e2, e3, Int.toNat_ofNat, polyModAux, log2_reducer]
      have hcond : p >>> (j + 8) ≠ 0 ↔ p.testBit (j + 8) = true := shiftRight_ne_zero_iff hp
      by_cases ht : p.testBit (j + 8) = true
      · have hlt := xor_reducer_lt hp ht
        have hlt' : p ^^^ 283 <<< j < 65536 :=
          Nat.lt_of_lt_of_le hlt (Nat.pow_le_pow_right (by decide) (by omega : j + 8 ≤ 16))
        rw [if_pos (hcond.2 ht), if_pos ht, Nat.mod_eq_of_lt hlt']
        exact ih j _ (by omega) (by omega) hlt
      · have hlt := lt_of_testBit_top_false hp (by simpa using ht)
        rw [if_neg (fun h => ht (hcond.1 h)), if_neg ht]
        exact ih j _ (by omega) (by omega) hlt

/-- On every `unsigned short`, the loop of `fieldMulPhase2` computes the remainder of the
value modulo the reducer `283`, and 8 iterations are enough for it to stop by its own
condition: any larger bound on the iterations gives the same result. -/
theorem fieldMulPhase2Loop_getBitCount {value : Nat} (h : value < 65536) (fuel : Nat)
    (hf : 8 ≤ fuel) :
    fieldMulPhase2Loop fuel value (getBitCount value) ((getBitCount value : Int) - 9)
      = polyMod value 283 := by
  have hlt := lt_two_pow_getBitCount h
  have hle := getBitCount_le h
  have hbc := getBitCount_eq h
  unfold polyMod
  rw [log2_reducer]
  by_cases h8 : 8 ≤ getBitCount value
  · obtain ⟨k, hk⟩ : ∃ k, getBitCount value = k + 8 := ⟨getBitCount value - 8, by omega⟩
    have h0 : value ≠ 0 := by
      intro h0; subst h0; simp at hbc; omega
    rw [if_neg h0] at hbc
    have hk' : value.log2 + 1 - 8 = k := by omega
    rw [hk', hk]
    have e : ((k + 8 : Nat) : Int) - 9 = (k : Int) - 1 := by push_cast; ring
    rw [e]
    push_cast
    rw [hk] at hlt
    exact fieldMulPhase2Loop_eq fuel k value (by omega) (by omega) hlt
  · have hneg : ¬ ((getBitCount value : Int) - 9 ≥ 0) := by omega
    have hk' : value.log2 + 1 - 8 = 0 := by
      by_cases h0 : value = 0
      · subst h0; simp [Nat.log2_zero]
      · rw [if_neg h0] at hbc; omega
    obtain ⟨f, rfl⟩ : ∃ f, fuel = f + 1 := ⟨fuel - 1, by omega⟩
    rw [hk', fieldMulPhase2Loop, if_neg hneg, polyModAux]

theorem fieldMulPhase2Wide_eq_polyMod {value : Nat} (h : value < 65536) :
    fieldMulPhase2Wide value = polyMod value 283 :=
  fieldMulPhase2Loop_getBitCount h 8 (Nat.le_refl 8)

/-- For `k ≥ value.log2 + 1 - 8` the long division gives the same remainder. -/
theorem polyMod_eq_polyModAux_eight {value : Nat} (h : value < 65536) :
    polyMod value 283 = polyModAux 283 8 value := by
  unfold polyMod
  rw [log2_reducer]
  have hk : value.log2 + 1 - 8 ≤ 8 ∧ value < 2 ^ (value.log2 + 1 - 8 + 8) := by
    by_cases h0 : value = 0
    · subst h0; simp [Nat.log2_zero]
    · have h1 : value.log2 < 16 := (Nat.log2_lt h0).2 (by simpa using h)
      refine ⟨by omega, ?_⟩
      exact Nat.lt_of_lt_of_le Nat.lt_log2_self (Nat.pow_le_pow_right (by decide) (by omega))
  obtain ⟨d, hd⟩ : ∃ d, 8 = value.log2 + 1 - 8 + d := ⟨8 - (value.log2 + 1 - 8), by omega⟩
  conv => rhs; rw [hd]
  exact (polyModAux_of_le hk.2 d).symm

theorem fieldMulPhase2Wide_lt {value : Nat} (h : value < 65536) :
    fieldMulPhase2Wide value < 256 := by
  rw [fieldMulPhase2Wide_eq_polyMod h, polyMod_eq_polyModAux_eight h]
  exact polyModAux_lt 8 value (by simpa using h)

/-! ### Carry-less multiplication -/

theorem clMul_zero_right (a : Nat) : clMul a 0 = 0 := by
  rw [clMul]; simp

theorem clMul_unfold (a b : Nat) :
    clMul a b = (if b % 2 = 1 then a else 0) ^^^ clMul (2 * a) (b / 2) := by
  by_cases h : b = 0
  · subst h; simp [clMul_zero_right]
  · rw [clMul, if_neg h]

theorem clMul_xor_left : ∀ (b a c : Nat), clMul (a ^^^ c) b = clMul a b ^^^ clMul c b := by
  intro b
  induction b using Nat.strong_induction_on with
  | _ b ih =>
    intro a c
    by_cases h : b = 0
    · subst h; simp [clMul_zero_right]
    · rw [clMul_unfold (a ^^^ c), clMul_unfold a, clMul_unfold c, two_mul_xor,
        ih (b / 2) (by omega)]
      by_cases hp : b % 2 = 1
      · simp only [hp, if_true]; ac_rfl
      · simp only [hp, if_false, Nat.zero_xor]

theorem clMul_zero_left (b : Nat) : clMul 0 b = 0 := by
  have h := clMul_xor_left b 0 0
  rw [Nat.xor_self] at h
  rw [h, Nat.xor_self]

theorem clMul_two_mul_left : ∀ (b a : Nat), clMul (2 * a) b = 2 * clMul a b := by
  intro b
  induction b using Nat.strong_induction_on with
  | _ b ih =>
    intro a
    by_cases h : b = 0
    · subst h; simp [clMul_zero_right]
    · rw [clMul_unfold (2 * a), clMul_unfold a, two_mul_xor, ih (b / 2) (by omega)]
      by_cases hp : b % 2 = 1
      · simp only [hp, if_true]
      · simp only [hp, if_false, Nat.mul_zero]

theorem clMul_step (a b : Nat) :
    clMul a b = (if b % 2 = 1 then a else 0) ^^^ 2 * clMul a (b / 2) := by
  rw [clMul_unfold, clMul_two_mul_left]

theorem odd_eq_two_mul_xor_one {a : Nat} (h : a % 2 = 1) : a = (2 * (a / 2)) ^^^ 1 := by
  apply Nat.eq_of_testBit_eq
  intro i
  cases i with
  | zero => simp [h]; omega
  | succ i =>
    rw [Nat.testBit_xor, Nat.testBit_succ, Nat.testBit_succ, Nat.testBit_succ]
    have : 2 * (a / 2) / 2 = a / 2 := by omega
    simp [this]

/-- Carry-less multiplication is commutative. -/
theorem clMul_comm : ∀ (n a b : Nat), a + b = n → clMul a b = clMul b a := by
  intro n
  induction n using Nat.strong_induction_on with
  | _ n ih =>
    intro a b hn
    by_cases hb : b = 0
    · subst hb; rw [clMul_zero_right, clMul_zero_left]
    by_cases ha : a = 0
    · subst ha; rw [clMul_zero_right, clMul_zero_left]
    have h1 : clMul a (b / 2) = clMul (b / 2) a := ih (a + b / 2) (by omega) _ _ rfl
    have h2 : clMul b (a / 2) = clMul (a / 2) b := ih (b + a / 2) (by omega) _ _ rfl
    have h3 : clMul (a / 2) (b / 2) = clMul (b / 2) (a / 2) :=
      ih (a / 2 + b / 2) (by omega) _ _ rfl
    rw [clMul_step a b, h1, clMul_step (b / 2) a, clMul_step b a, h2, clMul_step (a / 2) b, h3,
      two_mul_xor, two_mul_xor]
    generalize 2 * (2 * clMul (b / 2) (a / 2)) = z
    by_cases hpa : a % 2 = 1 <;> by_cases hpb : b % 2 = 1
    · have ea := odd_eq_two_mul_xor_one hpa
      have eb := odd_eq_two_mul_xor_one hpb
      simp only [hpa, hpb, if_true]
      generalize a / 2 = a' at *
      generalize b / 2 = b' at *
      rw [ea, eb]
      ac_rfl
    · have eb : 2 * (b / 2) = b := by omega
      simp only [hpa, hpb, if_true, if_false, Nat.mul_zero, Nat.zero_xor, eb]
    · have ea : 2 * (a / 2) = a := by omega
      simp only [hpa, hpb, if_true, if_false, Nat.mul_zero, Nat.zero_xor, ea]
    · simp only [hpa, hpb, if_false, Nat.mul_zero, Nat.zero_xor]

theorem clMul_xor_right (a b c : Nat) : clMul a (b ^^^ c) = clMul a b ^^^ clMul a c := by
  rw [clMul_comm _ a (b ^^^ c) rfl, clMul_xor_left, clMul_comm _ b a rfl, clMul_comm _ c a rfl]

theorem clMul_two_pow : ∀ (n a : Nat), clMul a (2 ^ n) = a <<< n := by
  intro n
  induction n with
  | zero => intro a; rw [clMul_unfold]; simp [clMul_zero_right]
  | succ n ih =>
    intro a
    have h1 : 2 ^ (n + 1) % 2 = 0 := by rw [Nat.pow_succ]; omega
    have h2 : 2 ^ (n + 1) / 2 = 2 ^ n := by rw [Nat.pow_succ]; omega
    rw [clMul_unfold, h1, h2, ih]
    rw [if_neg (by decide), Nat.zero_xor, Nat.shiftLeft_eq, Nat.shiftLeft_eq, Nat.pow_succ,
      Nat.mul_comm 2 a, Nat.mul_assoc, Nat.mul_comm 2 (2 ^ n)]

theorem clMul_lt : ∀ (q p a b : Nat), a < 2 ^ p → b < 2 ^ q → clMul a b < 2 ^ (p + q) := by
  intro q
  induction q with
  | zero =>
    intro p a b _ hb
    have : b = 0 := by simpa using hb
    subst this
    rw [clMul_zero_right]
    exact Nat.two_pow_pos _
  | succ q ih =>
    intro p a b ha hb
    rw [clMul_unfold]
    apply Nat.xor_lt_two_pow
    · have : a < 2 ^ (p + (q + 1)) :=
        Nat.lt_of_lt_of_le ha (Nat.pow_le_pow_right (by decide) (by omega))
      split
      · exact this
      · exact Nat.two_pow_pos _
    · have h2a : 2 * a < 2 ^ (p + 1) := by rw [Nat.pow_succ]; omega
      have hb2 : b / 2 < 2 ^ q := by rw [Nat.pow_succ] at hb; omega
      have := ih (p + 1) (2 * a) (b / 2) h2a hb2
      have e : p + 1 + q = p + (q + 1) := by omega
      rwa [e] at this

/-- Phase 1 of `fieldMul` after its first `n` iterations holds the carry-less product of `a`
with the low `n` bits of `b`; the `unsigned short` accumulator never overflows. -/
theorem fieldMulPhase1_fold (a b : Nat) (ha : a < 256) : ∀ n, n ≤ 8 →
    (List.range n).foldl
      (fun result i =>
        if b &&& (1 <<< i) ≠ 0 then (result ^^^ (a <<< i)) % 65536 else result) 0
      = clMul a (b % 2 ^ n) := by
  intro n
  induction n with
  | zero => intro _; simp [Nat.mod_one, clMul_zero_right]
  | succ n ih =>
    intro hn
    rw [List.range_succ, List.foldl_append, ih (by omega), mod_two_pow_succ, clMul_xor_right]
    simp only [List.foldl_cons, List.foldl_nil]
    by_cases ht : b.testBit n = true
    · rw [if_pos ((and_one_shiftLeft_ne_zero b n).2 ht), if_pos ht, clMul_two_pow]
      apply Nat.mod_eq_of_lt
      have h1 : clMul a (b % 2 ^ n) < 2 ^ (8 + n) :=
        clMul_lt n 8 a _ (by simpa using ha) (Nat.mod_lt _ (Nat.two_pow_pos n))
      have h2 : a <<< n < 2 ^ (8 + n) := by
        rw [Nat.shiftLeft_eq, Nat.pow_add]
        exact Nat.mul_lt_mul_of_pos_right (by simpa using ha) (Nat.two_pow_pos n)
      exact Nat.lt_of_lt_of_le (Nat.xor_lt_two_pow h1 h2)
        (Nat.pow_le_pow_right (by decide) (by omega : 8 + n ≤ 16))
    · rw [if_neg (fun h => ht ((and_one_shiftLeft_ne_zero b n).1 h)), if_neg ht,
        clMul_zero_right, Nat.xor_zero]

/-- Phase 1 of `fieldMul` is the carry-less product of its two bytes. -/
theorem fieldMulPhase1_eq_clMul {a b : Nat} (ha : a < 256) (hb : b < 256) :
    fieldMulPhase1 a b = clMul a b := by
  have h := fieldMulPhase1_fold a b ha 8 (Nat.le_refl 8)
  have e : b % 2 ^ 8 = b := Nat.mod_eq_of_lt (by simpa using hb)
  rw [e] at h
  exact h

theorem fieldMulPhase1_lt {a b : Nat} (ha : a < 256) (hb : b < 256) :
    fieldMulPhase1 a b < 65536 := by
  rw [fieldMulPhase1_eq_clMul ha hb]
  exact clMul_lt 8 8 a b (by simpa using ha) (by simpa using hb)

/-! ### The remainder modulo the reducer -/

theorem clMul_reducer (q : Nat) :
    clMul q 283 = q <<< 8 ^^^ q <<< 4 ^^^ q <<< 3 ^^^ q <<< 1 ^^^ q <<< 0 := by
  have e : (283 : Nat) = 2 ^ 8 ^^^ 2 ^ 4 ^^^ 2 ^ 3 ^^^ 2 ^ 1 ^^^ 2 ^ 0 := by decide
  conv => lhs; rw [e]
  simp only [clMul_xor_right, clMul_two_pow]

/-- A non-zero multiple of the reducer has degree at least 8. -/
theorem clMul_reducer_ge {q : Nat} (h : q ≠ 0) : 256 ≤ clMul q 283 := by
  have hb : q.testBit q.log2 = true := testBit_top (Nat.log2_self_le h) Nat.lt_log2_self
  have hf : ∀ i, q.log2 + 1 ≤ i → q.testBit i = false :=
    fun i hi => testBit_false_of_lt Nat.lt_log2_self hi
  have ht : (clMul q 283).testBit (q.log2 + 8) = true := by
    rw [clMul_reducer]
    simp only [Nat.testBit_xor, Nat.testBit_shiftLeft]
    have e8 : q.log2 + 8 - 8 = q.log2 := by omega
    rw [e8, hb, hf (q.log2 + 8 - 4) (by omega), hf (q.log2 + 8 - 3) (by omega),
      hf (q.log2 + 8 - 1) (by omega), hf (q.log2 + 8 - 0) (by omega)]
    simp
  have := Nat.testBit_implies_ge ht
  have h2 : 2 ^ 8 ≤ 2 ^ (q.log2 + 8) := Nat.pow_le_pow_right (by decide) (by omega)
  omega

/-- Long division leaves a multiple of the reducer between the dividend and the remainder. -/
theorem polyModAux_quotient : ∀ (k p : Nat), ∃ q, p = clMul q 283 ^^^ polyModAux 283 k p := by
  intro k
  induction k with
  | zero => intro p; exact ⟨0, by simp [clMul_zero_left, polyModAux]⟩
  | succ k ih =>
    intro p
    rw [polyModAux, log2_reducer]
    by_cases ht : p.testBit (k + 8) = true
    · rw [if_pos ht]
      obtain ⟨q, hq⟩ := ih (p ^^^ 283 <<< k)
      refine ⟨q ^^^ 2 ^ k, ?_⟩
      rw [clMul_xor_left, clMul_comm _ (2 ^ k) 283 rfl, clMul_two_pow]
      generalize polyModAux 283 k (p ^^^ 283 <<< k) = r at hq
      calc p = (p ^^^ 283 <<< k) ^^^ 283 <<< k := (Nat.xor_cancel_right _ _).symm
        _ = (clMul q 283 ^^^ r) ^^^ 283 <<< k := by rw [hq]
        _ = clMul q 283 ^^^ 283 <<< k ^^^ r := by ac_rfl
    · rw [if_neg ht]
      exact ih p

/-- The remainder modulo the reducer is unique: two bytes that differ from the same value
by multiples of the reducer are equal. -/
theorem remainder_unique {p q q' r r' : Nat} (hr : r < 256) (hr' : r' < 256)
    (h : p = clMul q 283 ^^^ r) (h' : p = clMul q' 283 ^^^ r') : r = r' := by
  have e : clMul (q ^^^ q') 283 = r ^^^ r' := by
    rw [clMul_xor_left]
    have h1 : clMul q 283 = p ^^^ r := by rw [h, Nat.xor_cancel_right]
    have h2 : clMul q' 283 = p ^^^ r' := by rw [h', Nat.xor_cancel_right]
    rw [h1, h2]
    have : p ^^^ r ^^^ (p ^^^ r') = (p ^^^ p) ^^^ (r ^^^ r') := by ac_rfl
    rw [this, Nat.xor_self, Nat.zero_xor]
  have hlt : r ^^^ r' < 256 := Nat.xor_lt_two_pow (n := 8) hr hr'
  have hq : q ^^^ q' = 0 := by
    by_contra hne
    have := clMul_reducer_ge hne
    omega
  rw [hq, clMul_zero_left] at e
  exact Nat.xor_eq_zero.1 e.symm

/-! ### `fieldAdd`, `fieldSub`, `fieldMul` -/

theorem fieldAdd_eq {a b : Nat} (ha : a < 256) (hb : b < 256) : fieldAdd a b = a ^^^ b :=
  xor_mod_256 ha hb

theorem fieldAdd_lt (a b : Nat) : fieldAdd a b < 256 := Nat.mod_lt _ (by decide)

theorem fieldMul_lt (a b : Nat) : fieldMul a b < 256 := Nat.mod_lt _ (by decide)

theorem fieldMul_eq_polyMod {a b : Nat} (ha : a < 256) (hb : b < 256) :
    fieldMul a b = polyMod (clMul a b) 283 := by
  have h16 := fieldMulPhase1_lt ha hb
  unfold fieldMul fieldMulPhase2
  rw [Nat.mod_eq_of_lt (fieldMulPhase2Wide_lt h16), fieldMulPhase2Wide_eq_polyMod h16,
    fieldMulPhase1_eq_clMul ha hb]

theorem fieldMul_eq_polyModAux {a b : Nat} (ha : a < 256) (hb : b < 256) :
    fieldMul a b = polyModAux 283 8 (clMul a b) := by
  rw [fieldMul_eq_polyMod ha hb, polyMod_eq_polyModAux_eight]
  exact clMul_lt 8 8 a b (by simpa using ha) (by simpa using hb)

theorem fieldMul_comm {a b : Nat} (ha : a < 256) (hb : b < 256) :
    fieldMul a b = fieldMul b a := by
  rw [fieldMul_eq_polyMod ha hb, fieldMul_eq_polyMod hb ha, clMul_comm _ a b rfl]

/-- The product `fieldMul` is additive in its second argument. -/
theorem fieldMul_xor_right {a b c : Nat} (ha : a < 256) (hb : b < 256) (hc : c < 256) :
    fieldMul a (b ^^^ c) = fieldMul a b ^^^ fieldMul a c := by
  have hbc : b ^^^ c < 256 := Nat.xor_lt_two_pow (n := 8) hb hc
  rw [fieldMul_eq_polyModAux ha hbc, fieldMul_eq_polyModAux ha hb, fieldMul_eq_polyModAux ha hc,
    clMul_xor_right, polyModAux_xor]

/-! ### Claims on the field arithmetic -/

/-- C3: for all bytes `a` and `b`, `fieldMul a b` is the GF(2^8) product of `a` and `b`:
it is the remainder, computed by long division, of their carry-less product modulo
`x^8 + x^4 + x^3 + x + 1` (`283 = 0x11B`); it is a byte, it differs from the carry-less
product by a multiple of the reducer, and it is the only byte that does. -/
theorem fieldMul_is_gf256_product (a b : Nat) (ha : a < 256) (hb : b < 256) :
    fieldMul a b = polyMod (clMul a b) 0x11B ∧
    fieldMul a b < 256 ∧
    (∃ q, clMul a b = clMul q 0x11B ^^^ fieldMul a b) ∧
    (∀ q r, r < 256 → clMul a b = clMul q 0x11B ^^^ r → r = fieldMul a b) := by
  have hq : ∃ q, clMul a b = clMul q 283 ^^^ fieldMul a b := by
    rw [fieldMul_eq_polyModAux ha hb]
    exact polyModAux_quotient 8 (clMul a b)
  refine ⟨fieldMul_eq_polyMod ha hb, fieldMul_lt a b, hq, ?_⟩
  intro q r hr h
  obtain ⟨q', hq'⟩ := hq
  exact remainder_unique hr (fieldMul_lt a b) h hq'

theorem fieldMul_is_gf256_product_witness :
    (0x57 < 256 ∧ 0x83 < 256) ∧
    (fieldMul 0x57 0x83 = polyMod (clMul 0x57 0x83) 0x11B ∧
     fieldMul 0x57 0x83 < 256 ∧
     (∃ q, clMul 0x57 0x83 = clMul q 0x11B ^^^ fieldMul 0x57 0x83) ∧
     (∀ q r, r < 256 → clMul 0x57 0x83 = clMul q 0x11B ^^^ r → r = fieldMul 0x57 0x83)) :=
  ⟨⟨by decide, by decide⟩, fieldMul_is_gf256_product 0x57 0x83 (by decide) (by decide)⟩

/-- C4: for all bytes `a` and `b`, `fieldAdd a b` and `fieldSub a b` are both `a XOR b`, so
addition and subtraction coincide, and `fieldAdd a a = 0`. -/
theorem fieldAdd_fieldSub_xor (a b : Nat) (ha : a < 256) (hb : b < 256) :
    fieldAdd a b = a ^^^ b ∧ fieldSub a b = a ^^^ b ∧ fieldAdd a b = fieldSub a b ∧
    fieldAdd a a = 0 := by
  refine ⟨xor_mod_256 ha hb, xor_mod_256 ha hb, rfl, ?_⟩
  simp [fieldAdd]

theorem fieldAdd_fieldSub_xor_witness :
    (0x57 < 256 ∧ 0x83 < 256) ∧
    (fieldAdd 0x57 0x83 = 0x57 ^^^ 0x83 ∧ fieldSub 0x57 0x83 = 0x57 ^^^ 0x83 ∧
     fieldAdd 0x57 0x83 = fieldSub 0x57 0x83 ∧ fieldAdd 0x57 0x57 = 0) :=
  ⟨⟨by decide, by decide⟩, fieldAdd_fieldSub_xor 0x57 0x83 (by decide) (by decide)⟩

set_option maxRecDepth 100000 in
theorem fieldMul_units_all :
    ∀ a, a < 256 → fieldMul a 1 = a ∧ fieldMul a 0 = 0 ∧ fieldMul 1 a = a ∧ fieldMul 0 a = 0 := by
  decide

/-- C5: for every byte `a`, `fieldMul a 1 = a` and `fieldMul a 0 = 0`, and likewise with the
arguments swapped. -/
theorem fieldMul_one_zero (a : Nat) (ha : a < 256) :
    fieldMul a 1 = a ∧ fieldMul a 0 = 0 ∧ fieldMul 1 a = a ∧ fieldMul 0 a = 0 :=
  fieldMul_units_all a ha

theorem fieldMul_one_zero_witness :
    0xC5 < 256 ∧
    (fieldMul 0xC5 1 = 0xC5 ∧ fieldMul 0xC5 0 = 0 ∧ fieldMul 1 0xC5 = 0xC5 ∧
     fieldMul 0 0xC5 = 0) :=
  ⟨by decide, fieldMul_one_zero 0xC5 (by decide)⟩

/-- C6: for all bytes `a` and `b`, `fieldMul a b = fieldMul b a`. -/
theorem fieldMul_commutative (a b : Nat) (ha : a < 256) (hb : b < 256) :
    fieldMul a b = fieldMul b a :=
  fieldMul_comm ha hb

theorem fieldMul_commutative_witness :
    (0x57 < 256 ∧ 0x13 < 256) ∧ fieldMul 0x57 0x13 = fieldMul 0x13 0x57 :=
  ⟨⟨by decide, by decide⟩, fieldMul_commutative 0x57 0x13 (by decide) (by decide)⟩

/-- C7: for all bytes `a`, `b`, `c`,
`fieldMul a (fieldAdd b c) = fieldAdd (fieldMul a b) (fieldMul a c)`: multiplication
distributes over XOR-addition. -/
theorem fieldMul_distrib (a b c : Nat) (ha : a < 256) (hb : b < 256) (hc : c < 256) :
    fieldMul a (fieldAdd b c) = fieldAdd (fieldMul a b) (fieldMul a c) := by
  rw [fieldAdd_eq hb hc, fieldAdd_eq (fieldMul_lt a b) (fieldMul_lt a c),
    fieldMul_xor_right ha hb hc]

theorem fieldMul_distrib_witness :
    (0x57 < 256 ∧ 0x83 < 256 ∧ 0x13 < 256) ∧
    fieldMul 0x57 (fieldAdd 0x83 0x13) = fieldAdd (fieldMul 0x57 0x83) (fieldMul 0x57 0x13) :=
  ⟨⟨by decide, by decide, by decide⟩,
    fieldMul_distrib 0x57 0x83 0x13 (by decide) (by decide) (by decide)⟩

/-- C8: for every 16-bit value `v`, the value `fieldMulPhase2` holds at the end of its
reduction loop is already below 256, so narrowing it to a byte changes nothing; the loops
of `getBitCount` and `fieldMulPhase2` stop by their own conditions within 16 and 8
iterations (any larger bound gives the same value);
hence for all bytes `a`, `b` the result of `fieldMul` is that fully reduced value, a
single byte. -/
theorem fieldMulPhase2_reduced (v : Nat) (hv : v < 65536) :
    fieldMulPhase2Wide v < 256 ∧
    fieldMulPhase2 v = fieldMulPhase2Wide v ∧
    (∀ fuel, 16 ≤ fuel → getBitCountLoop fuel 0 v = getBitCount v) ∧
    (∀ fuel, 8 ≤ fuel →
      fieldMulPhase2Loop fuel v (getBitCount v) ((getBitCount v : Int) - 9)
        = fieldMulPhase2Wide v) ∧
    (∀ a b, a < 256 → b < 256 →
      fieldMulPhase1 a b < 65536 ∧
      fieldMul a b = fieldMulPhase2Wide (fieldMulPhase1 a b) ∧ fieldMul a b < 256) := by
  refine ⟨fieldMulPhase2Wide_lt hv, Nat.mod_eq_of_lt (fieldMulPhase2Wide_lt hv), ?_, ?_, ?_⟩
  · intro fuel hf
    have h2 : v < 2 ^ fuel :=
      Nat.lt_of_lt_of_le (by simpa using hv) (Nat.pow_le_pow_right (by decide) hf)
    rw [getBitCountLoop_eq fuel 0 v h2, getBitCount_eq hv, Nat.zero_add]
  · intro fuel hf
    rw [fieldMulPhase2Loop_getBitCount hv fuel hf, fieldMulPhase2Wide_eq_polyMod hv]
  · intro a b ha hb
    have h16 := fieldMulPhase1_lt ha hb
    exact ⟨h16, Nat.mod_eq_of_lt (fieldMulPhase2Wide_lt h16), fieldMul_lt a b⟩

theorem fieldMulPhase2_reduced_witness :
    0xFFFF < 65536 ∧
    (fieldMulPhase2Wide 0xFFFF < 256 ∧
     fieldMulPhase2 0xFFFF = fieldMulPhase2Wide 0xFFFF ∧
     (∀ fuel, 16 ≤ fuel → getBitCountLoop fuel 0 0xFFFF = getBitCount 0xFFFF) ∧
     (∀ fuel, 8 ≤ fuel →
       fieldMulPhase2Loop fuel 0xFFFF (getBitCount 0xFFFF) ((getBitCount 0xFFFF : Int) - 9)
         = fieldMulPhase2Wide 0xFFFF) ∧
     (∀ a b, a < 256 → b < 256 →
       fieldMulPhase1 a b < 65536 ∧
       fieldMul a b = fieldMulPhase2Wide (fieldMulPhase1 a b) ∧ fieldMul a b < 256)) :=
  ⟨by decide, fieldMulPhase2_reduced 0xFFFF (by decide)⟩

/-! ### Byte arrays and states -/

theorem length_four {l : List Nat} (h : l.length = 4) : ∃ a b c d, l = [a, b, c, d] := by
  match l, h with
  | [a, b, c, d], _ => exact ⟨a, b, c, d, rfl⟩

theorem length_sixteen {l : List Nat} (h : l.length = 16) :
    ∃ b0 b1 b2 b3 b4 b5 b6 b7 b8 b9 b10 b11 b12 b13 b14 b15,
      l = [b0, b1, b2, b3, b4, b5, b6, b7, b8, b9, b10, b11, b12, b13, b14, b15] := by
  match l, h with
  | [b0, b1, b2, b3, b4, b5, b6, b7, b8, b9, b10, b11, b12, b13, b14, b15], _ =>
    exact ⟨b0, b1, b2, b3, b4, b5, b6, b7, b8, b9, b10, b11, b12, b13, b14, b15, rfl⟩

theorem square_shape {s : List (List Nat)} (h : s.length = 4) (hr : ∀ row ∈ s, row.length = 4) :
    ∃ a0 a1 a2 a3 b0 b1 b2 b3 c0 c1 c2 c3 d0 d1 d2 d3,
      s = [[a0, a1, a2, a3], [b0, b1, b2, b3], [c0, c1, c2, c3], [d0, d1, d2, d3]] := by
  match s, h with
  | [ra, rb, rc, rd], _ =>
    obtain ⟨a0, a1, a2, a3, rfl⟩ := length_four (hr ra (by simp))
    obtain ⟨b0, b1, b2, b3, rfl⟩ := length_four (hr rb (by simp))
    obtain ⟨c0, c1, c2, c3, rfl⟩ := length_four (hr rc (by simp))
    obtain ⟨d0, d1, d2, d3, rfl⟩ := length_four (hr rd (by simp))
    exact ⟨a0, a1, a2, a3, b0, b1, b2, b3, c0, c1, c2, c3, d0, d1, d2, d3, rfl⟩

theorem IsSquare.shape {s : List (List Nat)} (h : IsSquare s) :
    ∃ a0 a1 a2 a3 b0 b1 b2 b3 c0 c1 c2 c3 d0 d1 d2 d3,
      s = [[a0, a1, a2, a3], [b0, b1, b2, b3], [c0, c1, c2, c3], [d0, d1, d2, d3]] :=
  square_shape h.1 (fun row hrow => (h.2 row hrow).1)

/-! ### Claim on the state layout -/

/-- C10: for every 16-byte block `b`, `blockToSquare` places byte `i` of `b` at row
`i mod 4`, column `i div 4`, and `squareToBlock (blockToSquare b) = b`. -/
theorem squareToBlock_blockToSquare (b : List Nat) (hb : IsBytes 16 b) :
    (∀ i, i < 16 → ((blockToSquare b).getD (i % 4) []).getD (i / 4) 0 = b.getD i 0) ∧
    squareToBlock (blockToSquare b) = b := by
  obtain ⟨b0, b1, b2, b3, b4, b5, b6, b7, b8, b9, b10, b11, b12, b13, b14, b15, rfl⟩ :=
    length_sixteen hb.1
  refine ⟨?_, rfl⟩
  intro i hi
  interval_cases i <;> rfl

theorem squareToBlock_blockToSquare_witness :
    IsBytes 16 [0x00, 0x11, 0x22, 0x33, 0x44, 0x55, 0x66, 0x77,
                0x88, 0x99, 0xaa, 0xbb, 0xcc, 0xdd, 0xee, 0xff] ∧
    ((∀ i, i < 16 →
        ((blockToSquare [0x00, 0x11, 0x22, 0x33, 0x44, 0x55, 0x66, 0x77,
            0x88, 0x99, 0xaa, 0xbb, 0xcc, 0xdd, 0xee, 0xff]).getD (i % 4) []).getD (i / 4) 0
          = [0x00, 0x11, 0x22, 0x33, 0x44, 0x55, 0x66, 0x77,
             0x88, 0x99, 0xaa, 0xbb, 0xcc, 0xdd, 0xee, 0xff].getD i 0) ∧
     squareToBlock (blockToSquare [0x00, 0x11, 0x22, 0x33, 0x44, 0x55, 0x66, 0x77,
        0x88, 0x99, 0xaa, 0xbb, 0xcc, 0xdd, 0xee, 0xff])
       = [0x00, 0x11, 0x22, 0x33, 0x44, 0x55, 0x66, 0x77,
          0x88, 0x99, 0xaa, 0xbb, 0xcc, 0xdd, 0xee, 0xff]) :=
  ⟨by decide, squareToBlock_blockToSquare _ (by decide)⟩

/-! ### MixColumns -/

theorem dot_eq (k0 k1 k2 k3 x0 x1 x2 x3 : Nat) :
    (List.zipWith fieldMul [k0, k1, k2, k3] [x0, x1, x2, x3]).foldl fieldAdd 0
      = fieldMul k0 x0 ^^^ fieldMul k1 x1 ^^^ fieldMul k2 x2 ^^^ fieldMul k3 x3 := by
  have h0 := fieldMul_lt k0 x0
  have h1 := fieldMul_lt k1 x1
  have h2 := fieldMul_lt k2 x2
  have h3 := fieldMul_lt k3 x3
  have h01 : fieldMul k0 x0 ^^^ fieldMul k1 x1 < 256 := Nat.xor_lt_two_pow (n := 8) h0 h1
  have h012 : fieldMul k0 x0 ^^^ fieldMul k1 x1 ^^^ fieldMul k2 x2 < 256 :=
    Nat.xor_lt_two_pow (n := 8) h01 h2
  simp only [List.zipWith, List.foldl]
  rw [fieldAdd_eq (by decide) h0, Nat.zero_xor, fieldAdd_eq h0 h1, fieldAdd_eq h01 h2,
    fieldAdd_eq h012 h3]

theorem mulColumn_isBytes {m : List (List Nat)} (hm : IsSquare m) {x : List Nat}
    (hx : x.length = 4) : IsBytes 4 (mulColumn m x) := by
  obtain ⟨a0, a1, a2, a3, b0, b1, b2, b3, c0, c1, c2, c3, d0, d1, d2, d3, rfl⟩ := hm.shape
  obtain ⟨x0, x1, x2, x3, rfl⟩ := length_four hx
  refine ⟨rfl, ?_⟩
  simp only [mulColumn, List.map, dot_eq]
  intro v hv
  simp only [List.mem_cons, List.mem_singleton, List.not_mem_nil, or_false] at hv
  rcases hv with h | h | h | h <;> subst h <;>
    exact Nat.xor_lt_two_pow (n := 8) (Nat.xor_lt_two_pow (n := 8)
      (Nat.xor_lt_two_pow (n := 8) (fieldMul_lt _ _) (fieldMul_lt _ _)) (fieldMul_lt _ _))
      (fieldMul_lt _ _)

/-- The product of a matrix of bytes with a column is additive in the column. -/
theorem mulColumn_xor {m : List (List Nat)} (hm : IsSquare m) {x y : List Nat}
    (hx : IsBytes 4 x) (hy : IsBytes 4 y) :
    mulColumn m (xorColumn x y) = xorColumn (mulColumn m x) (mulColumn m y) := by
  obtain ⟨a0, a1, a2, a3, b0, b1, b2, b3, c0, c1, c2, c3, d0, d1, d2, d3, rfl⟩ := hm.shape
  obtain ⟨x0, x1, x2, x3, rfl⟩ := length_four hx.1
  obtain ⟨y0, y1, y2, y3, rfl⟩ := length_four hy.1
  have hm2 := hm.2
  have hx2 := hx.2
  have hy2 := hy.2
  simp only [IsBytes, List.mem_cons, List.mem_singleton, List.not_mem_nil, or_false,
    forall_eq_or_imp, forall_eq, List.length_cons, List.length_nil, true_and] at hm2 hx2 hy2
  obtain ⟨⟨ha0, ha1, ha2, ha3⟩, ⟨hb0, hb1, hb2, hb3⟩, ⟨hc0, hc1, hc2, hc3⟩,
    ⟨hd0, hd1, hd2, hd3⟩⟩ := hm2
  obtain ⟨hx0, hx1, hx2, hx3⟩ := hx2
  obtain ⟨hy0, hy1, hy2, hy3⟩ := hy2
  have e : xorColumn [x0, x1, x2, x3] [y0, y1, y2, y3]
      = [x0 ^^^ y0, x1 ^^^ y1, x2 ^^^ y2, x3 ^^^ y3] := rfl
  rw [e]
  simp only [mulColumn, List.map, dot_eq]
  simp only [xorColumn, List.zipWith]
  simp (disch := assumption) only [fieldMul_xor_right]
  simp only [List.cons.injEq, and_true]
  refine ⟨?_, ?_, ?_, ?_⟩ <;> ac_rfl

theorem isSquare_mixMatrix : IsSquare mixMatrix := by
  simp [IsSquare, IsBytes, mixMatrix]

theorem isSquare_invMixMatrix : IsSquare invMixMatrix := by
  simp [IsSquare, IsBytes, invMixMatrix]


/-- A property of bytes that holds for zero and for the powers of two below 256, and is
preserved by XOR, holds for every byte. -/
theorem byte_induction (Q : Nat → Prop) (h0 : Q 0) (hb : ∀ i, i < 8 → Q (2 ^ i))
    (hx : ∀ x y, x < 256 → y < 256 → Q x → Q y → Q (x ^^^ y)) : ∀ c, c < 256 → Q c := by
  have key : ∀ n, n ≤ 8 → ∀ c, c < 2 ^ n → Q c := by
    intro n
    induction n with
    | zero =>
      intro _ c hc
      have : c = 0 := by simpa using hc
      subst this; exact h0
    | succ n ih =>
      intro hn c hc
      have e := mod_two_pow_succ c n
      rw [Nat.mod_eq_of_lt hc] at e
      have hlow : c % 2 ^ n < 2 ^ n := Nat.mod_lt _ (Nat.two_pow_pos n)
      have h256 : (2 : Nat) ^ n < 256 :=
        Nat.pow_lt_pow_right (by decide) (by omega : n < 8)
      have hq := ih (by omega) (c % 2 ^ n) hlow
      rw [e]
      by_cases ht : c.testBit n = true
      · rw [if_pos ht]
        exact hx _ _ (by omega) h256 hq (hb n (by omega))
      · rw [if_neg ht, Nat.xor_zero]; exact hq
  intro c hc
  exact key 8 (Nat.le_refl 8) c (by simpa using hc)

theorem unitColumn_xor (j x y : Nat) :
    unitColumn j (x ^^^ y) = xorColumn (unitColumn j x) (unitColumn j y) := by
  simp only [unitColumn, xorColumn]
  have r4 : List.range 4 = [0, 1, 2, 3] := rfl
  rw [r4]
  simp only [List.map, List.zipWith, List.cons.injEq, and_true]
  refine ⟨?_, ?_, ?_, ?_⟩ <;> split <;> simp

theorem unitColumn_isBytes (j : Nat) {c : Nat} (hc : c < 256) : IsBytes 4 (unitColumn j c) := by
  refine ⟨by simp [unitColumn], ?_⟩
  intro v hv
  simp only [unitColumn, List.mem_map] at hv
  obtain ⟨i, _, rfl⟩ := hv
  split
  · exact hc
  · decide

theorem unmix_mix_xor {x y : List Nat} (hx : IsBytes 4 x) (hy : IsBytes 4 y) :
    mulColumn invMixMatrix (mulColumn mixMatrix (xorColumn x y))
      = xorColumn (mulColumn invMixMatrix (mulColumn mixMatrix x))
          (mulColumn invMixMatrix (mulColumn mixMatrix y)) := by
  rw [mulColumn_xor isSquare_mixMatrix hx hy,
    mulColumn_xor isSquare_invMixMatrix (mulColumn_isBytes isSquare_mixMatrix hx.1)
      (mulColumn_isBytes isSquare_mixMatrix hy.1)]

set_option maxRecDepth 100000 in
theorem unmix_mix_basis : ∀ j, j < 4 → ∀ i, i < 8 →
    mulColumn invMixMatrix (mulColumn mixMatrix (unitColumn j (2 ^ i))) = unitColumn j (2 ^ i) := by
  decide

theorem unmix_mix_zero :
    mulColumn invMixMatrix (mulColumn mixMatrix [0, 0, 0, 0]) = [0, 0, 0, 0] := by
  decide

theorem unmix_mix_unit {j : Nat} (hj : j < 4) : ∀ c, c < 256 →
    mulColumn invMixMatrix (mulColumn mixMatrix (unitColumn j c)) = unitColumn j c := by
  apply byte_induction
  · have e : unitColumn j 0 = [0, 0, 0, 0] := by simp [unitColumn]
    rw [e]; exact unmix_mix_zero
  · intro i hi; exact unmix_mix_basis j hj i hi
  · intro x y hx hy qx qy
    rw [unitColumn_xor, unmix_mix_xor (unitColumn_isBytes j hx) (unitColumn_isBytes j hy), qx, qy]

/-- Multiplying a column of bytes by the MixColumns matrix and then by the inverse matrix
gives the column back. -/
theorem unmix_mix_column {col : List Nat} (h : IsBytes 4 col) :
    mulColumn invMixMatrix (mulColumn mixMatrix col) = col := by
  obtain ⟨c0, c1, c2, c3, rfl⟩ := length_four h.1
  have hb := h.2
  simp only [List.mem_cons, List.mem_singleton, List.not_mem_nil, or_false,
    forall_eq_or_imp, forall_eq] at hb
  obtain ⟨h0, h1, h2, h3⟩ := hb
  have e : [c0, c1, c2, c3]
      = xorColumn (xorColumn (xorColumn (unitColumn 0 c0) (unitColumn 1 c1)) (unitColumn 2 c2))
          (unitColumn 3 c3) := by
    simp [xorColumn, unitColumn, List.range_succ]
  have b0 := unitColumn_isBytes 0 h0
  have b1 := unitColumn_isBytes 1 h1
  have b2 := unitColumn_isBytes 2 h2
  have b3 := unitColumn_isBytes 3 h3
  have xorBytes : ∀ {x y : List Nat}, IsBytes 4 x → IsBytes 4 y → IsBytes 4 (xorColumn x y) := by
    intro x y hx hy
    obtain ⟨x0, x1, x2, x3, rfl⟩ := length_four hx.1
    obtain ⟨y0, y1, y2, y3, rfl⟩ := length_four hy.1
    have hx2 := hx.2
    have hy2 := hy.2
    simp only [List.mem_cons, List.mem_singleton, List.not_mem_nil, or_false,
      forall_eq_or_imp, forall_eq] at hx2 hy2
    refine ⟨rfl, ?_⟩
    simp only [xorColumn, List.zipWith, List.mem_cons, List.mem_singleton, List.not_mem_nil,
      or_false, forall_eq_or_imp, forall_eq]
    exact ⟨Nat.xor_lt_two_pow (n := 8) hx2.1 hy2.1, Nat.xor_lt_two_pow (n := 8) hx2.2.1 hy2.2.1,
      Nat.xor_lt_two_pow (n := 8) hx2.2.2.1 hy2.2.2.1,
      Nat.xor_lt_two_pow (n := 8) hx2.2.2.2 hy2.2.2.2⟩
  rw [e, unmix_mix_xor (xorBytes (xorBytes b0 b1) b2) b3, unmix_mix_xor (xorBytes b0 b1) b2,
    unmix_mix_xor b0 b1, unmix_mix_unit (by decide) c0 h0, unmix_mix_unit (by decide) c1 h1,
    unmix_mix_unit (by decide) c2 h2, unmix_mix_unit (by decide) c3 h3]

/-! ### The round transformations on well-formed states -/

theorem isSquare_iff (a0 a1 a2 a3 b0 b1 b2 b3 c0 c1 c2 c3 d0 d1 d2 d3 : Nat) :
    IsSquare [[a0, a1, a2, a3], [b0, b1, b2, b3], [c0, c1, c2, c3], [d0, d1, d2, d3]] ↔
      (a0 < 256 ∧ a1 < 256 ∧ a2 < 256 ∧ a3 < 256) ∧ (b0 < 256 ∧ b1 < 256 ∧ b2 < 256 ∧ b3 < 256) ∧
      (c0 < 256 ∧ c1 < 256 ∧ c2 < 256 ∧ c3 < 256) ∧ (d0 < 256 ∧ d1 < 256 ∧ d2 < 256 ∧ d3 < 256) := by
  simp [IsSquare, IsBytes]

theorem isBytes16_iff (b0 b1 b2 b3 b4 b5 b6 b7 b8 b9 b10 b11 b12 b13 b14 b15 : Nat) :
    IsBytes 16 [b0, b1, b2, b3, b4, b5, b6, b7, b8, b9, b10, b11, b12, b13, b14, b15] ↔
      b0 < 256 ∧ b1 < 256 ∧ b2 < 256 ∧ b3 < 256 ∧ b4 < 256 ∧ b5 < 256 ∧ b6 < 256 ∧ b7 < 256 ∧
      b8 < 256 ∧ b9 < 256 ∧ b10 < 256 ∧ b11 < 256 ∧ b12 < 256 ∧ b13 < 256 ∧ b14 < 256 ∧
      b15 < 256 := by
  simp [IsBytes]

theorem getD_lt {l : List Nat} (h : ∀ x ∈ l, x < 256) (i : Nat) : l.getD i 0 < 256 := by
  rw [List.getD_eq_getElem?_getD]
  cases hi : l[i]? with
  | none => simp
  | some v => simpa using h v (List.getElem?_mem hi)

theorem blockToSquare_isSquare {b : List Nat} (hb : IsBytes 16 b) : IsSquare (blockToSquare b) := by
  obtain ⟨b0, b1, b2, b3, b4, b5, b6, b7, b8, b9, b10, b11, b12, b13, b14, b15, rfl⟩ :=
    length_sixteen hb.1
  have h := (isBytes16_iff _ _ _ _ _ _ _ _ _ _ _ _ _ _ _ _).1 hb
  have e : blockToSquare [b0, b1, b2, b3, b4, b5, b6, b7, b8, b9, b10, b11, b12, b13, b14, b15]
      = [[b0, b4, b8, b12], [b1, b5, b9, b13], [b2, b6, b10, b14], [b3, b7, b11, b15]] := rfl
  rw [e, isSquare_iff]
  tauto

theorem squareToBlock_isBytes {s : List (List Nat)} (hs : IsSquare s) :
    IsBytes 16 (squareToBlock s) := by
  obtain ⟨a0, a1, a2, a3, b0, b1, b2, b3, c0, c1, c2, c3, d0, d1, d2, d3, rfl⟩ := hs.shape
  have h := (isSquare_iff _ _ _ _ _ _ _ _ _ _ _ _ _ _ _ _).1 hs
  have e : squareToBlock [[a0, a1, a2, a3], [b0, b1, b2, b3], [c0, c1, c2, c3], [d0, d1, d2, d3]]
      = [a0, b0, c0, d0, a1, b1, c1, d1, a2, b2, c2, d2, a3, b3, c3, d3] := rfl
  rw [e, isBytes16_iff]
  tauto

theorem blockToSquare_squareToBlock {s : List (List Nat)} (hs : IsSquare s) :
    blockToSquare (squareToBlock s) = s := by
  obtain ⟨a0, a1, a2, a3, b0, b1, b2, b3, c0, c1, c2, c3, d0, d1, d2, d3, rfl⟩ := hs.shape
  rfl

theorem toBlock_toSquare {b : List Nat} (hb : IsBytes 16 b) :
    squareToBlock (blockToSquare b) = b := by
  obtain ⟨b0, b1, b2, b3, b4, b5, b6, b7, b8, b9, b10, b11, b12, b13, b14, b15, rfl⟩ :=
    length_sixteen hb.1
  rfl

set_option maxRecDepth 100000 in
theorem sboxTable_lt : ∀ x ∈ sboxTable, x < 256 := by decide

set_option maxRecDepth 100000 in
theorem invSboxTable_lt : ∀ x ∈ invSboxTable, x < 256 := by decide

theorem sbox_lt (v : Nat) : sbox v < 256 := getD_lt sboxTable_lt v

theorem invSbox_lt (v : Nat) : invSbox v < 256 := getD_lt invSboxTable_lt v

set_option maxRecDepth 100000 in
/-- The inverse S-box table undoes the S-box table on every byte. -/
theorem invSbox_sbox : ∀ v, v < 256 → invSbox (sbox v) = v := by decide

theorem subBytes_isSquare {s : List (List Nat)} (hs : IsSquare s) : IsSquare (subBytes s) := by
  obtain ⟨a0, a1, a2, a3, b0, b1, b2, b3, c0, c1, c2, c3, d0, d1, d2, d3, rfl⟩ := hs.shape
  simp only [subBytes, List.map]
  rw [isSquare_iff]
  simp only [sbox_lt, and_self]

theorem invSubBytes_subBytes {s : List (List Nat)} (hs : IsSquare s) :
    invSubBytes (subBytes s) = s := by
  obtain ⟨a0, a1, a2, a3, b0, b1, b2, b3, c0, c1, c2, c3, d0, d1, d2, d3, rfl⟩ := hs.shape
  obtain ⟨⟨ha0, ha1, ha2, ha3⟩, ⟨hb0, hb1, hb2, hb3⟩, ⟨hc0, hc1, hc2, hc3⟩,
    ⟨hd0, hd1, hd2, hd3⟩⟩ := (isSquare_iff _ _ _ _ _ _ _ _ _ _ _ _ _ _ _ _).1 hs
  simp only [subBytes, invSubBytes, List.map]
  rw [invSbox_sbox a0 ha0, invSbox_sbox a1 ha1, invSbox_sbox a2 ha2, invSbox_sbox a3 ha3,
    invSbox_sbox b0 hb0, invSbox_sbox b1 hb1, invSbox_sbox b2 hb2, invSbox_sbox b3 hb3,
    invSbox_sbox c0 hc0, invSbox_sbox c1 hc1, invSbox_sbox c2 hc2, invSbox_sbox c3 hc3,
    invSbox_sbox d0 hd0, invSbox_sbox d1 hd1, invSbox_sbox d2 hd2, invSbox_sbox d3 hd3]

theorem shiftRows_isSquare {s : List (List Nat)} (hs : IsSquare s) : IsSquare (shiftRows s) := by
  obtain ⟨a0, a1, a2, a3, b0, b1, b2, b3, c0, c1, c2, c3, d0, d1, d2, d3, rfl⟩ := hs.shape
  have h := (isSquare_iff _ _ _ _ _ _ _ _ _ _ _ _ _ _ _ _).1 hs
  have e : shiftRows [[a0, a1, a2, a3], [b0, b1, b2, b3], [c0, c1, c2, c3], [d0, d1, d2, d3]]
      = [[a0, a1, a2, a3], [b1, b2, b3, b0], [c2, c3, c0, c1], [d3, d0, d1, d2]] := rfl
  rw [e, isSquare_iff]
  tauto

theorem unShiftRows_shiftRows {s : List (List Nat)} (hs : IsSquare s) :
    unShiftRows (shiftRows s) = s := by
  obtain ⟨a0, a1, a2, a3, b0, b1, b2, b3, c0, c1, c2, c3, d0, d1, d2, d3, rfl⟩ := hs.shape
  rfl

theorem list_four_getD {l : List Nat} (h : l.length = 4) :
    [l.getD 0 0, l.getD 1 0, l.getD 2 0, l.getD 3 0] = l := by
  obtain ⟨a, b, c, d, rfl⟩ := length_four h
  rfl

theorem mulColumns_eq (m s : List (List Nat)) :
    mulColumns m s =
      [[(mulColumn m (getColumn s 0)).getD 0 0, (mulColumn m (getColumn s 1)).getD 0 0,
        (mulColumn m (getColumn s 2)).getD 0 0, (mulColumn m (getColumn s 3)).getD 0 0],
       [(mulColumn m (getColumn s 0)).getD 1 0, (mulColumn m (getColumn s 1)).getD 1 0,
        (mulColumn m (getColumn s 2)).getD 1 0, (mulColumn m (getColumn s 3)).getD 1 0],
       [(mulColumn m (getColumn s 0)).getD 2 0, (mulColumn m (getColumn s 1)).getD 2 0,
        (mulColumn m (getColumn s 2)).getD 2 0, (mulColumn m (getColumn s 3)).getD 2 0],
       [(mulColumn m (getColumn s 0)).getD 3 0, (mulColumn m (getColumn s 1)).getD 3 0,
        (mulColumn m (getColumn s 2)).getD 3 0, (mulColumn m (getColumn s 3)).getD 3 0]] :=
  rfl

theorem getColumn_length (s : List (List Nat)) (c : Nat) : (getColumn s c).length = 4 := by
  simp [getColumn]

theorem getColumn_isBytes {s : List (List Nat)} (hs : IsSquare s) {c : Nat} :
    IsBytes 4 (getColumn s c) := by
  refine ⟨getColumn_length s c, ?_⟩
  intro v hv
  simp only [getColumn, List.mem_map] at hv
  obtain ⟨r, _, rfl⟩ := hv
  apply getD_lt
  rw [List.getD_eq_getElem?_getD]
  cases hr : s[r]? with
  | none => simp
  | some row => simpa using (hs.2 row (List.getElem?_mem hr)).2

theorem getColumn_mulColumns {m : List (List Nat)} (hm : IsSquare m) (s : List (List Nat))
    {c : Nat} (hc : c < 4) : getColumn (mulColumns m s) c = mulColumn m (getColumn s c) := by
  have h := list_four_getD (mulColumn_isBytes hm (getColumn_length s c)).1
  rw [mulColumns_eq]
  interval_cases c <;> exact h

theorem mulColumns_isSquare {m : List (List Nat)} (hm : IsSquare m) (s : List (List Nat)) :
    IsSquare (mulColumns m s) := by
  have h : ∀ c r, (mulColumn m (getColumn s c)).getD r 0 < 256 := fun c r =>
    getD_lt (mulColumn_isBytes hm (getColumn_length s c)).2 r
  rw [mulColumns_eq, isSquare_iff]
  simp only [h, and_self]

theorem unMixColumns_mixColumns {s : List (List Nat)} (hs : IsSquare s) :
    unMixColumns (mixColumns s) = s := by
  unfold unMixColumns mixColumns
  rw [mulColumns_eq invMixMatrix,
    getColumn_mulColumns isSquare_mixMatrix s (by decide : 0 < 4),
    getColumn_mulColumns isSquare_mixMatrix s (by decide : 1 < 4),
    getColumn_mulColumns isSquare_mixMatrix s (by decide : 2 < 4),
    getColumn_mulColumns isSquare_mixMatrix s (by decide : 3 < 4),
    unmix_mix_column (getColumn_isBytes hs), unmix_mix_column (getColumn_isBytes hs),
    unmix_mix_column (getColumn_isBytes hs), unmix_mix_column (getColumn_isBytes hs)]
  obtain ⟨a0, a1, a2, a3, b0, b1, b2, b3, c0, c1, c2, c3, d0, d1, d2, d3, rfl⟩ := hs.shape
  rfl

/-! ### Claim on MixColumns -/

/-- C9: for every column of four bytes, multiplying it (with `fieldMul` and `fieldAdd`) by
the forward MixColumns matrix and then by the inverse matrix gives back the original
column; hence `unMixColumns (mixColumns s) = s` for every 4x4 state `s`. -/
theorem unMixColumns_mixColumns_inverse (col : List Nat) (s : List (List Nat))
    (hcol : IsBytes 4 col) (hs : IsSquare s) :
    mulColumn invMixMatrix (mulColumn mixMatrix col) = col ∧
    unMixColumns (mixColumns s) = s :=
  ⟨unmix_mix_column hcol, unMixColumns_mixColumns hs⟩

set_option maxRecDepth 100000 in
theorem unMixColumns_mixColumns_inverse_witness :
    (IsBytes 4 [0xdb, 0x13, 0x53, 0x45] ∧
     IsSquare [[0xdb, 0xf2, 0x01, 0xc6], [0x13, 0x0a, 0x01, 0xc6],
               [0x53, 0x22, 0x01, 0xc6], [0x45, 0x5c, 0x01, 0xc6]]) ∧
    (mulColumn invMixMatrix (mulColumn mixMatrix [0xdb, 0x13, 0x53, 0x45])
        = [0xdb, 0x13, 0x53, 0x45] ∧
     unMixColumns (mixColumns [[0xdb, 0xf2, 0x01, 0xc6], [0x13, 0x0a, 0x01, 0xc6],
               [0x53, 0x22, 0x01, 0xc6], [0x45, 0x5c, 0x01, 0xc6]])
        = [[0xdb, 0xf2, 0x01, 0xc6], [0x13, 0x0a, 0x01, 0xc6],
           [0x53, 0x22, 0x01, 0xc6], [0x45, 0x5c, 0x01, 0xc6]]) :=
  ⟨⟨by decide, by decide⟩, unMixColumns_mixColumns_inverse _ _ (by decide) (by decide)⟩

/-! ### AddRoundKey and the rounds -/

theorem fieldAdd_cancel {a : Nat} (ha : a < 256) (k : Nat) : fieldAdd (fieldAdd a k) k = a := by
  unfold fieldAdd
  apply Nat.eq_of_testBit_eq
  intro i
  have e : (256 : Nat) = 2 ^ 8 := by decide
  rw [e]
  simp only [Nat.testBit_mod_two_pow, Nat.testBit_xor]
  by_cases hi : i < 8
  · simp [hi]
  · have : a.testBit i = false := testBit_false_of_lt (n := 8) (by simpa using ha) (by omega)
    simp [hi, this]

theorem addSubkey_isBytes (data key : List Nat) : IsBytes 16 (addSubkey data key) := by
  refine ⟨by simp [addSubkey], ?_⟩
  intro v hv
  simp only [addSubkey, List.mem_map] at hv
  obtain ⟨i, _, rfl⟩ := hv
  exact fieldAdd_lt _ _

/-- Adding the same subkey twice restores the data. -/
theorem addSubkey_addSubkey {data : List Nat} (hd : IsBytes 16 data) (key : List Nat) :
    addSubkey (addSubkey data key) key = data := by
  obtain ⟨b0, b1, b2, b3, b4, b5, b6, b7, b8, b9, b10, b11, b12, b13, b14, b15, rfl⟩ :=
    length_sixteen hd.1
  obtain ⟨h0, h1, h2, h3, h4, h5, h6, h7, h8, h9, h10, h11, h12, h13, h14, h15⟩ :=
    (isBytes16_iff _ _ _ _ _ _ _ _ _ _ _ _ _ _ _ _).1 hd
  have r16 : List.range 16 = [0, 1, 2, 3, 4, 5, 6, 7, 8, 9, 10, 11, 12, 13, 14, 15] := rfl
  simp only [addSubkey, r16, List.map, List.getD_cons_zero, List.getD_cons_succ]
  rw [fieldAdd_cancel h0, fieldAdd_cancel h1, fieldAdd_cancel h2, fieldAdd_cancel h3,
    fieldAdd_cancel h4, fieldAdd_cancel h5, fieldAdd_cancel h6, fieldAdd_cancel h7,
    fieldAdd_cancel h8, fieldAdd_cancel h9, fieldAdd_cancel h10, fieldAdd_cancel h11,
    fieldAdd_cancel h12, fieldAdd_cancel h13, fieldAdd_cancel h14, fieldAdd_cancel h15]

theorem subShift_isSquare {data : List Nat} (hd : IsBytes 16 data) :
    IsSquare (shiftRows (subBytes (blockToSquare data))) :=
  shiftRows_isSquare (subBytes_isSquare (blockToSquare_isSquare hd))

/-- InvShiftRows followed by InvSubBytes undoes SubBytes followed by ShiftRows. -/
theorem unSubShift_subShift {data : List Nat} (hd : IsBytes 16 data) :
    squareToBlock (invSubBytes (unShiftRows (blockToSquare
      (squareToBlock (shiftRows (subBytes (blockToSquare data))))))) = data := by
  rw [blockToSquare_squareToBlock (subShift_isSquare hd),
    unShiftRows_shiftRows (subBytes_isSquare (blockToSquare_isSquare hd)),
    invSubBytes_subBytes (blockToSquare_isSquare hd), toBlock_toSquare hd]

theorem encryptRound_isBytes (subkey : List (List Nat)) (data : List Nat) (r : Nat) :
    IsBytes 16 (encryptRound subkey data r) :=
  addSubkey_isBytes _ _

theorem foldl_encryptRound_isBytes (subkey : List (List Nat)) :
    ∀ (rs : List Nat) (data : List Nat), IsBytes 16 data →
      IsBytes 16 (rs.foldl (encryptRound subkey) data) := by
  intro rs
  induction rs with
  | nil => intro data hd; exact hd
  | cons r rs ih =>
    intro data _
    exact ih _ (encryptRound_isBytes subkey data r)

/-- A decryption round with subkey `r` takes the state after SubBytes and ShiftRows of the
output of encryption round `r` back to the state after SubBytes and ShiftRows of its
input. -/
theorem decryptRound_encryptRound (subkey : List (List Nat)) {data : List Nat}
    (hd : IsBytes 16 data) (r : Nat) :
    decryptRound subkey
        (squareToBlock (shiftRows (subBytes (blockToSquare (encryptRound subkey data r))))) r
      = squareToBlock (shiftRows (subBytes (blockToSquare data))) := by
  have hS := subShift_isSquare hd
  have hM : IsSquare (mixColumns (shiftRows (subBytes (blockToSquare data)))) :=
    mulColumns_isSquare isSquare_mixMatrix _
  unfold decryptRound
  rw [unSubShift_subShift (encryptRound_isBytes subkey data r)]
  unfold encryptRound
  rw [addSubkey_addSubkey (squareToBlock_isBytes hM), blockToSquare_squareToBlock hM,
    unMixColumns_mixColumns hS]

theorem rounds_inverse (subkey : List (List Nat)) :
    ∀ (rs : List Nat) (data : List Nat), IsBytes 16 data →
      rs.reverse.foldl (decryptRound subkey)
          (squareToBlock (shiftRows (subBytes (blockToSquare
            (rs.foldl (encryptRound subkey) data)))))
        = squareToBlock (shiftRows (subBytes (blockToSquare data))) := by
  intro rs
  induction rs with
  | nil => intro data _; rfl
  | cons r rs ih =>
    intro data hd
    rw [List.foldl_cons, List.reverse_cons, List.foldl_append,
      ih _ (encryptRound_isBytes subkey data r)]
    exact decryptRound_encryptRound subkey hd r

/-! ### Claims on the block cipher -/

/-- C1: for every 16-byte block `b` and every 16-byte key `k`, `decryptBlock` applied with
`k` to `encryptBlock b k` returns `b`. -/
theorem decryptBlock_encryptBlock (b k : List Nat) (hb : IsBytes 16 b) (_hk : IsBytes 16 k) :
    decryptBlock (encryptBlock b k) k = b := by
  unfold decryptBlock encryptBlock
  simp only []
  have h0 : IsBytes 16 (addSubkey b ((generateSubkeys k).getD 0 [])) := addSubkey_isBytes _ _
  have h9 := foldl_encryptRound_isBytes (generateSubkeys k) (List.range' 1 9) _ h0
  rw [addSubkey_addSubkey (squareToBlock_isBytes (subShift_isSquare h9)),
    rounds_inverse (generateSubkeys k) (List.range' 1 9) _ h0, unSubShift_subShift h0,
    addSubkey_addSubkey hb]

set_option maxRecDepth 100000 in
theorem decryptBlock_encryptBlock_witness :
    (IsBytes 16 [0x32, 0x43, 0xf6, 0xa8, 0x88, 0x5a, 0x30, 0x8d,
                 0x31, 0x31, 0x98, 0xa2, 0xe0, 0x37, 0x07, 0x34] ∧
     IsBytes 16 [0x2b, 0x7e, 0x15, 0x16, 0x28, 0xae, 0xd2, 0xa6,
                 0xab, 0xf7, 0x15, 0x88, 0x09, 0xcf, 0x4f, 0x3c]) ∧
    decryptBlock
        (encryptBlock [0x32, 0x43, 0xf6, 0xa8, 0x88, 0x5a, 0x30, 0x8d,
                       0x31, 0x31, 0x98, 0xa2, 0xe0, 0x37, 0x07, 0x34]
          [0x2b, 0x7e, 0x15, 0x16, 0x28, 0xae, 0xd2, 0xa6,
           0xab, 0xf7, 0x15, 0x88, 0x09, 0xcf, 0x4f, 0x3c])
        [0x2b, 0x7e, 0x15, 0x16, 0x28, 0xae, 0xd2, 0xa6,
         0xab, 0xf7, 0x15, 0x88, 0x09, 0xcf, 0x4f, 0x3c]
      = [0x32, 0x43, 0xf6, 0xa8, 0x88, 0x5a, 0x30, 0x8d,
         0x31, 0x31, 0x98, 0xa2, 0xe0, 0x37, 0x07, 0x34] :=
  ⟨by decide, decryptBlock_encryptBlock _ _ (by decide) (by decide)⟩

set_option maxRecDepth 1000000 in
set_option maxHeartbeats 4000000 in
/-- C2: known-answer test. With key `00 01 02 ... 0f` and plaintext `00 11 22 ... ff`,
`encryptBlock` yields `69 c4 e0 d8 6a 7b 04 30 d8 cd b7 80 70 b4 c5 5a`, and `decryptBlock`
of that ciphertext with the same key yields the plaintext again. -/
theorem encryptBlock_known_answer :
    encryptBlock [0x00, 0x11, 0x22, 0x33, 0x44, 0x55, 0x66, 0x77,
                  0x88, 0x99, 0xaa, 0xbb, 0xcc, 0xdd, 0xee, 0xff]
        [0x00, 0x01, 0x02, 0x03, 0x04, 0x05, 0x06, 0x07,
         0x08, 0x09, 0x0a, 0x0b, 0x0c, 0x0d, 0x0e, 0x0f]
      = [0x69, 0xc4, 0xe0, 0xd8, 0x6a, 0x7b, 0x04, 0x30,
         0xd8, 0xcd, 0xb7, 0x80, 0x70, 0xb4, 0xc5, 0x5a] ∧
    decryptBlock [0x69, 0xc4, 0xe0, 0xd8, 0x6a, 0x7b, 0x04, 0x30,
                  0xd8, 0xcd, 0xb7, 0x80, 0x70, 0xb4, 0xc5, 0x5a]
        [0x00, 0x01, 0x02, 0x03, 0x04, 0x05, 0x06, 0x07,
         0x08, 0x09, 0x0a, 0x0b, 0x0c, 0x0d, 0x0e, 0x0f]
      = [0x00, 0x11, 0x22, 0x33, 0x44, 0x55, 0x66, 0x77,
         0x88, 0x99, 0xaa, 0xbb, 0xcc, 0xdd, 0xee, 0xff] := by
  decide

/-! ### Claims on ShiftRows and the key schedule -/

/-- C11: for every 4x4 state `s`, `shiftRows` rotates row `r` (`r = 0 .. 3`) cyclically left
by `r` positions, and `unShiftRows (shiftRows s) = s`. -/
theorem shiftRows_rotates (s : List (List Nat)) (hs : IsSquare s) :
    (∀ r, r < 4 → (shiftRows s).getD r [] = (s.getD r []).rotate r) ∧
    unShiftRows (shiftRows s) = s := by
  obtain ⟨a0, a1, a2, a3, b0, b1, b2, b3, c0, c1, c2, c3, d0, d1, d2, d3, rfl⟩ := hs.shape
  refine ⟨?_, rfl⟩
  intro r hr
  interval_cases r <;> rfl

theorem shiftRows_rotates_witness :
    IsSquare [[0x00, 0x01, 0x02, 0x03], [0x10, 0x11, 0x12, 0x13],
              [0x20, 0x21, 0x22, 0x23], [0x30, 0x31, 0x32, 0x33]] ∧
    ((∀ r, r < 4 →
        (shiftRows [[0x00, 0x01, 0x02, 0x03], [0x10, 0x11, 0x12, 0x13],
              [0x20, 0x21, 0x22, 0x23], [0x30, 0x31, 0x32, 0x33]]).getD r []
          = ([[0x00, 0x01, 0x02, 0x03], [0x10, 0x11, 0x12, 0x13],
              [0x20, 0x21, 0x22, 0x23], [0x30, 0x31, 0x32, 0x33]].getD r []).rotate r) ∧
     unShiftRows (shiftRows [[0x00, 0x01, 0x02, 0x03], [0x10, 0x11, 0x12, 0x13],
              [0x20, 0x21, 0x22, 0x23], [0x30, 0x31, 0x32, 0x33]])
       = [[0x00, 0x01, 0x02, 0x03], [0x10, 0x11, 0x12, 0x13],
          [0x20, 0x21, 0x22, 0x23], [0x30, 0x31, 0x32, 0x33]]) :=
  ⟨by decide, shiftRows_rotates _ (by decide)⟩

theorem foldl_append_init {α β : Type} (g : List α → β → α) :
    ∀ (l : List β) (w : List α), ∃ t, l.foldl (fun w i => w ++ [g w i]) w = w ++ t := by
  intro l
  induction l with
  | nil => intro w; exact ⟨[], by simp⟩
  | cons x l ih =>
    intro w
    obtain ⟨t, ht⟩ := ih (w ++ [g w x])
    exact ⟨g w x :: t, by rw [List.foldl_cons, ht]; simp⟩

/-- The key expansion only appends words: the four words of the key stay in front. -/
theorem expandKey_keeps_key (key : List Nat) :
    ∃ t, expandKey key
      = ((List.range 4).map fun j => (List.range 4).map fun i => key.getD (4 * j + i) 0) ++ t :=
  foldl_append_init _ _ _

/-- C12: for every 16-byte key, the first of the 11 subkeys produced by `generateSubkeys`
(subkey 0) equals the key itself. -/
theorem generateSubkeys_zero (key : List Nat) (hk : IsBytes 16 key) :
    (generateSubkeys key).length = 11 ∧ (generateSubkeys key).getD 0 [] = key := by
  refine ⟨by simp [generateSubkeys], ?_⟩
  obtain ⟨k0, k1, k2, k3, k4, k5, k6, k7, k8, k9, k10, k11, k12, k13, k14, k15, rfl⟩ :=
    length_sixteen hk.1
  obtain ⟨t, ht⟩ := expandKey_keeps_key [k0, k1, k2, k3, k4, k5, k6, k7, k8, k9, k10, k11, k12, k13, k14, k15]
  show (List.range 16).map (fun i =>
    ((expandKey [k0, k1, k2, k3, k4, k5, k6, k7, k8, k9, k10, k11, k12, k13, k14, k15]).getD
      (4 * 0 + i / 4) []).getD (i % 4) 0) = _
  rw [ht]
  rfl

theorem generateSubkeys_zero_witness :
    IsBytes 16 [0x2b, 0x7e, 0x15, 0x16, 0x28, 0xae, 0xd2, 0xa6,
                0xab, 0xf7, 0x15, 0x88, 0x09, 0xcf, 0x4f, 0x3c] ∧
    ((generateSubkeys [0x2b, 0x7e, 0x15, 0x16, 0x28, 0xae, 0xd2, 0xa6,
                0xab, 0xf7, 0x15, 0x88, 0x09, 0xcf, 0x4f, 0x3c]).length = 11 ∧
     (generateSubkeys [0x2b, 0x7e, 0x15, 0x16, 0x28, 0xae, 0xd2, 0xa6,
                0xab, 0xf7, 0x15, 0x88, 0x09, 0xcf, 0x4f, 0x3c]).getD 0 []
       = [0x2b, 0x7e, 0x15, 0x16, 0x28, 0xae, 0xd2, 0xa6,
          0xab, 0xf7, 0x15, 0x88, 0x09, 0xcf, 0x4f, 0x3c]) :=
  ⟨by decide, generateSubkeys_zero _ (by decide)⟩

/-- C13: for every round `r` in `1 .. 10`, the round constant `x^(r-1)`, computed in GF(2^8)
as `r - 1` successive `fieldMul` multiplications of `0x01` by `0x02`, equals the `r`-th entry
of `0x01, 0x02, 0x04, 0x08, 0x10, 0x20, 0x40, 0x80, 0x1B, 0x36`. -/
theorem roundConstant_table (r : Nat) (h1 : 1 ≤ r) (h10 : r ≤ 10) :
    (fieldMul 0x02)^[r - 1] 0x01 = roundConstants.getD (r - 1) 0 := by
  interval_cases r <;> decide

theorem roundConstant_table_witness :
    (1 ≤ 9 ∧ 9 ≤ 10) ∧ (fieldMul 0x02)^[9 - 1] 0x01 = roundConstants.getD (9 - 1) 0 :=
  ⟨by decide, roundConstant_table 9 (by decide) (by decide)⟩

/-- The round constant of the modelled `gFunction` is this iterate, so it takes the listed
values. -/
theorem roundConstant_eq (r : Nat) (h1 : 1 ≤ r) (h10 : r ≤ 10) :
    roundConstant r = roundConstants.getD (r - 1) 0 := by
  interval_cases r <;> decide

/-! ### Buffers: writing a run of bytes -/

theorem foldl_set_length (s : Nat) (v : Nat → Nat) : ∀ (m : Nat) (l : List Nat),
    ((List.range m).foldl (fun d j => d.set (s + j) (v j)) l).length = l.length := by
  intro m
  induction m with
  | zero => intro l; rfl
  | succ m ih =>
    intro l
    rw [List.range_succ, List.foldl_append]
    simp only [List.foldl_cons, List.foldl_nil, List.length_set]
    exact ih l

/-- Writing `v 0, .., v (m - 1)` at the positions `s, .., s + m - 1` of a buffer changes
exactly those positions that lie inside the buffer. -/
theorem foldl_set_getElem? (s : Nat) (v : Nat → Nat) : ∀ (m : Nat) (l : List Nat) (p : Nat),
    ((List.range m).foldl (fun d j => d.set (s + j) (v j)) l)[p]?
      = if s ≤ p ∧ p < s + m ∧ p < l.length then some (v (p - s)) else l[p]? := by
  intro m
  induction m with
  | zero =>
    intro l p
    have : ¬ (s ≤ p ∧ p < s + 0 ∧ p < l.length) := by omega
    rw [if_neg this]
    rfl
  | succ m ih =>
    intro l p
    rw [List.range_succ, List.foldl_append]
    simp only [List.foldl_cons, List.foldl_nil]
    rw [List.getElem?_set, foldl_set_length, ih]
    by_cases h1 : s + m = p
    · subst h1
      by_cases h2 : s + m < l.length
      · have c1 : s ≤ s + m ∧ s + m < s + (m + 1) ∧ s + m < l.length := ⟨by omega, by omega, h2⟩
        simp [h2, c1]
      · have c1 : ¬ (s ≤ s + m ∧ s + m < s + (m + 1) ∧ s + m < l.length) := by omega
        have c2 : ¬ (s ≤ s + m ∧ s + m < s + m ∧ s + m < l.length) := by omega
        rw [if_pos rfl, if_neg h2, if_neg c1]
        exact (List.getElem?_eq_none (by omega)).symm
    · rw [if_neg h1]
      by_cases h3 : s ≤ p ∧ p < s + m ∧ p < l.length
      · have c1 : s ≤ p ∧ p < s + (m + 1) ∧ p < l.length := by omega
        rw [if_pos h3, if_pos c1]
      · have c1 : ¬ (s ≤ p ∧ p < s + (m + 1) ∧ p < l.length) := by omega
        rw [if_neg h3, if_neg c1]

theorem getElem?_realloc (junk : Nat → Nat) (data : List Nat) (new_size p : Nat) :
    (realloc junk data new_size)[p]?
      = if p < new_size then some (if p < data.length then data.getD p 0 else junk p)
        else none := by
  unfold realloc
  by_cases h : p < new_size
  · rw [List.getElem?_map, List.getElem?_range h, if_pos h]; rfl
  · rw [if_neg h]
    exact List.getElem?_eq_none (by simpa using h)

/-- Growing a buffer of `n` bytes by `k` bytes and setting the positions `n, .., n + k - 1`
to zero gives the buffer followed by `k` zero bytes, whatever the new bytes held. -/
theorem realloc_pad (junk : Nat → Nat) (data : List Nat) (k : Nat) :
    (List.range' data.length k).foldl (fun data i => data.set i 0x00)
        (realloc junk data (data.length + k))
      = data ++ List.replicate k 0 := by
  rw [List.range'_eq_map_range, List.foldl_map]
  apply List.ext_getElem?
  intro p
  have hlen : (realloc junk data (data.length + k)).length = data.length + k := by
    simp [realloc]
  rw [foldl_set_getElem? data.length (fun _ => 0), hlen, getElem?_realloc, List.getElem?_append,
    List.getElem?_replicate]
  by_cases h1 : p < data.length
  · have c1 : ¬ (data.length ≤ p ∧ p < data.length + k ∧ p < data.length + k) := by omega
    have c2 : p < data.length + k := by omega
    rw [if_neg c1, if_pos c2, if_pos h1, if_pos h1, List.getD_eq_getElem?_getD,
      List.getElem?_eq_getElem h1]
    rfl
  · by_cases h2 : p < data.length + k
    · have c1 : data.length ≤ p ∧ p < data.length + k ∧ p < data.length + k := by omega
      have c3 : p - data.length < k := by omega
      rw [if_pos c1, if_neg h1, if_pos c3]
    · have c1 : ¬ (data.length ≤ p ∧ p < data.length + k ∧ p < data.length + k) := by omega
      have c3 : ¬ (p - data.length < k) := by omega
      rw [if_neg c1, if_neg h2, if_neg h1, if_neg c3]

/-- With a 16-byte key and a data size that is not a multiple of 16, when `realloc` grows the
block where it is, `checkSizes` of `encrypt.c` leaves `main` with the data followed by
`16 - n % 16` zero bytes. -/
theorem encrypt_checkSizes_padded (junk : Nat → Nat) (data : List Nat)
    (h : data.length % 16 ≠ 0) :
    Encrypt.checkSizes junk false 16 data.length data
      = Except.ok (data.length + (16 - data.length % 16),
          some (data ++ List.replicate (16 - data.length % 16) 0)) := by
  have hpad : data.length + (16 - data.length % 16) - data.length = 16 - data.length % 16 := by
    omega
  simp only [Encrypt.checkSizes, ne_eq, not_true_eq_false, if_false, h, not_false_eq_true,
    if_true, hpad, Bool.false_eq_true]
  rw [realloc_pad junk data (16 - data.length % 16)]

/-- With a 16-byte key and a data size that is not a multiple of 16, when `realloc` returns a
block at another address, `checkSizes` of `encrypt.c` leaves `main` with the new size and a
pointer to the freed block. -/
theorem encrypt_checkSizes_moved (junk : Nat → Nat) (data : List Nat)
    (h : data.length % 16 ≠ 0) :
    Encrypt.checkSizes junk true 16 data.length data
      = Except.ok (data.length + (16 - data.length % 16), none) := by
  simp only [Encrypt.checkSizes, ne_eq, not_true_eq_false, if_false, h, not_false_eq_true,
    if_true]

/-! ### Claims on the file layer: sizes and padding -/

/-- The padding loop of `decrypt.c`, started at `datasize = n` on a buffer with a non-zero
byte below `n`, stops just after the last non-zero byte below `n`. -/
theorem stripPadding_spec (data : List Nat) : ∀ n, (∃ i, i < n ∧ data.getD i 0 ≠ 0) →
    ∃ m, Decrypt.stripPadding data n = some m ∧ 1 ≤ m ∧ m ≤ n ∧ data.getD (m - 1) 0 ≠ 0 ∧
      ∀ i, m ≤ i → i < n → data.getD i 0 = 0 := by
  intro n
  induction n with
  | zero => rintro ⟨i, hi, _⟩; omega
  | succ n ih =>
    rintro ⟨i, hi, hne⟩
    by_cases hz : data.getD n 0 = 0
    · have hin : i < n := by
        rcases Nat.lt_or_ge i n with h | h
        · exact h
        · have : i = n := by omega
          subst this
          exact absurd hz hne
      obtain ⟨m, hm, h1, h2, h3, h4⟩ := ih ⟨i, hin, hne⟩
      refine ⟨m, ?_, h1, by omega, h3, ?_⟩
      · rw [Decrypt.stripPadding, if_pos hz, hm]
      · intro j hj1 hj2
        rcases Nat.lt_or_ge j n with h | h
        · exact h4 j hj1 h
        · have : j = n := by omega
          subst this
          exact hz
    · refine ⟨n + 1, ?_, by omega, by omega, ?_, ?_⟩
      · rw [Decrypt.stripPadding, if_neg hz]
      · simpa using hz
      · intro j hj1 hj2
        omega

/-- C15: for every decrypted buffer that contains at least one non-zero byte, the decrypt
program writes exactly the buffer with all of its trailing `0x00` bytes removed: the written
length `m` is the position just after the last non-zero byte, and the first `m` bytes are
unchanged. -/
theorem decrypt_strips_trailing_zeros (data : List Nat) (h : ∃ x ∈ data, x ≠ 0) :
    ∃ m, Decrypt.stripPadding data data.length = some m ∧
      Decrypt.written data = some (data.take m) ∧
      1 ≤ m ∧ m ≤ data.length ∧ data.getD (m - 1) 0 ≠ 0 ∧
      (∀ i, m ≤ i → i < data.length → data.getD i 0 = 0) ∧
      data = data.take m ++ List.replicate (data.length - m) 0 := by
  obtain ⟨x, hx, hne⟩ := h
  obtain ⟨i, hi⟩ := List.mem_iff_getElem?.1 hx
  have hil : i < data.length := by
    by_contra hc
    rw [List.getElem?_eq_none (by omega)] at hi
    exact absurd hi (by simp)
  have hgi : data.getD i 0 ≠ 0 := by
    rw [List.getD_eq_getElem?_getD, hi]
    exact hne
  obtain ⟨m, hm, h1, h2, h3, h4⟩ := stripPadding_spec data data.length ⟨i, hil, hgi⟩
  refine ⟨m, hm, by simp [Decrypt.written, hm], h1, h2, h3, h4, ?_⟩
  apply List.ext_getElem?
  intro p
  rw [List.getElem?_append, List.getElem?_take, List.getElem?_replicate, List.length_take,
    Nat.min_eq_left h2]
  by_cases hp : p < m
  · rw [if_pos hp, if_pos hp]
  · rw [if_neg hp]
    by_cases hp2 : p < data.length
    · have hz := h4 p (by omega) hp2
      rw [List.getD_eq_getElem?_getD, List.getElem?_eq_getElem hp2] at hz
      rw [if_pos (by omega), List.getElem?_eq_getElem hp2]
      exact congrArg some hz
    · rw [if_neg (by omega)]
      exact List.getElem?_eq_none (by omega)

theorem decrypt_strips_trailing_zeros_witness :
    (∃ x ∈ ([0x41, 0x00, 0x42, 0x00, 0x00] : List Nat), x ≠ 0) ∧
    (∃ m, Decrypt.stripPadding [0x41, 0x00, 0x42, 0x00, 0x00]
          ([0x41, 0x00, 0x42, 0x00, 0x00] : List Nat).length = some m ∧
      Decrypt.written [0x41, 0x00, 0x42, 0x00, 0x00]
        = some (([0x41, 0x00, 0x42, 0x00, 0x00] : List Nat).take m) ∧
      1 ≤ m ∧ m ≤ ([0x41, 0x00, 0x42, 0x00, 0x00] : List Nat).length ∧
      ([0x41, 0x00, 0x42, 0x00, 0x00] : List Nat).getD (m - 1) 0 ≠ 0 ∧
      (∀ i, m ≤ i → i < ([0x41, 0x00, 0x42, 0x00, 0x00] : List Nat).length →
        ([0x41, 0x00, 0x42, 0x00, 0x00] : List Nat).getD i 0 = 0) ∧
      ([0x41, 0x00, 0x42, 0x00, 0x00] : List Nat)
        = ([0x41, 0x00, 0x42, 0x00, 0x00] : List Nat).take m
          ++ List.replicate (([0x41, 0x00, 0x42, 0x00, 0x00] : List Nat).length - m) 0) :=
  ⟨by decide, decrypt_strips_trailing_zeros _ (by decide)⟩

/-- C16: the file-level zero padding cannot tell real trailing zero bytes from padding:
two different plaintexts have the same zero-padded form under `checkSizes` of `encrypt.c`
(for blocks this small `realloc` grows the block where it is, and whatever `realloc` does
the two plaintexts leave `main` in the same state), and stripping the trailing zeros of
that padded form, as `decrypt.c` does, does not give back the plaintext that ends in a zero
byte. -/
theorem zero_padding_ambiguous :
    ∃ p q padded : List Nat, p ≠ q ∧
      (∀ junk, Encrypt.checkSizes junk false 16 p.length p
        = Except.ok (padded.length, some padded)) ∧
      (∀ junk, Encrypt.checkSizes junk false 16 q.length q
        = Except.ok (padded.length, some padded)) ∧
      (∀ junk moved, Encrypt.checkSizes junk moved 16 p.length p
        = Encrypt.checkSizes junk moved 16 q.length q) ∧
      Decrypt.written padded = some q ∧ Decrypt.written padded ≠ some p := by
  refine ⟨[0x41, 0x00], [0x41], [0x41, 0, 0, 0, 0, 0, 0, 0, 0, 0, 0, 0, 0, 0, 0, 0],
    by decide, ?_, ?_, ?_, by decide, by decide⟩
  · intro junk; exact encrypt_checkSizes_padded junk [0x41, 0x00] (by decide)
  · intro junk; exact encrypt_checkSizes_padded junk [0x41] (by decide)
  · intro junk moved
    cases moved
    · rw [encrypt_checkSizes_padded junk [0x41, 0x00] (by decide),
        encrypt_checkSizes_padded junk [0x41] (by decide)]
      rfl
    · rw [encrypt_checkSizes_moved junk [0x41, 0x00] (by decide),
        encrypt_checkSizes_moved junk [0x41] (by decide)]
      rfl

/-- C17: `checkSizes` of `decrypt.c` terminates the program with failure if and only if the
key size is not exactly 16 or the data size is not a multiple of 16; otherwise it returns
normally. -/
theorem decrypt_checkSizes_iff (keysize datasize : Nat) :
    (Decrypt.checkSizes keysize datasize = Except.error EXIT_FAILURE ↔
      (keysize ≠ 16 ∨ datasize % 16 ≠ 0)) ∧
    (Decrypt.checkSizes keysize datasize = Except.ok () ↔
      ¬ (keysize ≠ 16 ∨ datasize % 16 ≠ 0)) := by
  unfold Decrypt.checkSizes
  by_cases h1 : keysize = 16 <;> by_cases h2 : datasize % 16 = 0 <;> simp [h1, h2]

theorem copyBack_length (data : List Nat) (i : Nat) (c : List Nat) :
    (copyBack data i c).length = data.length :=
  foldl_set_length (16 * i) (fun j => c.getD j 0) 16 data

theorem copyBack_getD (data : List Nat) (i : Nat) (c : List Nat) (p : Nat) :
    (copyBack data i c).getD p 0
      = if 16 * i ≤ p ∧ p < 16 * i + 16 ∧ p < data.length then c.getD (p - 16 * i) 0
        else data.getD p 0 := by
  rw [List.getD_eq_getElem?_getD, List.getD_eq_getElem?_getD]
  unfold copyBack
  rw [foldl_set_getElem? (16 * i) (fun j => c.getD j 0) 16 data p]
  split <;> simp

theorem map_getD_range_sixteen {c : List Nat} (h : c.length = 16) :
    (List.range 16).map (fun j => c.getD j 0) = c := by
  obtain ⟨b0, b1, b2, b3, b4, b5, b6, b7, b8, b9, b10, b11, b12, b13, b14, b15, rfl⟩ :=
    length_sixteen h
  rfl

theorem blockAt_copyBack_self {data : List Nat} {i : Nat} {c : List Nat}
    (hi : 16 * i + 16 ≤ data.length) (hc : c.length = 16) :
    blockAt (copyBack data i c) i = c := by
  unfold blockAt
  rw [← map_getD_range_sixteen hc]
  apply List.map_congr_left
  intro j hj
  have hj16 : j < 16 := List.mem_range.1 hj
  rw [copyBack_getD, if_pos (by omega), Nat.add_sub_cancel_left, map_getD_range_sixteen hc]

theorem blockAt_copyBack_other (data : List Nat) {i k : Nat} (c : List Nat) (hk : k ≠ i) :
    blockAt (copyBack data i c) k = blockAt data k := by
  unfold blockAt
  apply List.map_congr_left
  intro j hj
  have hj16 : j < 16 := List.mem_range.1 hj
  rw [copyBack_getD, if_neg (by omega)]

theorem blockAt_eq_take_drop {data : List Nat} {i : Nat} (hi : 16 * i + 16 ≤ data.length) :
    blockAt data i = (data.drop (16 * i)).take 16 := by
  apply List.ext_getElem?
  intro p
  unfold blockAt
  rw [List.getElem?_take, List.getElem?_drop]
  by_cases hp : p < 16
  · rw [List.getElem?_map, List.getElem?_range hp, if_pos hp]
    simp [List.getElem?_eq_getElem (by omega : 16 * i + p < data.length)]
  · rw [if_neg hp]
    exact List.getElem?_eq_none (by simpa using hp)

/-- After `m` iterations of the block loop the buffer has its length, its first `m` blocks
are the images of the input blocks under the block function, and the other blocks are
untouched. -/
theorem blockLoop_invariant (cipher : List Nat → List Nat → List Nat)
    (hc : ∀ b k, (cipher b k).length = 16) (data key : List Nat) (n : Nat)
    (hn : data.length = 16 * n) : ∀ m, m ≤ n →
    (blockLoop cipher data key m).length = data.length ∧
    ∀ k, blockAt (blockLoop cipher data key m) k
      = if k < m then cipher (blockAt data k) key else blockAt data k := by
  intro m
  induction m with
  | zero => intro _; exact ⟨rfl, fun k => by simp [blockLoop]⟩
  | succ m ih =>
    intro hm
    obtain ⟨hlen, hblk⟩ := ih (by omega)
    have hstep : blockLoop cipher data key (m + 1)
        = copyBack (blockLoop cipher data key m) m
            (cipher (blockAt (blockLoop cipher data key m) m) key) := by
      unfold blockLoop
      rw [List.range_succ, List.foldl_append]
      simp only [List.foldl_cons, List.foldl_nil]
    have hm' : blockAt (blockLoop cipher data key m) m = blockAt data m := by
      rw [hblk m, if_neg (Nat.lt_irrefl m)]
    rw [hstep, hm']
    refine ⟨by rw [copyBack_length, hlen], ?_⟩
    intro k
    by_cases hk : k = m
    · subst hk
      rw [blockAt_copyBack_self (by omega) (hc _ _), if_pos (Nat.lt_succ_self k)]
    · rw [blockAt_copyBack_other _ _ hk, hblk k]
      by_cases hkm : k < m
      · rw [if_pos hkm, if_pos (by omega)]
      · rw [if_neg hkm, if_neg (by omega)]

theorem encryptBlock_length (b k : List Nat) : (encryptBlock b k).length = 16 :=
  (addSubkey_isBytes _ _).1

theorem decryptBlock_length (b k : List Nat) : (decryptBlock b k).length = 16 :=
  (addSubkey_isBytes _ _).1

/-- The block loop, run on `16 * n` bytes for `n` iterations, in terms of the byte ranges
`[16 i, 16 i + 16)`. -/
theorem blockLoop_blocks (cipher : List Nat → List Nat → List Nat)
    (hc : ∀ b k, (cipher b k).length = 16) (data key : List Nat) (n : Nat)
    (hn : data.length = 16 * n) :
    (blockLoop cipher data key (data.length / 16)).length = data.length ∧
    ∀ i, i < n →
      ((blockLoop cipher data key (data.length / 16)).drop (16 * i)).take 16
        = cipher ((data.drop (16 * i)).take 16) key := by
  have hdiv : data.length / 16 = n := by omega
  rw [hdiv]
  obtain ⟨hlen, hblk⟩ := blockLoop_invariant cipher hc data key n hn n (Nat.le_refl n)
  refine ⟨hlen, ?_⟩
  intro i hi
  rw [← blockAt_eq_take_drop (by omega), ← blockAt_eq_take_drop (by omega), hblk i, if_pos hi]

/-- C19: for every input of `16 * n` bytes and every key, the block loop of the encrypt
program, and likewise of the decrypt program, preserves the length and makes the output
bytes `[16 i, 16 i + 16)` equal to `encryptBlock`, respectively `decryptBlock`, applied to
the input bytes `[16 i, 16 i + 16)` with that key, for each `i < n`; so an output block
depends on no other input block. -/
theorem mainLoop_blockwise (data key : List Nat) (n : Nat) (hn : data.length = 16 * n) :
    ((Encrypt.mainLoop data key data.length).length = data.length ∧
     ∀ i, i < n →
      ((Encrypt.mainLoop data key data.length).drop (16 * i)).take 16
        = encryptBlock ((data.drop (16 * i)).take 16) key) ∧
    ((Decrypt.mainLoop data key data.length).length = data.length ∧
     ∀ i, i < n →
      ((Decrypt.mainLoop data key data.length).drop (16 * i)).take 16
        = decryptBlock ((data.drop (16 * i)).take 16) key) ∧
    (∀ other : List Nat, other.length = 16 * n → ∀ i, i < n →
      (other.drop (16 * i)).take 16 = (data.drop (16 * i)).take 16 →
      ((Encrypt.mainLoop other key other.length).drop (16 * i)).take 16
          = ((Encrypt.mainLoop data key data.length).drop (16 * i)).take 16 ∧
      ((Decrypt.mainLoop other key other.length).drop (16 * i)).take 16
          = ((Decrypt.mainLoop data key data.length).drop (16 * i)).take 16) := by
  have he := blockLoop_blocks encryptBlock encryptBlock_length data key n hn
  have hd := blockLoop_blocks decryptBlock decryptBlock_length data key n hn
  refine ⟨he, hd, ?_⟩
  intro other ho i hi hsame
  have he' := blockLoop_blocks encryptBlock encryptBlock_length other key n ho
  have hd' := blockLoop_blocks decryptBlock decryptBlock_length other key n ho
  exact ⟨by
      show ((blockLoop encryptBlock other key (other.length / 16)).drop (16 * i)).take 16
        = ((blockLoop encryptBlock data key (data.length / 16)).drop (16 * i)).take 16
      rw [he'.2 i hi, he.2 i hi, hsame], by
      show ((blockLoop decryptBlock other key (other.length / 16)).drop (16 * i)).take 16
        = ((blockLoop decryptBlock data key (data.length / 16)).drop (16 * i)).take 16
      rw [hd'.2 i hi, hd.2 i hi, hsame]⟩

theorem mainLoop_blockwise_witness :
    (List.range 32).length = 16 * 2 ∧
    (((Encrypt.mainLoop (List.range 32) (List.range 16) (List.range 32).length).length
        = (List.range 32).length ∧
      ∀ i, i < 2 →
        ((Encrypt.mainLoop (List.range 32) (List.range 16) (List.range 32).length).drop
            (16 * i)).take 16
          = encryptBlock (((List.range 32).drop (16 * i)).take 16) (List.range 16)) ∧
     ((Decrypt.mainLoop (List.range 32) (List.range 16) (List.range 32).length).length
        = (List.range 32).length ∧
      ∀ i, i < 2 →
        ((Decrypt.mainLoop (List.range 32) (List.range 16) (List.range 32).length).drop
            (16 * i)).take 16
          = decryptBlock (((List.range 32).drop (16 * i)).take 16) (List.range 16)) ∧
     (∀ other : List Nat, other.length = 16 * 2 → ∀ i, i < 2 →
       (other.drop (16 * i)).take 16 = ((List.range 32).drop (16 * i)).take 16 →
       ((Encrypt.mainLoop other (List.range 16) other.length).drop (16 * i)).take 16
           = ((Encrypt.mainLoop (List.range 32) (List.range 16) (List.range 32).length).drop
               (16 * i)).take 16 ∧
       ((Decrypt.mainLoop other (List.range 16) other.length).drop (16 * i)).take 16
           = ((Decrypt.mainLoop (List.range 32) (List.range 16) (List.range 32).length).drop
               (16 * i)).take 16)) :=
  ⟨by decide, mainLoop_blockwise (List.range 32) (List.range 16) 2 (by decide)⟩

end P5

namespace P2

/-! ## Theorems on `operation.c` -/

theorem wrapLong_of_inRange {x : Int} (h1 : LONG_MIN ≤ x) (h2 : x ≤ LONG_MAX) :
    wrapLong x = x := by
  unfold wrapLong
  unfold LONG_MIN at h1
  unfold LONG_MAX at h2
  omega

/-- Apart from `LONG_MIN + LONG_MIN`, `plus` behaves as documented on every pair of `long`
values: it returns the sum when the sum is a `long`, and exits with status 100 otherwise. -/
theorem plus_spec_except (a b : Int) (ha1 : LONG_MIN ≤ a) (ha2 : a ≤ LONG_MAX)
    (hb1 : LONG_MIN ≤ b) (hb2 : b ≤ LONG_MAX) :
    (LONG_MIN ≤ a + b ∧ a + b ≤ LONG_MAX → plus a b = Except.ok (a + b)) ∧
    (LONG_MAX < a + b → plus a b = Except.error OUTSIDE_LONG_RANGE) ∧
    (a + b < LONG_MIN → ¬ (a = LONG_MIN ∧ b = LONG_MIN) →
      plus a b = Except.error OUTSIDE_LONG_RANGE) := by
  unfold LONG_MIN at ha1 hb1
  unfold LONG_MAX at ha2 hb2
  unfold plus wrapLong LONG_MIN LONG_MAX
  refine ⟨?_, ?_, ?_⟩
  · rintro ⟨h1, h2⟩
    have e : (a + b + 9223372036854775808) % 18446744073709551616 - 9223372036854775808
        = a + b := by omega
    simp only [e]
    rw [if_neg (by omega), if_neg (by omega)]
  · intro h
    rw [if_pos (by omega)]
  · intro h hne
    rw [if_neg (by omega), if_pos (by omega)]

/-- C20, failing input: `plus LONG_MIN LONG_MIN`. The mathematical sum `-2^64` is not a
`long`, yet `plus` does not exit with status 100: the wrapped sum is `0`, which the test
`sum > 0` lets through, and `0` is returned. -/
theorem plus_long_min_long_min :
    LONG_MIN + LONG_MIN < LONG_MIN ∧
    plus LONG_MIN LONG_MIN = Except.ok 0 ∧
    plus LONG_MIN LONG_MIN ≠ Except.error OUTSIDE_LONG_RANGE := by
  have e : plus LONG_MIN LONG_MIN = Except.ok 0 := rfl
  refine ⟨by decide, e, ?_⟩
  rw [e]
  intro h
  cases h


/-- Apart from `0 - LONG_MIN`, `minus` behaves as documented on every pair of `long` values:
it returns the difference when the difference is a `long`, and exits with status 100
otherwise. -/
theorem minus_spec_except (a b : Int) (ha1 : LONG_MIN ≤ a) (ha2 : a ≤ LONG_MAX)
    (hb1 : LONG_MIN ≤ b) (hb2 : b ≤ LONG_MAX) :
    (LONG_MIN ≤ a - b ∧ a - b ≤ LONG_MAX → minus a b = Except.ok (a - b)) ∧
    (a - b < LONG_MIN → minus a b = Except.error OUTSIDE_LONG_RANGE) ∧
    (LONG_MAX < a - b → ¬ (a = 0 ∧ b = LONG_MIN) →
      minus a b = Except.error OUTSIDE_LONG_RANGE) := by
  unfold LONG_MIN at ha1 hb1
  unfold LONG_MAX at ha2 hb2
  unfold minus wrapLong LONG_MIN LONG_MAX
  refine ⟨?_, ?_, ?_⟩
  · rintro ⟨h1, h2⟩
    have e : (a - b + 9223372036854775808) % 18446744073709551616 - 9223372036854775808
        = a - b := by omega
    simp only [e]
    rw [if_neg (by omega), if_neg (by omega)]
  · intro h
    rw [if_pos (by omega)]
  · intro h hne
    rw [if_neg (by omega), if_pos (by omega)]

/-- C21, failing input: `minus 0 LONG_MIN`. The mathematical difference `2^63` is not a
`long`, yet `minus` does not exit with status 100: its second test asks for `a > 0`, which
`a = 0` fails, and the wrapped difference `LONG_MIN` is returned. -/
theorem minus_zero_long_min :
    LONG_MAX < 0 - LONG_MIN ∧
    minus 0 LONG_MIN = Except.ok LONG_MIN ∧
    minus 0 LONG_MIN ≠ Except.error OUTSIDE_LONG_RANGE := by
  have e : minus 0 LONG_MIN = Except.ok LONG_MIN := rfl
  refine ⟨by decide, e, ?_⟩
  rw [e]
  intro h
  cases h

/-- C22, failing inputs: `times a 0` and `times a (-1)`. The thresholds are computed by
`divide LONG_MAX b` and `divide LONG_MIN b` before anything else, so `times 5 0` exits with
status 101 although the product `0` is a `long`, and `times 1 (-1)` exits with status 100
although the product `-1` is a `long`. -/
theorem times_exits_on_zero_and_minus_one :
    (LONG_MIN ≤ (5 : Int) * 0 ∧ (5 : Int) * 0 ≤ LONG_MAX) ∧
    times 5 0 = Except.error DIVIDE_BY_ZERO_ERR ∧
    (LONG_MIN ≤ (1 : Int) * (-1) ∧ (1 : Int) * (-1) ≤ LONG_MAX) ∧
    times 1 (-1) = Except.error OUTSIDE_LONG_RANGE ∧
    (∀ a, times a 0 = Except.error DIVIDE_BY_ZERO_ERR) ∧
    (∀ a, times a (-1) = Except.error OUTSIDE_LONG_RANGE) := by
  refine ⟨by decide, rfl, by decide, rfl, fun a => rfl, fun a => rfl⟩

theorem tdiv_abs_le (a b : Int) : (Int.tdiv a b).natAbs ≤ a.natAbs := by
  rw [Int.natAbs_tdiv]
  exact Nat.div_le_self _ _

/-- C23: for all `long` values `a` and `b`, `divide a b` exits with status 101 if and only
if `b = 0`, exits with status 100 if and only if `a = LONG_MIN` and `b = -1`, and otherwise
returns the quotient of `a` by `b` truncated toward zero: a `long` whose magnitude is the
integer part of `|a| / |b|` and whose sign is that of the exact quotient. -/
theorem divide_spec (a b : Int) (ha1 : LONG_MIN ≤ a) (ha2 : a ≤ LONG_MAX)
    (hb1 : LONG_MIN ≤ b) (hb2 : b ≤ LONG_MAX) :
    (divide a b = Except.error DIVIDE_BY_ZERO_ERR ↔ b = 0) ∧
    (divide a b = Except.error OUTSIDE_LONG_RANGE ↔ (a = LONG_MIN ∧ b = -1)) ∧
    (b ≠ 0 → ¬ (a = LONG_MIN ∧ b = -1) →
      ∃ q, divide a b = Except.ok q ∧ q = Int.tdiv a b ∧
        LONG_MIN ≤ q ∧ q ≤ LONG_MAX ∧
        q.natAbs = a.natAbs / b.natAbs ∧ (0 ≤ a * b → 0 ≤ q) ∧ (a * b ≤ 0 → q ≤ 0)) := by
  refine ⟨?_, ?_, ?_⟩
  · unfold divide
    by_cases h0 : b = 0
    · simp [h0]
    · by_cases h1 : a = LONG_MIN ∧ b = -1
      · simp [h0, h1, DIVIDE_BY_ZERO_ERR, OUTSIDE_LONG_RANGE]
      · simp [h0, h1]
  · unfold divide
    by_cases h0 : b = 0
    · have hb : ¬ (b = -1) := by omega
      simp [h0, DIVIDE_BY_ZERO_ERR, OUTSIDE_LONG_RANGE]
    · by_cases h1 : a = LONG_MIN ∧ b = -1
      · simp [h0, h1]
      · simp [h0, h1]
  · intro h0 h1
    refine ⟨Int.tdiv a b, by simp [divide, h0, h1], rfl, ?_⟩
    have habs := tdiv_abs_le a b
    have hsign1 : 0 ≤ a * b → 0 ≤ Int.tdiv a b := by
      intro h
      rcases Int.le_total 0 a with ha | ha
      · rcases Int.le_total 0 b with hb | hb
        · exact Int.tdiv_nonneg ha hb
        · have hb0 : b < 0 := by omega
          have ha0 : a = 0 := by
            by_contra hne
            have : 0 < a := by omega
            have := Int.mul_neg_of_pos_of_neg this hb0
            omega
          subst ha0
          simp
      · rcases Int.le_total 0 b with hb | hb
        · have hb0 : 0 < b := by omega
          have ha0 : a = 0 := by
            by_contra hne
            have : a < 0 := by omega
            have := Int.mul_neg_of_neg_of_pos this hb0
            omega
          subst ha0
          simp
        · have e : Int.tdiv a b = Int.tdiv (-a) (-b) := (Int.neg_tdiv_neg a b).symm
          rw [e]
          exact Int.tdiv_nonneg (by omega) (by omega)
    have hsign2 : a * b ≤ 0 → Int.tdiv a b ≤ 0 := by
      intro h
      rcases Int.le_total 0 a with ha | ha
      · rcases Int.le_total 0 b with hb | hb
        · have hb0 : 0 < b := by omega
          have ha0 : a = 0 := by
            by_contra hne
            have : 0 < a := by omega
            have := Int.mul_pos this hb0
            omega
          subst ha0
          simp
        · have e : Int.tdiv a b = -(Int.tdiv a (-b)) := by
            rw [Int.tdiv_neg, Int.neg_neg]
          rw [e]
          have := Int.tdiv_nonneg ha (by omega : 0 ≤ -b)
          omega
      · rcases Int.le_total 0 b with hb | hb
        · have e : Int.tdiv a b = -(Int.tdiv (-a) b) := by
            rw [Int.neg_tdiv, Int.neg_neg]
          rw [e]
          have := Int.tdiv_nonneg (by omega : 0 ≤ -a) hb
          omega
        · have hb0 : b < 0 := by omega
          have ha0 : a = 0 := by
            by_contra hne
            have : a < 0 := by omega
            have := Int.mul_pos_of_neg_of_neg this hb0
            omega
          subst ha0
          simp
    refine ⟨?_, ?_, Int.natAbs_tdiv a b, hsign1, hsign2⟩
    · unfold LONG_MIN at ha1 ⊢
      unfold LONG_MAX at ha2
      omega
    · unfold LONG_MIN at ha1 h1
      unfold LONG_MAX at ha2 ⊢
      by_cases hb1' : b = -1
      · subst hb1'
        have e : Int.tdiv a (-1) = -a := by
          rw [Int.tdiv_neg, Int.tdiv_one]
        rw [e]
        have : a ≠ -9223372036854775808 := fun h => h1 ⟨h, rfl⟩
        omega
      · by_cases hpos : 0 ≤ a * b
        · -- the quotient is non-negative; its magnitude is at most |a|, and 2^63 only for b = -1
          have hq := hsign1 hpos
          by_cases ha : a = -9223372036854775808
          · subst ha
            have hb2' : b.natAbs ≥ 2 := by
              have : b ≤ 0 := by
                by_contra hc
                have : 0 < b := by omega
                have := Int.mul_neg_of_neg_of_pos (by decide : (-9223372036854775808 : Int) < 0) this
                omega
              omega
            have h2 : (Int.tdiv (-9223372036854775808) b).natAbs
                = 9223372036854775808 / b.natAbs := Int.natAbs_tdiv (-9223372036854775808) b
            have h3 : (9223372036854775808 : Nat) / b.natAbs ≤ 9223372036854775808 / 2 :=
              Nat.div_le_div_left hb2' (by decide)
            have h5 : (9223372036854775808 : Nat) / 2 = 4611686018427387904 := by decide
            omega
          · omega
        · have := hsign2 (by omega)
          omega

theorem divide_spec_witness :
    (LONG_MIN ≤ (-7 : Int) ∧ (-7 : Int) ≤ LONG_MAX ∧ LONG_MIN ≤ (2 : Int) ∧
      (2 : Int) ≤ LONG_MAX) ∧
    ((divide (-7) 2 = Except.error DIVIDE_BY_ZERO_ERR ↔ (2 : Int) = 0) ∧
     (divide (-7) 2 = Except.error OUTSIDE_LONG_RANGE ↔ ((-7 : Int) = LONG_MIN ∧ (2 : Int) = -1)) ∧
     ((2 : Int) ≠ 0 → ¬ ((-7 : Int) = LONG_MIN ∧ (2 : Int) = -1) →
       ∃ q, divide (-7) 2 = Except.ok q ∧ q = Int.tdiv (-7) 2 ∧
         LONG_MIN ≤ q ∧ q ≤ LONG_MAX ∧
         q.natAbs = (-7 : Int).natAbs / (2 : Int).natAbs ∧
         (0 ≤ (-7 : Int) * 2 → 0 ≤ q) ∧ ((-7 : Int) * 2 ≤ 0 → q ≤ 0))) :=
  ⟨by decide, divide_spec (-7) 2 (by decide) (by decide) (by decide) (by decide)⟩

/-- C24, failing inputs: `exponential 0 1` and `exponential (-1) 1`. The power is built by
`times result a`, which exits whenever its second argument is `0` or `-1` (the defect of
`times`), so `0 ^ 1 = 0` and `(-1) ^ 1 = -1`, both of them `long` values, are not returned:
the program exits with status 101 and with status 100. -/
theorem exponential_exits_on_zero_and_minus_one :
    (LONG_MIN ≤ (0 : Int) ^ 1 ∧ (0 : Int) ^ 1 ≤ LONG_MAX) ∧
    exponential 0 1 = some (Except.error DIVIDE_BY_ZERO_ERR) ∧
    (LONG_MIN ≤ (-1 : Int) ^ 1 ∧ (-1 : Int) ^ 1 ≤ LONG_MAX) ∧
    exponential (-1) 1 = some (Except.error OUTSIDE_LONG_RANGE) ∧
    (∀ a, exponential a 0 = some (Except.ok 1)) ∧
    (∀ a b, b < 0 → exponential a b = some (Except.error NEGATIVE_EXPONENT)) := by
  refine ⟨by decide, rfl, by decide, rfl, fun a => rfl, ?_⟩
  intro a b hb
  simp [exponential, hb]

/-! ### Theorems on `infix.c` -/

theorem skip_space_pad (k c : Nat) (rest : List Nat) (hc : c ≠ 32) :
    skip_space (pad k ++ c :: rest) = ((c : Int), rest) := by
  induction k with
  | zero =>
    have h : ¬ ((c : Int) = ((' '.toNat : Nat) : Int)) := by
      have h32 : ((' '.toNat : Nat) : Int) = 32 := rfl
      omega
    show skip_space (c :: rest) = ((c : Int), rest)
    rw [skip_space, if_neg h]
  | succ k ih =>
    have e : pad (k + 1) ++ c :: rest = ' '.toNat :: (pad k ++ c :: rest) := by
      simp [pad, List.replicate_succ]
    rw [e, skip_space, if_pos rfl, ih]

theorem skip_space_char (stdin : List Nat) :
    ((skip_space stdin).1 = EOF ∧ (skip_space stdin).2 = [])
      ∨ ∃ c : Nat, c ≠ 32 ∧ (skip_space stdin).1 = (c : Int) := by
  induction stdin with
  | nil => exact Or.inl ⟨rfl, rfl⟩
  | cons a stdin ih =>
    by_cases h : (a : Int) = ((' '.toNat : Nat) : Int)
    · rw [skip_space, if_pos h]; exact ih
    · rw [skip_space, if_neg h]
      refine Or.inr ⟨a, ?_, rfl⟩
      intro ha
      exact h (by rw [ha]; rfl)

theorem skip_space_ungetc (stdin : List Nat) :
    skip_space (ungetc (skip_space stdin).1 (skip_space stdin).2) = skip_space stdin := by
  induction stdin with
  | nil => rfl
  | cons a stdin ih =>
    by_cases h : (a : Int) = ((' '.toNat : Nat) : Int)
    · rw [skip_space, if_pos h]; exact ih
    · have e : skip_space (a :: stdin) = ((a : Int), stdin) := by rw [skip_space, if_neg h]
      rw [e]
      have h2 : ¬ ((a : Int) = EOF) := by unfold EOF; omega
      simp only [ungetc, if_neg h2, Int.toNat_ofNat]
      exact e

theorem foldl_digits_ge (ds : List (Nat × Nat)) :
    ∀ v : Nat, v ≤ ds.foldl (fun value d => value * 10 + d.2) v := by
  induction ds with
  | nil => intro v; exact Nat.le_refl v
  | cons d ds ih =>
    intro v
    have := ih (v * 10 + d.2)
    simp only [List.foldl_cons]
    omega

theorem renderDigits_cons (k d : Nat) (ds : List (Nat × Nat)) (rest : List Nat) :
    renderDigits ((k, d) :: ds) ++ rest
      = pad k ++ (48 + d) :: (renderDigits ds ++ rest) := by
  simp [renderDigits, List.flatMap_cons]

theorem parseValueLoop_digits (rest : List Nat)
    (hstop : ¬ (ASCII_CODE_0 ≤ (skip_space rest).1 ∧ (skip_space rest).1 ≤ ASCII_CODE_9)) :
    ∀ (ds : List (Nat × Nat)) (fuel v : Nat) (has_loop_run : Bool),
      (∀ d ∈ ds, d.2 < 10) → ds.length < fuel →
      ((ds.foldl (fun value d => value * 10 + d.2) v : Nat) : Int) ≤ LONG_MAX →
      parseValueLoop fuel (v : Int) has_loop_run (skip_space (renderDigits ds ++ rest)).1
          (skip_space (renderDigits ds ++ rest)).2
        = some (((ds.foldl (fun value d => value * 10 + d.2) v : Nat) : Int),
            has_loop_run || !ds.isEmpty, (skip_space rest).1, (skip_space rest).2) := by
  intro ds
  induction ds with
  | nil =>
    intro fuel v hlr _ hf _
    obtain ⟨f, rfl⟩ : ∃ f, fuel = f + 1 := ⟨fuel - 1, by simp at hf; omega⟩
    show parseValueLoop (f + 1) (v : Int) hlr (skip_space rest).1 (skip_space rest).2 = _
    rw [parseValueLoop, if_neg hstop]
    simp
  | cons d ds ih =>
    intro fuel v hlr hd hf hmax
    obtain ⟨k, d⟩ := d
    obtain ⟨f, rfl⟩ : ∃ f, fuel = f + 1 := ⟨fuel - 1, by simp at hf; omega⟩
    have hd10 : d < 10 := hd (k, d) (by simp)
    rw [renderDigits_cons, skip_space_pad k (48 + d) _ (by omega)]
    have hdig : ASCII_CODE_0 ≤ ((48 + d : Nat) : Int) ∧ ((48 + d : Nat) : Int) ≤ ASCII_CODE_9 := by
      unfold ASCII_CODE_0 ASCII_CODE_9
      constructor <;> omega
    rw [parseValueLoop, if_pos hdig]
    simp only [List.foldl_cons] at hmax ⊢
    have hge := foldl_digits_ge ds (v * 10 + d)
    have hv : wrapLong (wrapLong ((v : Int) * BASE_10) + (((48 + d : Nat) : Int) - ASCII_CODE_0))
        = ((v * 10 + d : Nat) : Int) := by
      unfold LONG_MAX at hmax
      have h1 : wrapLong ((v : Int) * BASE_10) = (v : Int) * 10 := by
        apply wrapLong_of_inRange
        · unfold BASE_10 LONG_MIN; omega
        · unfold BASE_10 LONG_MAX; omega
      rw [h1]
      have h2 : (v : Int) * 10 + (((48 + d : Nat) : Int) - ASCII_CODE_0)
          = ((v * 10 + d : Nat) : Int) := by
        unfold ASCII_CODE_0; push_cast; ring
      rw [h2]
      apply wrapLong_of_inRange
      · unfold LONG_MIN; omega
      · unfold LONG_MAX; omega
    rw [hv, ih f (v * 10 + d) true (fun x hx => hd x (by simp [hx]))
      (by simp at hf; omega) hmax]
    simp

theorem digits_length_le_render (l : Literal) : l.digits.length ≤ l.render.length := by
  have h : ∀ ds : List (Nat × Nat), ds.length ≤ (renderDigits ds).length := by
    intro ds
    induction ds with
    | nil => simp
    | cons d ds ih =>
      have := renderDigits_cons d.1 d.2 ds []
      simp only [List.append_nil] at this
      rw [this]
      simp
      omega
  have := h l.digits
  unfold Literal.render
  simp
  omega

theorem parse_value_literal (l : Literal) (rest : List Nat) (fuel : Nat)
    (hwf : l.WellFormed) (hf : l.digits.length < fuel)
    (hstop : ¬ (ASCII_CODE_0 ≤ (skip_space rest).1 ∧ (skip_space rest).1 ≤ ASCII_CODE_9)) :
    parse_value fuel (l.render ++ rest)
      = some (Except.ok (l.value, ungetc (skip_space rest).1 (skip_space rest).2)) := by
  obtain ⟨sign, digits⟩ := l
  obtain ⟨hne, hd, hmax⟩ := hwf
  simp only at hne hd hmax hf
  have hloop := parseValueLoop_digits rest hstop digits fuel 0 false hd hf hmax
  have hval : digits.foldl (fun value d => value * 10 + d.2) 0 = digitsValue digits := rfl
  rw [hval] at hloop
  have hemp : (false || !digits.isEmpty) = true := by
    cases digits with
    | nil => exact absurd rfl hne
    | cons d ds => rfl
  rw [hemp] at hloop
  cases sign with
  | none =>
    have hr : (Literal.mk none digits).render ++ rest = renderDigits digits ++ rest := by
      simp [Literal.render]
    have hfirst : ((skip_space (renderDigits digits ++ rest)).1 == (('-'.toNat : Nat) : Int))
        = false := by
      cases digits with
      | nil => exact absurd rfl hne
      | cons d ds =>
        obtain ⟨k, d⟩ := d
        rw [renderDigits_cons, skip_space_pad k (48 + d) _ (by omega)]
        have h45 : (('-'.toNat : Nat) : Int) = 45 := rfl
        rw [h45]
        simp only [beq_eq_false_iff_ne, ne_eq]
        omega
    rw [hr]
    unfold parse_value
    simp only [hfirst, Bool.false_eq_true, if_false]
    rw [show (0 : Int) = ((0 : Nat) : Int) from rfl, hloop]
    simp [Literal.value]
  | some k =>
    have hr : (Literal.mk (some k) digits).render ++ rest
        = pad k ++ 45 :: (renderDigits digits ++ rest) := by
      simp [Literal.render]
    rw [hr]
    unfold parse_value
    rw [skip_space_pad k 45 _ (by omega)]
    have hfirst : ((((45 : Nat) : Int)) == (('-'.toNat : Nat) : Int)) = true := rfl
    simp only [hfirst, if_true]
    rw [show (0 : Int) = ((0 : Nat) : Int) from rfl, hloop]
    have hneg : wrapLong (-(digitsValue digits : Int)) = -(digitsValue digits : Int) := by
      unfold LONG_MAX at hmax
      apply wrapLong_of_inRange
      · unfold LONG_MIN; omega
      · unfold LONG_MAX; omega
    simp [Literal.value, hneg]


theorem exponentialLoop_some (a b : Int) (hb : b ≤ INT_MAX) :
    ∀ (fuel : Nat) (i result : Int), (b - i).toNat < fuel →
      ∃ outcome, exponentialLoop a b fuel i result = some outcome := by
  intro fuel
  induction fuel with
  | zero => intro i result h; omega
  | succ fuel ih =>
    intro i result h
    rw [exponentialLoop]
    by_cases hi : i < b
    · rw [if_pos hi]
      cases times result a with
      | error status => exact ⟨_, rfl⟩
      | ok product =>
        have hne : ¬ (i = INT_MAX) := by omega
        simp only [if_neg hne]
        exact ih (i + 1) product (by omega)
    · rw [if_neg hi]
      exact ⟨_, rfl⟩

/-- With an exponent of at most `INT_MAX` the function `exponential` returns a value or
exits: the counter of its loop does not overflow. -/
theorem exponential_some (a b : Int) (hb : b ≤ INT_MAX) :
    ∃ outcome, exponential a b = some outcome := by
  unfold exponential
  by_cases h : b < 0
  · rw [if_pos h]; exact ⟨_, rfl⟩
  · rw [if_neg h]
    exact exponentialLoop_some a b hb 2147483649 0 1 (by unfold INT_MAX at hb; omega)

theorem exponentialLoop_one (b : Int) (hb : INT_MAX < b) :
    ∀ (fuel : Nat) (i : Int), i ≤ INT_MAX → exponentialLoop 1 b fuel i 1 = none := by
  intro fuel
  induction fuel with
  | zero => intro i _; rfl
  | succ fuel ih =>
    intro i hi
    have h1 : times 1 1 = Except.ok 1 := rfl
    rw [exponentialLoop, if_pos (by omega), h1]
    by_cases hm : i = INT_MAX
    · simp only [if_pos hm]
    · simp only [if_neg hm]
      exact ih (i + 1) (by omega)

/-- With the base `1` and an exponent above `INT_MAX`, `exponential` does not return:
`times 1 1` never exits and the counter of the loop overflows. -/
theorem exponential_one_overflow (b : Int) (hb : INT_MAX < b) : exponential 1 b = none := by
  unfold exponential
  rw [if_neg (by unfold INT_MAX at hb; omega)]
  exact exponentialLoop_one b hb 2147483649 0 (by decide)

theorem andThen_none {α β : Type} (g : α → Option (Except Nat β)) :
    andThen (none : Option (Except Nat α)) g = none := rfl

theorem andThen_error {α β : Type} (g : α → Option (Except Nat β)) (status : Nat) :
    andThen (some (Except.error status : Except Nat α)) g = some (Except.error status) := rfl

theorem andThen_ok {α β : Type} (g : α → Option (Except Nat β)) (a : α) :
    andThen (some (Except.ok a : Except Nat α)) g = g a := rfl

theorem foldl_andThen_none {β : Type} (g : Int → β → Option (Except Nat Int)) :
    ∀ l : List β, l.foldl (fun acc p => andThen acc fun a => g a p) none = none := by
  intro l
  induction l with
  | nil => rfl
  | cons p l ih => exact ih

theorem foldl_andThen_error {β : Type} (g : Int → β → Option (Except Nat Int))
    (status : Nat) :
    ∀ l : List β,
      l.foldl (fun acc p => andThen acc fun a => g a p) (some (Except.error status))
        = some (Except.error status) := by
  intro l
  induction l with
  | nil => rfl
  | cons p l ih => exact ih

theorem foldl_andThen_some {β : Type} (g : Int → β → Option (Except Nat Int)) :
    ∀ (l : List β) (acc : Option (Except Nat Int)),
      (∃ outcome, acc = some outcome) → (∀ p ∈ l, ∀ a, ∃ outcome, g a p = some outcome) →
      ∃ outcome, l.foldl (fun acc p => andThen acc fun a => g a p) acc = some outcome := by
  intro l
  induction l with
  | nil => intro acc h _; exact h
  | cons p l ih =>
    intro acc h hg
    obtain ⟨outcome, rfl⟩ := h
    apply ih _ _ (fun q hq => hg q (by simp [hq]))
    cases outcome with
    | error status => exact ⟨_, rfl⟩
    | ok a => exact hg p (by simp) a

theorem foldl_bind_error {β : Type} (g : Int → β → Except Nat Int) (status : Nat) :
    ∀ l : List β,
      l.foldl (fun acc p => acc.bind fun a => g a p) (Except.error status)
        = Except.error status := by
  intro l
  induction l with
  | nil => rfl
  | cons p l ih => exact ih

theorem except_bind_ok {α β : Type} (g : α → Except Nat β) (a : α) :
    (Except.ok a : Except Nat α).bind g = g a := rfl

theorem except_bind_error {α β : Type} (g : α → Except Nat β) (status : Nat) :
    (Except.error status : Except Nat α).bind g = Except.error status := rfl

theorem except_map_ok {α β : Type} (g : α → β) (a : α) :
    Except.map g (Except.ok a : Except Nat α) = Except.ok (g a) := rfl

theorem except_map_error {α β : Type} (g : α → β) (status : Nat) :
    Except.map g (Except.error status : Except Nat α) = Except.error status := rfl

theorem renderPowers_cons (k : Nat) (l : Literal) (ps : List (Nat × Literal))
    (rest : List Nat) :
    renderPowers ((k, l) :: ps) ++ rest
      = pad k ++ 94 :: (l.render ++ (renderPowers ps ++ rest)) := by
  simp [renderPowers, List.flatMap_cons]

theorem stop_digit_powers (ps : List (Nat × Literal)) (rest : List Nat)
    (hstop : ¬ (ASCII_CODE_0 ≤ (skip_space rest).1 ∧ (skip_space rest).1 ≤ ASCII_CODE_9)) :
    ¬ (ASCII_CODE_0 ≤ (skip_space (renderPowers ps ++ rest)).1
        ∧ (skip_space (renderPowers ps ++ rest)).1 ≤ ASCII_CODE_9) := by
  cases ps with
  | nil => exact hstop
  | cons p ps =>
    obtain ⟨k, l⟩ := p
    rw [renderPowers_cons, skip_space_pad k 94 _ (by omega)]
    unfold ASCII_CODE_0 ASCII_CODE_9
    omega

theorem parseExpLoop_powers (rest : List Nat)
    (hstop : ¬ (ASCII_CODE_0 ≤ (skip_space rest).1 ∧ (skip_space rest).1 ≤ ASCII_CODE_9))
    (hpow : (skip_space rest).1 ≠ 94) :
    ∀ (ps : List (Nat × Literal)) (fuel : Nat) (v : Int),
      (∀ p ∈ ps, p.2.WellFormed) → (renderPowers ps).length < fuel →
      parseExpLoop fuel v (skip_space (renderPowers ps ++ rest)).1
          (skip_space (renderPowers ps ++ rest)).2
        = Option.map (Except.map (fun r => (r, (skip_space rest).1, (skip_space rest).2)))
            (ps.foldl (fun acc p => andThen acc fun a => exponential a p.2.value)
              (some (Except.ok v))) := by
  intro ps
  induction ps with
  | nil =>
    intro fuel v _ hf
    obtain ⟨f, rfl⟩ : ∃ f, fuel = f + 1 := ⟨fuel - 1, by omega⟩
    show parseExpLoop (f + 1) v (skip_space rest).1 (skip_space rest).2 = _
    have h : ¬ ((skip_space rest).1 = (('^'.toNat : Nat) : Int)) := hpow
    rw [parseExpLoop, if_neg h]
    rfl
  | cons p ps ih =>
    intro fuel v hwf hf
    obtain ⟨k, l⟩ := p
    obtain ⟨f, rfl⟩ : ∃ f, fuel = f + 1 := ⟨fuel - 1, by omega⟩
    have hlen : k + 1 + l.render.length + (renderPowers ps).length < f + 1 := by
      have := congrArg List.length (renderPowers_cons k l ps [])
      simp only [List.append_nil, List.length_append, List.length_cons, pad,
        List.length_replicate] at this
      omega
    have hl := digits_length_le_render l
    rw [renderPowers_cons, skip_space_pad k 94 _ (by omega)]
    have h : (((94 : Nat) : Int) = (('^'.toNat : Nat) : Int)) := rfl
    rw [parseExpLoop, if_pos h]
    simp only
    rw [parse_value_literal l (renderPowers ps ++ rest) f (hwf (k, l) (by simp)) (by omega)
      (stop_digit_powers ps rest hstop)]
    have hfold : List.foldl (fun acc (p : Nat × Literal) =>
          andThen acc fun a => exponential a p.2.value) (some (Except.ok v)) ((k, l) :: ps)
        = List.foldl (fun acc (p : Nat × Literal) =>
          andThen acc fun a => exponential a p.2.value) (exponential v l.value) ps := rfl
    rw [hfold]
    simp only
    cases exponential v l.value with
    | none =>
      rw [foldl_andThen_none (fun a (p : Nat × Literal) => exponential a p.2.value)]
      rfl
    | some outcome =>
      cases outcome with
      | error status =>
        rw [foldl_andThen_error (fun a (p : Nat × Literal) => exponential a p.2.value)]
        rfl
      | ok r =>
        simp only
        rw [skip_space_ungetc]
        exact ih f r (fun p hp => hwf p (by simp [hp])) (by omega)

theorem parse_exp_factor (x : Factor) (rest : List Nat) (fuel : Nat)
    (hwf : x.WellFormed) (hf : x.render.length < fuel)
    (hstop : ¬ (ASCII_CODE_0 ≤ (skip_space rest).1 ∧ (skip_space rest).1 ≤ ASCII_CODE_9))
    (hpow : (skip_space rest).1 ≠ 94) :
    parse_exp fuel (x.render ++ rest)
      = Option.map
          (Except.map (fun r => (r, ungetc (skip_space rest).1 (skip_space rest).2)))
          x.eval := by
  obtain ⟨first, ps⟩ := x
  have hlen : first.render.length + (renderPowers ps).length < fuel := by
    simpa [Factor.render] using hf
  have hl := digits_length_le_render first
  have hr : (Factor.mk first ps).render ++ rest = first.render ++ (renderPowers ps ++ rest) := by
    simp [Factor.render]
  rw [hr]
  unfold parse_exp
  rw [parse_value_literal first (renderPowers ps ++ rest) fuel hwf.1 (by omega)
    (stop_digit_powers ps rest hstop)]
  simp only
  rw [skip_space_ungetc, parseExpLoop_powers rest hstop hpow ps fuel first.value hwf.2
    (by omega)]
  unfold Factor.eval
  simp only
  cases ps.foldl (fun acc p => andThen acc fun a => exponential a p.2.value)
      (some (Except.ok first.value)) with
  | none => rfl
  | some outcome =>
    cases outcome with
    | error status => rfl
    | ok r => rfl

theorem factor_eval_some (x : Factor) (h : x.ExponentsFit) :
    ∃ outcome, x.eval = some outcome :=
  foldl_andThen_some (fun a (p : Nat × Literal) => exponential a p.2.value) x.rest _
    ⟨_, rfl⟩ (fun p hp a => exponential_some a p.2.value (h p hp))

theorem renderFactors_cons (k : Nat) (op : Bool) (x : Factor)
    (ps : List (Nat × Bool × Factor)) (rest : List Nat) :
    renderFactors ((k, op, x) :: ps) ++ rest
      = pad k ++ (if op then 42 else 47) :: (x.render ++ (renderFactors ps ++ rest)) := by
  cases op <;> simp [renderFactors, List.flatMap_cons]

theorem skip_space_factors (ps : List (Nat × Bool × Factor)) (rest : List Nat) :
    (skip_space (renderFactors ps ++ rest)).1 = (skip_space rest).1
      ∨ (skip_space (renderFactors ps ++ rest)).1 = 42
      ∨ (skip_space (renderFactors ps ++ rest)).1 = 47 := by
  cases ps with
  | nil => exact Or.inl rfl
  | cons p ps =>
    obtain ⟨k, op, x⟩ := p
    rw [renderFactors_cons]
    cases op
    · rw [if_neg (by simp), skip_space_pad k 47 _ (by omega)]
      exact Or.inr (Or.inr rfl)
    · rw [if_pos rfl, skip_space_pad k 42 _ (by omega)]
      exact Or.inr (Or.inl rfl)

theorem parseMulDivLoop_factors (rest : List Nat)
    (hstop : ¬ (ASCII_CODE_0 ≤ (skip_space rest).1 ∧ (skip_space rest).1 ≤ ASCII_CODE_9))
    (hpow : (skip_space rest).1 ≠ 94) (hmul : (skip_space rest).1 ≠ 42)
    (hdiv : (skip_space rest).1 ≠ 47) :
    ∀ (ps : List (Nat × Bool × Factor)) (fuel : Nat) (v : Int),
      (∀ p ∈ ps, p.2.2.WellFormed) → (renderFactors ps).length < fuel →
      parseMulDivLoop fuel v (skip_space (renderFactors ps ++ rest)).1
          (skip_space (renderFactors ps ++ rest)).2
        = Option.map (Except.map (fun r => (r, (skip_space rest).1, (skip_space rest).2)))
            (ps.foldl
              (fun acc p => andThen acc fun a => andThen p.2.2.eval fun b =>
                some (if p.2.1 then times a b else divide a b))
              (some (Except.ok v))) := by
  intro ps
  induction ps with
  | nil =>
    intro fuel v _ hf
    obtain ⟨f, rfl⟩ : ∃ f, fuel = f + 1 := ⟨fuel - 1, by omega⟩
    show parseMulDivLoop (f + 1) v (skip_space rest).1 (skip_space rest).2 = _
    have h1 : ¬ ((skip_space rest).1 = (('*'.toNat : Nat) : Int)) := hmul
    have h2 : ¬ ((skip_space rest).1 = (('/'.toNat : Nat) : Int)) := hdiv
    rw [parseMulDivLoop, if_neg h1, if_neg h2]
    rfl
  | cons p ps ih =>
    intro fuel v hwf hf
    obtain ⟨k, op, x⟩ := p
    obtain ⟨f, rfl⟩ : ∃ f, fuel = f + 1 := ⟨fuel - 1, by omega⟩
    have hlen : k + 1 + x.render.length + (renderFactors ps).length < f + 1 := by
      have := congrArg List.length (renderFactors_cons k op x ps [])
      simp only [List.append_nil, List.length_append, List.length_cons, pad,
        List.length_replicate] at this
      omega
    have hstop2 : ¬ (ASCII_CODE_0 ≤ (skip_space (renderFactors ps ++ rest)).1
        ∧ (skip_space (renderFactors ps ++ rest)).1 ≤ ASCII_CODE_9) := by
      unfold ASCII_CODE_0 ASCII_CODE_9 at hstop ⊢
      rcases skip_space_factors ps rest with h | h | h <;> rw [h] <;> omega
    have hpow2 : (skip_space (renderFactors ps ++ rest)).1 ≠ 94 := by
      rcases skip_space_factors ps rest with h | h | h <;> rw [h] <;> omega
    have hx := parse_exp_factor x (renderFactors ps ++ rest) f (hwf (k, op, x) (by simp))
      (by omega) hstop2 hpow2
    have hfold : List.foldl (fun acc (p : Nat × Bool × Factor) =>
          andThen acc fun a => andThen p.2.2.eval fun b =>
            some (if p.2.1 then times a b else divide a b)) (some (Except.ok v))
          ((k, op, x) :: ps)
        = List.foldl (fun acc (p : Nat × Bool × Factor) =>
          andThen acc fun a => andThen p.2.2.eval fun b =>
            some (if p.2.1 then times a b else divide a b))
          (andThen x.eval fun b => some (if op then times v b else divide v b)) ps := rfl
    rw [renderFactors_cons, hfold]
    cases op with
    | true =>
      rw [if_pos rfl, skip_space_pad k 42 _ (by omega)]
      have h : (((42 : Nat) : Int) = (('*'.toNat : Nat) : Int)) := rfl
      rw [parseMulDivLoop, if_pos h, hx]
      cases x.eval with
      | none =>
        simp only [Option.map_none', andThen_none]
        rw [foldl_andThen_none (fun a (p : Nat × Bool × Factor) => andThen p.2.2.eval fun b =>
          some (if p.2.1 then times a b else divide a b))]
        rfl
      | some outcome =>
        cases outcome with
        | error status =>
          simp only [Option.map_some', except_map_error, andThen_error]
          rw [foldl_andThen_error (fun a (p : Nat × Bool × Factor) =>
            andThen p.2.2.eval fun b => some (if p.2.1 then times a b else divide a b))]
          rfl
        | ok b =>
          simp only [Option.map_some', except_map_ok, andThen_ok, if_true]
          cases times v b with
          | error status =>
            simp only
            rw [foldl_andThen_error (fun a (p : Nat × Bool × Factor) =>
              andThen p.2.2.eval fun b => some (if p.2.1 then times a b else divide a b))]
            rfl
          | ok r =>
            simp only
            rw [skip_space_ungetc]
            exact ih f r (fun p hp => hwf p (by simp [hp])) (by omega)
    | false =>
      rw [if_neg (by simp), skip_space_pad k 47 _ (by omega)]
      have h1 : ¬ (((47 : Nat) : Int) = (('*'.toNat : Nat) : Int)) := by decide
      have h2 : (((47 : Nat) : Int) = (('/'.toNat : Nat) : Int)) := rfl
      rw [parseMulDivLoop, if_neg h1, if_pos h2, hx]
      cases x.eval with
      | none =>
        simp only [Option.map_none', andThen_none]
        rw [foldl_andThen_none (fun a (p : Nat × Bool × Factor) => andThen p.2.2.eval fun b =>
          some (if p.2.1 then times a b else divide a b))]
        rfl
      | some outcome =>
        cases outcome with
        | error status =>
          simp only [Option.map_some', except_map_error, andThen_error]
          rw [foldl_andThen_error (fun a (p : Nat × Bool × Factor) =>
            andThen p.2.2.eval fun b => some (if p.2.1 then times a b else divide a b))]
          rfl
        | ok b =>
          simp only [Option.map_some', except_map_ok, andThen_ok, Bool.false_eq_true,
            if_false]
          cases divide v b with
          | error status =>
            simp only
            rw [foldl_andThen_error (fun a (p : Nat × Bool × Factor) =>
              andThen p.2.2.eval fun b => some (if p.2.1 then times a b else divide a b))]
            rfl
          | ok r =>
            simp only
            rw [skip_space_ungetc]
            exact ih f r (fun p hp => hwf p (by simp [hp])) (by omega)

theorem parse_mul_div_term (t : Term) (rest : List Nat) (fuel : Nat)
    (hwf : t.WellFormed) (hf : t.render.length < fuel)
    (hstop : ¬ (ASCII_CODE_0 ≤ (skip_space rest).1 ∧ (skip_space rest).1 ≤ ASCII_CODE_9))
    (hpow : (skip_space rest).1 ≠ 94) (hmul : (skip_space rest).1 ≠ 42)
    (hdiv : (skip_space rest).1 ≠ 47) :
    parse_mul_div fuel (t.render ++ rest)
      = Option.map
          (Except.map (fun r => (r, ungetc (skip_space rest).1 (skip_space rest).2)))
          t.eval := by
  obtain ⟨first, ps⟩ := t
  have hlen : first.render.length + (renderFactors ps).length < fuel := by
    simpa [Term.render] using hf
  have hr : (Term.mk first ps).render ++ rest = first.render ++ (renderFactors ps ++ rest) := by
    simp [Term.render]
  have hstop2 : ¬ (ASCII_CODE_0 ≤ (skip_space (renderFactors ps ++ rest)).1
      ∧ (skip_space (renderFactors ps ++ rest)).1 ≤ ASCII_CODE_9) := by
    unfold ASCII_CODE_0 ASCII_CODE_9 at hstop ⊢
    rcases skip_space_factors ps rest with h | h | h <;> rw [h] <;> omega
  have hpow2 : (skip_space (renderFactors ps ++ rest)).1 ≠ 94 := by
    rcases skip_space_factors ps rest with h | h | h <;> rw [h] <;> omega
  rw [hr]
  unfold parse_mul_div
  rw [parse_exp_factor first (renderFactors ps ++ rest) fuel hwf.1 (by omega) hstop2 hpow2]
  unfold Term.eval
  simp only
  cases first.eval with
  | none =>
    simp only [Option.map_none']
    rw [foldl_andThen_none (fun a (p : Nat × Bool × Factor) => andThen p.2.2.eval fun b =>
      some (if p.2.1 then times a b else divide a b))]
    rfl
  | some outcome =>
    cases outcome with
    | error status =>
      simp only [Option.map_some', except_map_error]
      rw [foldl_andThen_error (fun a (p : Nat × Bool × Factor) =>
        andThen p.2.2.eval fun b => some (if p.2.1 then times a b else divide a b))]
      rfl
    | ok v =>
      simp only [Option.map_some', except_map_ok]
      rw [skip_space_ungetc, parseMulDivLoop_factors rest hstop hpow hmul hdiv ps fuel v hwf.2
        (by omega)]
      cases ps.foldl (fun acc p => andThen acc fun a => andThen p.2.2.eval fun b =>
          some (if p.2.1 then times a b else divide a b)) (some (Except.ok v)) with
      | none => rfl
      | some outcome =>
        cases outcome with
        | error status => rfl
        | ok r => rfl

theorem andThen_some {α β : Type} (x : Option (Except Nat α)) (g : α → Option (Except Nat β))
    (hx : ∃ outcome, x = some outcome) (hg : ∀ a, ∃ outcome, g a = some outcome) :
    ∃ outcome, andThen x g = some outcome := by
  obtain ⟨outcome, rfl⟩ := hx
  cases outcome with
  | error status => exact ⟨_, rfl⟩
  | ok a => exact hg a

theorem term_eval_some (t : Term) (h : t.ExponentsFit) :
    ∃ outcome, t.eval = some outcome :=
  foldl_andThen_some
    (fun a (p : Nat × Bool × Factor) => andThen p.2.2.eval fun b =>
      some (if p.2.1 then times a b else divide a b))
    t.rest _ (factor_eval_some t.first h.1)
    (fun p hp _ => andThen_some _ _ (factor_eval_some p.2.2 (h.2 p hp)) (fun _ => ⟨_, rfl⟩))

theorem renderTerms_cons (k : Nat) (op : Bool) (t : Term)
    (ps : List (Nat × Bool × Term)) (rest : List Nat) :
    renderTerms ((k, op, t) :: ps) ++ rest
      = pad k ++ (if op then 43 else 45) :: (t.render ++ (renderTerms ps ++ rest)) := by
  cases op <;> simp [renderTerms, List.flatMap_cons]

theorem skip_space_terms (ps : List (Nat × Bool × Term)) (rest : List Nat) :
    (skip_space (renderTerms ps ++ rest)).1 = (skip_space rest).1
      ∨ (skip_space (renderTerms ps ++ rest)).1 = 43
      ∨ (skip_space (renderTerms ps ++ rest)).1 = 45 := by
  cases ps with
  | nil => exact Or.inl rfl
  | cons p ps =>
    obtain ⟨k, op, x⟩ := p
    rw [renderTerms_cons]
    cases op
    · rw [if_neg (by simp), skip_space_pad k 45 _ (by omega)]
      exact Or.inr (Or.inr rfl)
    · rw [if_pos rfl, skip_space_pad k 43 _ (by omega)]
      exact Or.inr (Or.inl rfl)

theorem mainLoop_terms (rest : List Nat)
    (hstop : ¬ (ASCII_CODE_0 ≤ (skip_space rest).1 ∧ (skip_space rest).1 ≤ ASCII_CODE_9))
    (hpow : (skip_space rest).1 ≠ 94) (hmul : (skip_space rest).1 ≠ 42)
    (hdiv : (skip_space rest).1 ≠ 47) (hplus : (skip_space rest).1 ≠ 43)
    (hminus : (skip_space rest).1 ≠ 45) :
    ∀ (ps : List (Nat × Bool × Term)) (fuel : Nat) (v : Int),
      (∀ p ∈ ps, p.2.2.WellFormed) → (renderTerms ps).length < fuel →
      mainLoop fuel v (skip_space (renderTerms ps ++ rest)).1
          (skip_space (renderTerms ps ++ rest)).2
        = Option.map (Except.map (fun r => (r, (skip_space rest).1)))
            (ps.foldl
              (fun acc p => andThen acc fun a => andThen p.2.2.eval fun b =>
                some (if p.2.1 then plus a b else minus a b))
              (some (Except.ok v))) := by
  intro ps
  induction ps with
  | nil =>
    intro fuel v _ hf
    obtain ⟨f, rfl⟩ : ∃ f, fuel = f + 1 := ⟨fuel - 1, by omega⟩
    show mainLoop (f + 1) v (skip_space rest).1 (skip_space rest).2 = _
    have h1 : ¬ ((skip_space rest).1 = (('+'.toNat : Nat) : Int)) := hplus
    have h2 : ¬ ((skip_space rest).1 = (('-'.toNat : Nat) : Int)) := hminus
    rw [mainLoop, if_neg h1, if_neg h2]
    rfl
  | cons p ps ih =>
    intro fuel v hwf hf
    obtain ⟨k, op, x⟩ := p
    obtain ⟨f, rfl⟩ : ∃ f, fuel = f + 1 := ⟨fuel - 1, by omega⟩
    have hlen : k + 1 + x.render.length + (renderTerms ps).length < f + 1 := by
      have := congrArg List.length (renderTerms_cons k op x ps [])
      simp only [List.append_nil, List.length_append, List.length_cons, pad,
        List.length_replicate] at this
      omega
    have hstop2 : ¬ (ASCII_CODE_0 ≤ (skip_space (renderTerms ps ++ rest)).1
        ∧ (skip_space (renderTerms ps ++ rest)).1 ≤ ASCII_CODE_9) := by
      unfold ASCII_CODE_0 ASCII_CODE_9 at hstop ⊢
      rcases skip_space_terms ps rest with h | h | h <;> rw [h] <;> omega
    have hpow2 : (skip_space (renderTerms ps ++ rest)).1 ≠ 94 := by
      rcases skip_space_terms ps rest with h | h | h <;> rw [h] <;> omega
    have hmul2 : (skip_space (renderTerms ps ++ rest)).1 ≠ 42 := by
      rcases skip_space_terms ps rest with h | h | h <;> rw [h] <;> omega
    have hdiv2 : (skip_space (renderTerms ps ++ rest)).1 ≠ 47 := by
      rcases skip_space_terms ps rest with h | h | h <;> rw [h] <;> omega
    have hx := parse_mul_div_term x (renderTerms ps ++ rest) f (hwf (k, op, x) (by simp))
      (by omega) hstop2 hpow2 hmul2 hdiv2
    have hfold : List.foldl (fun acc (p : Nat × Bool × Term) =>
          andThen acc fun a => andThen p.2.2.eval fun b =>
            some (if p.2.1 then plus a b else minus a b)) (some (Except.ok v))
          ((k, op, x) :: ps)
        = List.foldl (fun acc (p : Nat × Bool × Term) =>
          andThen acc fun a => andThen p.2.2.eval fun b =>
            some (if p.2.1 then plus a b else minus a b))
          (andThen x.eval fun b => some (if op then plus v b else minus v b)) ps := rfl
    rw [renderTerms_cons, hfold]
    cases op with
    | true =>
      rw [if_pos rfl, skip_space_pad k 43 _ (by omega)]
      have h : (((43 : Nat) : Int) = (('+'.toNat : Nat) : Int)) := rfl
      rw [mainLoop, if_pos h, hx]
      cases x.eval with
      | none =>
        simp only [Option.map_none', andThen_none]
        rw [foldl_andThen_none (fun a (p : Nat × Bool × Term) => andThen p.2.2.eval fun b =>
          some (if p.2.1 then plus a b else minus a b))]
        rfl
      | some outcome =>
        cases outcome with
        | error status =>
          simp only [Option.map_some', except_map_error, andThen_error]
          rw [foldl_andThen_error (fun a (p : Nat × Bool × Term) =>
            andThen p.2.2.eval fun b => some (if p.2.1 then plus a b else minus a b))]
          rfl
        | ok b =>
          simp only [Option.map_some', except_map_ok, andThen_ok, if_true]
          cases plus v b with
          | error status =>
            simp only
            rw [foldl_andThen_error (fun a (p : Nat × Bool × Term) =>
              andThen p.2.2.eval fun b => some (if p.2.1 then plus a b else minus a b))]
            rfl
          | ok r =>
            simp only
            rw [skip_space_ungetc]
            exact ih f r (fun p hp => hwf p (by simp [hp])) (by omega)
    | false =>
      rw [if_neg (by simp), skip_space_pad k 45 _ (by omega)]
      have h1 : ¬ (((45 : Nat) : Int) = (('+'.toNat : Nat) : Int)) := by decide
      have h2 : (((45 : Nat) : Int) = (('-'.toNat : Nat) : Int)) := rfl
      rw [mainLoop, if_neg h1, if_pos h2, hx]
      cases x.eval with
      | none =>
        simp only [Option.map_none', andThen_none]
        rw [foldl_andThen_none (fun a (p : Nat × Bool × Term) => andThen p.2.2.eval fun b =>
          some (if p.2.1 then plus a b else minus a b))]
        rfl
      | some outcome =>
        cases outcome with
        | error status =>
          simp only [Option.map_some', except_map_error, andThen_error]
          rw [foldl_andThen_error (fun a (p : Nat × Bool × Term) =>
            andThen p.2.2.eval fun b => some (if p.2.1 then plus a b else minus a b))]
          rfl
        | ok b =>
          simp only [Option.map_some', except_map_ok, andThen_ok, Bool.false_eq_true,
            if_false]
          cases minus v b with
          | error status =>
            simp only
            rw [foldl_andThen_error (fun a (p : Nat × Bool × Term) =>
              andThen p.2.2.eval fun b => some (if p.2.1 then plus a b else minus a b))]
            rfl
          | ok r =>
            simp only
            rw [skip_space_ungetc]
            exact ih f r (fun p hp => hwf p (by simp [hp])) (by omega)

theorem expr_eval_some (e : Expr) (h : e.ExponentsFit) :
    ∃ outcome, e.eval = some outcome :=
  foldl_andThen_some
    (fun a (p : Nat × Bool × Term) => andThen p.2.2.eval fun b =>
      some (if p.2.1 then plus a b else minus a b))
    e.rest _ (term_eval_some e.first h.1)
    (fun p hp _ => andThen_some _ _ (term_eval_some p.2.2 (h.2 p hp)) (fun _ => ⟨_, rfl⟩))

theorem main_expr (e : Expr) (k : Nat) (tail : List Nat) (fuel : Nat)
    (hwf : e.WellFormed) (hf : e.render.length < fuel) :
    main fuel (e.render ++ (pad k ++ '\n'.toNat :: tail)) = e.eval := by
  obtain ⟨first, ps⟩ := e
  have hlen : first.render.length + (renderTerms ps).length < fuel := by
    simpa [Expr.render] using hf
  have hnl : skip_space (pad k ++ '\n'.toNat :: tail) = (((10 : Nat) : Int), tail) :=
    skip_space_pad k 10 tail (by omega)
  have hr : (Expr.mk first ps).render ++ (pad k ++ '\n'.toNat :: tail)
      = first.render ++ (renderTerms ps ++ (pad k ++ '\n'.toNat :: tail)) := by
    simp [Expr.render]
  have hstop : ¬ (ASCII_CODE_0 ≤ (skip_space (pad k ++ '\n'.toNat :: tail)).1
      ∧ (skip_space (pad k ++ '\n'.toNat :: tail)).1 ≤ ASCII_CODE_9) := by
    rw [hnl]; unfold ASCII_CODE_0; simp
  have hne : ∀ c : Int, c ≠ 10 → (skip_space (pad k ++ '\n'.toNat :: tail)).1 ≠ c := by
    intro c hc; rw [hnl]; simpa using hc.symm
  have hstop2 : ¬ (ASCII_CODE_0 ≤ (skip_space (renderTerms ps ++ (pad k ++ '\n'.toNat :: tail))).1
      ∧ (skip_space (renderTerms ps ++ (pad k ++ '\n'.toNat :: tail))).1 ≤ ASCII_CODE_9) := by
    unfold ASCII_CODE_0 ASCII_CODE_9 at hstop ⊢
    rcases skip_space_terms ps (pad k ++ '\n'.toNat :: tail) with h | h | h <;> rw [h] <;> omega
  have hne2 : ∀ c : Int, c ≠ 10 → c ≠ 43 → c ≠ 45 →
      (skip_space (renderTerms ps ++ (pad k ++ '\n'.toNat :: tail))).1 ≠ c := by
    intro c h10 h43 h45
    rcases skip_space_terms ps (pad k ++ '\n'.toNat :: tail) with h | h | h
    · rw [h]; exact hne c h10
    · rw [h]; exact h43.symm
    · rw [h]; exact h45.symm
  rw [hr]
  unfold main
  rw [parse_mul_div_term first _ fuel hwf.1 (by omega) hstop2
    (hne2 94 (by decide) (by decide) (by decide)) (hne2 42 (by decide) (by decide) (by decide))
    (hne2 47 (by decide) (by decide) (by decide))]
  unfold Expr.eval
  simp only
  cases first.eval with
  | none =>
    simp only [Option.map_none']
    rw [foldl_andThen_none (fun a (p : Nat × Bool × Term) => andThen p.2.2.eval fun b =>
      some (if p.2.1 then plus a b else minus a b))]
  | some outcome =>
    cases outcome with
    | error status =>
      simp only [Option.map_some', except_map_error]
      rw [foldl_andThen_error (fun a (p : Nat × Bool × Term) =>
        andThen p.2.2.eval fun b => some (if p.2.1 then plus a b else minus a b))]
    | ok v =>
      simp only [Option.map_some', except_map_ok]
      rw [skip_space_ungetc, mainLoop_terms _ hstop (hne 94 (by decide)) (hne 42 (by decide))
        (hne 47 (by decide)) (hne 43 (by decide)) (hne 45 (by decide)) ps fuel v hwf.2
        (by omega), hnl]
      cases ps.foldl (fun acc p => andThen acc fun a => andThen p.2.2.eval fun b =>
          some (if p.2.1 then plus a b else minus a b)) (some (Except.ok v)) with
      | none => rfl
      | some outcome =>
        cases outcome with
        | error status => rfl
        | ok r => rfl

theorem eval_one_power (b : Literal) :
    (Expr.mk ⟨⟨⟨none, [(0, 1)]⟩, [(1, b)]⟩, []⟩ []).eval = exponential 1 b.value := by
  have hv1 : (Literal.mk none [(0, 1)]).value = 1 := by simp [Literal.value, digitsValue]
  simp only [Expr.eval, Term.eval, Factor.eval, List.foldl_cons, List.foldl_nil, andThen_ok]
  rw [hv1]

/-- The line `1 ^ 2147483653` is well formed, and on it `main` prints nothing whatever the
bound on the loops: `exponential 1 2147483653` does not return, the counter of its loop
overflows. -/
theorem main_one_power_overflow (fuel : Nat) (hf : 14 < fuel) :
    main fuel (['1', ' ', '^', ' ', '2', '1', '4', '7', '4', '8', '3', '6', '5', '3',
      '\n'].map Char.toNat) = none := by
  have hwf : (Expr.mk ⟨⟨⟨none, [(0, 1)]⟩,
      [(1, ⟨none, [(1, 2), (0, 1), (0, 4), (0, 7), (0, 4), (0, 8), (0, 3), (0, 6), (0, 5),
        (0, 3)]⟩)]⟩, []⟩ []).WellFormed :=
    ⟨⟨⟨⟨by decide, by decide, by decide⟩, fun p hp => by
      have e : p = (1, ⟨none, [(1, 2), (0, 1), (0, 4), (0, 7), (0, 4), (0, 8), (0, 3), (0, 6),
        (0, 5), (0, 3)]⟩) := by simpa using hp
      rw [e]
      exact ⟨by decide, by decide, by decide⟩⟩, by simp⟩, by simp⟩
  have h := main_expr _ 0 [] fuel hwf (by
    have : (Expr.mk ⟨⟨⟨none, [(0, 1)]⟩,
      [(1, ⟨none, [(1, 2), (0, 1), (0, 4), (0, 7), (0, 4), (0, 8), (0, 3), (0, 6), (0, 5),
        (0, 3)]⟩)]⟩, []⟩ []).render.length = 14 := rfl
    omega)
  have hv : (Literal.mk none [(1, 2), (0, 1), (0, 4), (0, 7), (0, 4), (0, 8), (0, 3), (0, 6),
      (0, 5), (0, 3)]).value = 2147483653 := by simp [Literal.value, digitsValue]
  have hin : (['1', ' ', '^', ' ', '2', '1', '4', '7', '4', '8', '3', '6', '5', '3',
      '\n'].map Char.toNat)
      = (Expr.mk ⟨⟨⟨none, [(0, 1)]⟩,
          [(1, ⟨none, [(1, 2), (0, 1), (0, 4), (0, 7), (0, 4), (0, 8), (0, 3), (0, 6), (0, 5),
            (0, 3)]⟩)]⟩, []⟩ []).render ++ (pad 0 ++ ['\n'.toNat]) := rfl
  rw [hin, h, eval_one_power, hv]
  exact exponential_one_overflow 2147483653 (by decide)

/-- C29: for every well-formed input line (an expression `e`, any number of spaces, a
newline) and every bound on the loops larger than the length of the expression, the outcome
of `main` is `e.eval`: `plus` and `minus` folded from left to right over the terms, each
term being `times` and `divide` folded from left to right over its factors, each factor
being `exponential` folded from left to right over its parsed values. When every exponent
is at most `INT_MAX`, that outcome is the value printed or the exit status of the first of
these operations that exits; with a larger exponent a call of `exponential` may not return,
and then `e.eval` is `none` and `main` prints nothing. -/
theorem main_evaluates (e : Expr) (k : Nat) (tail : List Nat) (fuel : Nat)
    (hwf : e.WellFormed) (hf : e.render.length < fuel) :
    main fuel (e.render ++ (pad k ++ '\n'.toNat :: tail)) = e.eval ∧
    (e.ExponentsFit →
      ∃ outcome, main fuel (e.render ++ (pad k ++ '\n'.toNat :: tail)) = some outcome) := by
  have hmain := main_expr e k tail fuel hwf hf
  refine ⟨hmain, ?_⟩
  intro hfit
  rw [hmain]
  exact expr_eval_some e hfit

theorem main_evaluates_witness :
    (Expr.mk ⟨⟨⟨none, [(0, 1)]⟩, []⟩, []⟩
      [(1, true, ⟨⟨⟨none, [(1, 2)]⟩, []⟩, [(1, true, ⟨⟨none, [(1, 3)]⟩, []⟩)]⟩)]).WellFormed ∧
    (['1', ' ', '+', ' ', '2', ' ', '*', ' ', '3'].map Char.toNat).length < 10 ∧
    main 10 (['1', ' ', '+', ' ', '2', ' ', '*', ' ', '3', '\n'].map Char.toNat)
      = some (Except.ok 7) :=
  ⟨⟨⟨⟨⟨by decide, by decide, by decide⟩, by simp⟩, by simp⟩,
      by simp [Term.WellFormed, Factor.WellFormed, Literal.WellFormed, digitsValue, LONG_MAX]⟩,
    by decide,
    (main_evaluates
      (Expr.mk ⟨⟨⟨none, [(0, 1)]⟩, []⟩, []⟩
        [(1, true, ⟨⟨⟨none, [(1, 2)]⟩, []⟩, [(1, true, ⟨⟨none, [(1, 3)]⟩, []⟩)]⟩)])
      0 [] 10
      ⟨⟨⟨⟨by decide, by decide, by decide⟩, by simp⟩, by simp⟩,
        by simp [Term.WellFormed, Factor.WellFormed, Literal.WellFormed, digitsValue,
          LONG_MAX]⟩
      (by decide)).1⟩

end P2

namespace P3

/-! ## Theorems on `syntax.c` -/

theorem isLetter_iff (c : Nat) :
    isLetter c = true ↔ ((65 ≤ c ∧ c ≤ 90) ∨ (97 ≤ c ∧ c ≤ 122)) := by
  have hA : 'A'.toNat = 65 := rfl
  have hZ : 'Z'.toNat = 90 := rfl
  have ha : 'a'.toNat = 97 := rfl
  have hz : 'z'.toNat = 122 := rfl
  simp [isLetter, hA, hZ, ha, hz]

theorem isDigit_iff (c : Nat) : isDigit c = true ↔ (48 ≤ c ∧ c ≤ 57) := by
  have h0 : '0'.toNat = 48 := rfl
  have h9 : '9'.toNat = 57 := rfl
  simp [isDigit, h0, h9]

theorem isUnderscore_iff (c : Nat) : isUnderscore c = true ↔ c = 95 := by
  have h : '_'.toNat = 95 := rfl
  simp [isUnderscore, h]

theorem validIdentifierLoop_iff : ∀ (rest : List Nat), (∀ c ∈ rest, c ≠ 0) →
    (validIdentifierLoop rest = true ↔
      ∀ d ∈ rest, ((65 ≤ d ∧ d ≤ 90) ∨ (97 ≤ d ∧ d ≤ 122)) ∨ (48 ≤ d ∧ d ≤ 57) ∨ d = 95) := by
  intro rest
  induction rest with
  | nil => intro _; simp [validIdentifierLoop]
  | cons ch rest ih =>
    intro h
    have h0 : ch ≠ 0 := h ch (by simp)
    have ih' := ih (fun c hc => h c (by simp [hc]))
    rw [validIdentifierLoop, if_neg h0]
    by_cases hc : ((65 ≤ ch ∧ ch ≤ 90) ∨ (97 ≤ ch ∧ ch ≤ 122)) ∨ (48 ≤ ch ∧ ch ≤ 57) ∨ ch = 95
    · have hne : ¬ ((!isLetter ch && !isDigit ch && !isUnderscore ch) = true) := by
        rcases hc with hl | hd | hu
        · simp [(isLetter_iff ch).2 hl]
        · simp [(isDigit_iff ch).2 hd]
        · simp [(isUnderscore_iff ch).2 hu]
      rw [if_neg hne, ih']
      constructor
      · intro hall d hd
        rcases List.mem_cons.1 hd with rfl | hd'
        · exact hc
        · exact hall d hd'
      · intro hall d hd
        exact hall d (List.mem_cons_of_mem _ hd)
    · have hl : isLetter ch = false := by
        rw [Bool.eq_false_iff]; intro hh
        exact hc (Or.inl ((isLetter_iff ch).1 hh))
      have hd : isDigit ch = false := by
        rw [Bool.eq_false_iff]; intro hh
        exact hc (Or.inr (Or.inl ((isDigit_iff ch).1 hh)))
      have hu : isUnderscore ch = false := by
        rw [Bool.eq_false_iff]; intro hh
        exact hc (Or.inr (Or.inr ((isUnderscore_iff ch).1 hh)))
      simp only [hl, hd, hu, Bool.not_false, Bool.and_self, if_true]
      constructor
      · intro hf; cases hf
      · intro hall
        exact absurd (hall ch (by simp)) hc

/-- C25: for every string `s`, `validIdentifier s` is true if and only if `s` is non-empty,
its first character is a letter (`A`-`Z`, `a`-`z`: codes 65-90, 97-122) or an underscore
(code 95), and every later character is a letter, a digit (codes 48-57) or an underscore. -/
theorem validIdentifier_iff (s : List Nat) (hs : ∀ c ∈ s, c ≠ 0) :
    validIdentifier s = true ↔
      ∃ first rest, s = first :: rest ∧
        (((65 ≤ first ∧ first ≤ 90) ∨ (97 ≤ first ∧ first ≤ 122)) ∨ first = 95) ∧
        ∀ d ∈ rest,
          ((65 ≤ d ∧ d ≤ 90) ∨ (97 ≤ d ∧ d ≤ 122)) ∨ (48 ≤ d ∧ d ≤ 57) ∨ d = 95 := by
  cases s with
  | nil =>
    constructor
    · intro h
      exact absurd h (by decide)
    · rintro ⟨first, rest, h, _⟩
      cases h
  | cons ch rest =>
    have hrest := validIdentifierLoop_iff rest (fun c hc => hs c (by simp [hc]))
    unfold validIdentifier
    simp only [List.getD_cons_zero, List.drop_succ_cons, List.drop_zero]
    by_cases hc : ((65 ≤ ch ∧ ch ≤ 90) ∨ (97 ≤ ch ∧ ch ≤ 122)) ∨ ch = 95
    · have hne : ¬ ((!isLetter ch && !isUnderscore ch) = true) := by
        rcases hc with hl | hu
        · simp [(isLetter_iff ch).2 hl]
        · simp [(isUnderscore_iff ch).2 hu]
      rw [if_neg hne, hrest]
      constructor
      · intro hall
        exact ⟨ch, rest, rfl, hc, hall⟩
      · rintro ⟨first, rest', h, _, hall⟩
        cases h
        exact hall
    · have hl : isLetter ch = false := by
        rw [Bool.eq_false_iff]; intro hh
        exact hc (Or.inl ((isLetter_iff ch).1 hh))
      have hu : isUnderscore ch = false := by
        rw [Bool.eq_false_iff]; intro hh
        exact hc (Or.inr ((isUnderscore_iff ch).1 hh))
      simp only [hl, hu, Bool.not_false, Bool.and_self, if_true]
      constructor
      · intro hf; cases hf
      · rintro ⟨first, rest', h, hfirst, _⟩
        cases h
        exact absurd hfirst hc

theorem validIdentifier_iff_witness :
    (∀ c ∈ (['_', 'a', '1'].map Char.toNat), c ≠ 0) ∧
    (validIdentifier (['_', 'a', '1'].map Char.toNat) = true ↔
      ∃ first rest, ['_', 'a', '1'].map Char.toNat = first :: rest ∧
        (((65 ≤ first ∧ first ≤ 90) ∨ (97 ≤ first ∧ first ≤ 122)) ∨ first = 95) ∧
        ∀ d ∈ rest,
          ((65 ≤ d ∧ d ≤ 90) ∨ (97 ≤ d ∧ d ≤ 122)) ∨ (48 ≤ d ∧ d ≤ 57) ∨ d = 95) :=
  ⟨by decide, validIdentifier_iff _ (by decide)⟩

theorem markLoop_fst_color (word line : List Nat) :
    ∀ (fuel i : Nat) (found_identifier : Bool) (color color2 : List Int),
      (markLoop word line fuel i found_identifier color).1
        = (markLoop word line fuel i found_identifier color2).1 := by
  intro fuel
  induction fuel with
  | zero => intro i f c c2; rfl
  | succ fuel ih =>
    intro i f c c2
    simp only [markLoop]
    split
    · split
      · exact ih _ _ _ _
      · exact ih _ _ _ _
    · rfl

/-- C26: with the word `x` and the line `x1`, `markIdentifier` returns `true` for every
content of the `color` array, although the target identifier does not occur in the line: the
only place where the line contains `x` is followed by the digit `1`, an identifier
character. -/
theorem markIdentifier_digit_after :
    validIdentifier (['x'].map Char.toNat) = true ∧
    (['x', '1', '\n'].map Char.toNat).length ≤ LINE_LIMIT ∧
    (∀ i, occursAt (['x'].map Char.toNat) (['x', '1', '\n'].map Char.toNat) i = false) ∧
    (∀ color, ∃ out,
      markIdentifier (['x'].map Char.toNat) (['x', '1', '\n'].map Char.toNat) color
        = Except.ok (true, out)) := by
  refine ⟨by decide, by decide, ?_, ?_⟩
  · intro i
    by_cases h : i < 3
    · interval_cases i <;> rfl
    · have h3 : ¬ (i + 1 ≤ 3) := by omega
      simp [occursAt, h3]
  · intro color
    have h1 : (markLoop (['x'].map Char.toNat) (['x', '1', '\n'].map Char.toNat) 4 0 false
        color).1 = true := by
      rw [markLoop_fst_color _ _ _ _ _ color []]
      rfl
    refine ⟨(markLoop (['x'].map Char.toNat) (['x', '1', '\n'].map Char.toNat) 4 0 false
        color).2, ?_⟩
    rw [← h1]
    rfl

/-- C30: with the word `abc`, the line `x abc` followed by a newline leaves `IDENT_COLOR` at
index 4 of the `color` array, and the next line `abc;` followed by a newline does not write
that index: after `markIdentifier` on the second line, index 4 (the newline, outside every
occurrence) still holds `IDENT_COLOR`. -/
theorem markIdentifier_stale_color :
    validIdentifier (['a', 'b', 'c'].map Char.toNat) = true ∧
    (['a', 'b', 'c', ';', '\n'].map Char.toNat).length ≤ LINE_LIMIT ∧
    markIdentifier (['a', 'b', 'c'].map Char.toNat)
        (['x', ' ', 'a', 'b', 'c', '\n'].map Char.toNat) (List.replicate 101 DEFAULT_COLOR)
      = Except.ok (true, [0, 0, 1, 1, 1, 0] ++ List.replicate 95 DEFAULT_COLOR) ∧
    markIdentifier (['a', 'b', 'c'].map Char.toNat)
        (['a', 'b', 'c', ';', '\n'].map Char.toNat)
        ([0, 0, 1, 1, 1, 0] ++ List.replicate 95 DEFAULT_COLOR)
      = Except.ok (true, [1, 1, 1, 0, 1, 0] ++ List.replicate 95 DEFAULT_COLOR) ∧
    4 < (['a', 'b', 'c', ';', '\n'].map Char.toNat).length ∧
    insideOccurrence (['a', 'b', 'c'].map Char.toNat)
        (['a', 'b', 'c', ';', '\n'].map Char.toNat) 4 = false ∧
    ([1, 1, 1, 0, 1, 0] ++ List.replicate 95 DEFAULT_COLOR).getD 4 DEFAULT_COLOR
      = IDENT_COLOR ∧
    (∀ color : List Int, ∃ out,
      markIdentifier (['a', 'b', 'c'].map Char.toNat)
          (['a', 'b', 'c', ';', '\n'].map Char.toNat) color = Except.ok (true, out) ∧
      out.getD 4 DEFAULT_COLOR = color.getD 4 DEFAULT_COLOR) := by
  refine ⟨by decide, by decide, by rfl, by rfl, by decide, by rfl, by rfl, ?_⟩
  intro color
  refine ⟨(((color.set 0 1).set 1 1).set 2 1).set 3 0, ?_, ?_⟩
  · have hv : validIdentifier [97, 98, 99] = true := by decide
    have ha : validIdentifier [59] = false := by decide
    simp [markIdentifier, hv, LINE_LIMIT, markLoop, ha, writeColor, List.range_succ,
      IDENT_COLOR, DEFAULT_COLOR]
  · simp [List.getD_eq_getElem?_getD, List.getElem?_set]

end P3

namespace P6

/-! ## Theorems on `queue.c` -/

theorem chain_congr (next next2 : Nat → Option Nat) :
    ∀ (l : List Nat) (p : Option Nat), (∀ m ∈ l, next2 m = next m) →
      chain next p l → chain next2 p l := by
  intro l
  induction l with
  | nil => intro p _ h; exact h
  | cons x l ih =>
    intro p hagree h
    refine ⟨h.1, ?_⟩
    rw [hagree x (by simp)]
    exact ih _ (fun m hm => hagree m (by simp [hm])) h.2

theorem chain_snoc (next next2 : Nat → Option Nat) (n : Nat) :
    ∀ (l : List Nat) (t : Nat) (p : Option Nat), chain next p (l ++ [t]) →
      (l ++ [t]).Nodup → n ∉ l ++ [t] → next2 n = none → next2 t = some n →
      (∀ m, m ≠ t → next2 m = next m) → chain next2 p (l ++ [t] ++ [n]) := by
  intro l
  induction l with
  | nil =>
    intro t p h _ _ hn ht _
    exact ⟨h.1, by rw [ht]; exact ⟨rfl, hn⟩⟩
  | cons x l ih =>
    intro t p h hnd hnot hn ht hother
    have hx : x ≠ t := by
      intro hxt
      have := (List.nodup_cons.1 hnd).1
      exact this (by simp [hxt])
    refine ⟨h.1, ?_⟩
    rw [hother x hx]
    exact ih t _ h.2 (List.nodup_cons.1 hnd).2
      (fun hmem => hnot (List.mem_cons_of_mem _ hmem)) hn ht hother

theorem isQueue_nil (s : QState) (h : IsQueue s []) : s.head = none ∧ s.tail = none :=
  ⟨h.1, h.2.2⟩

theorem enqueue_isQueue (s : QState) (l : List Nat) (n : Nat) (h : IsQueue s l)
    (hn : n ∉ l) (hnext : s.next n = none) :
    IsQueue (enqueue s n) (l ++ [n]) ∧ ∀ m, m ∉ l → (enqueue s n).next m = s.next m := by
  rcases List.eq_nil_or_concat l with hl | ⟨l0, t, hl⟩
  · subst hl
    have hh := (isQueue_nil s h).1
    have e : enqueue s n = { s with head := some n, tail := some n } := by
      simp [enqueue, hh]
    rw [e]
    exact ⟨⟨⟨rfl, hnext⟩, by simp, by simp⟩, fun m _ => rfl⟩
  · subst hl
    rw [List.concat_eq_append] at h hn ⊢
    obtain ⟨hc, hnd, ht⟩ := h
    have ht2 : s.tail = some t := by simpa using ht
    have hhead : ∃ x, s.head = some x := by
      cases l0 with
      | nil => exact ⟨t, hc.1⟩
      | cons x l1 => exact ⟨x, hc.1⟩
    obtain ⟨x, hx⟩ := hhead
    have e : enqueue s n
        = { next := fun m => if m = t then some n else s.next m, head := s.head,
            tail := some n } := by
      simp [enqueue, hx, storeAtTail, ht2]
    rw [e]
    have hnt : n ≠ t := by
      intro hh
      exact hn (by simp [hh])
    refine ⟨⟨?_, ?_, ?_⟩, ?_⟩
    · exact chain_snoc s.next _ n l0 t s.head hc hnd hn (by simp [hnt, hnext]) (by simp)
        (fun m hm => by simp [hm])
    · rw [List.nodup_append]
      refine ⟨hnd, by simp, ?_⟩
      intro a ha hb
      have : a = n := by simpa using hb
      subst this
      exact hn ha
    · simp
    · intro m hm
      have : m ≠ t := by
        intro hh
        exact hm (by simp [hh])
      simp [this]

theorem foldl_enqueue_isQueue : ∀ (ns : List Nat) (s : QState) (l : List Nat),
    IsQueue s l → (l ++ ns).Nodup → (∀ n ∈ ns, s.next n = none) →
    IsQueue (ns.foldl enqueue s) (l ++ ns) := by
  intro ns
  induction ns with
  | nil => intro s l h _ _; simpa using h
  | cons n ns ih =>
    intro s l h hnd hnull
    have hnl : n ∉ l := by
      intro hmem
      have := (List.nodup_append.1 hnd).2.2
      exact this hmem (by simp)
    obtain ⟨hq, hkeep⟩ := enqueue_isQueue s l n h hnl (hnull n (by simp))
    have hnd2 : (l ++ [n] ++ ns).Nodup := by simpa using hnd
    have := ih (enqueue s n) (l ++ [n]) hq hnd2 (by
      intro m hm
      have hml : m ∉ l := by
        intro hmem
        have := (List.nodup_append.1 hnd).2.2
        exact this hmem (by simp [hm])
      rw [hkeep m hml]
      exact hnull m (by simp [hm]))
    simpa using this

theorem dequeue_isQueue (s : QState) (x : Nat) (l : List Nat) (h : IsQueue s (x :: l)) :
    (dequeue s).1 = some x ∧ IsQueue (dequeue s).2 l := by
  obtain ⟨hc, hnd, ht⟩ := h
  have hh : s.head = some x := hc.1
  cases l with
  | nil =>
    have hx : s.next x = none := hc.2
    have e : dequeue s = (some x, { s with head := none, tail := none }) := by
      simp [dequeue, hh, hx]
    rw [e]
    exact ⟨rfl, rfl, by simp, rfl⟩
  | cons y l =>
    have hx : s.next x = some y := hc.2.1
    have e : dequeue s = (some x, { s with head := some y }) := by
      simp [dequeue, hh, hx]
    rw [e]
    refine ⟨rfl, ⟨rfl, hc.2.2⟩, (List.nodup_cons.1 hnd).2, ?_⟩
    simpa [List.getLast?_cons_cons] using ht

theorem dequeueMany_isQueue : ∀ (l : List Nat) (s : QState), IsQueue s l →
    (dequeueMany l.length s).1 = l.map some ∧ IsQueue (dequeueMany l.length s).2 [] := by
  intro l
  induction l with
  | nil => intro s h; exact ⟨rfl, h⟩
  | cons x l ih =>
    intro s h
    obtain ⟨h1, h2⟩ := dequeue_isQueue s x l h
    obtain ⟨h3, h4⟩ := ih (dequeue s).2 h2
    simp only [List.length_cons, dequeueMany, List.map_cons]
    exact ⟨by rw [h1, h3], h4⟩

theorem dequeue_empty (s : QState) (h : s.head = none) : dequeue s = (none, s) := by
  simp [dequeue, h]

/-- C27: the queue is first-in first-out. Starting from `makeQueue`, after enqueueing the
distinct nodes `ns` (each with a null `next` pointer) in order, `ns.length` successive calls
of `dequeue` return the nodes of `ns` in the same order; a further `dequeue` returns `NULL`
and leaves the queue empty (`head` null, `tail` pointing to `head`). -/
theorem queue_fifo (next : Nat → Option Nat) (ns : List Nat) (hnd : ns.Nodup)
    (hnull : ∀ n ∈ ns, next n = none) :
    (dequeueMany ns.length (ns.foldl enqueue (makeQueue next))).1 = ns.map some ∧
    (dequeue (dequeueMany ns.length (ns.foldl enqueue (makeQueue next))).2).1 = none ∧
    (dequeue (dequeueMany ns.length (ns.foldl enqueue (makeQueue next))).2).2.head = none ∧
    (dequeue (dequeueMany ns.length (ns.foldl enqueue (makeQueue next))).2).2.tail
      = none := by
  have h0 : IsQueue (makeQueue next) [] := ⟨rfl, by simp, rfl⟩
  have h1 := foldl_enqueue_isQueue ns (makeQueue next) [] h0 (by simpa using hnd) hnull
  rw [List.nil_append] at h1
  obtain ⟨h2, h3⟩ := dequeueMany_isQueue ns _ h1
  obtain ⟨h4, h5⟩ := isQueue_nil _ h3
  rw [dequeue_empty _ h4]
  exact ⟨h2, rfl, h4, h5⟩

theorem queue_fifo_witness :
    [10, 20, 30].Nodup ∧ (∀ n ∈ [10, 20, 30], (fun _ : Nat => (none : Option Nat)) n = none) ∧
    (dequeueMany 3 ([10, 20, 30].foldl enqueue (makeQueue (fun _ => none)))).1
      = [some 10, some 20, some 30] ∧
    (dequeue (dequeueMany 3 ([10, 20, 30].foldl enqueue (makeQueue (fun _ => none)))).2).1
      = none :=
  ⟨by decide, fun _ _ => rfl,
    (queue_fifo (fun _ => none) [10, 20, 30] (by decide) (fun _ _ => rfl)).1,
    (queue_fifo (fun _ => none) [10, 20, 30] (by decide) (fun _ _ => rfl)).2.1⟩

theorem promoteLoop_none_found (next : Nat → Option Nat) (found : Nat → Bool) :
    ∀ (l : List Nat) (fuel : Nat) (prev current : Option Nat), chain next current l →
      (∀ n ∈ l, found n = false) → l.length < fuel →
      ∃ p, promoteLoop next found fuel prev current = some (p, none) := by
  intro l
  induction l with
  | nil =>
    intro fuel prev current hc _ hf
    obtain ⟨k, rfl⟩ : ∃ k, fuel = k + 1 := ⟨fuel - 1, by simp at hf; omega⟩
    have : current = none := hc
    subst this
    exact ⟨prev, rfl⟩
  | cons x l ih =>
    intro fuel prev current hc hall hf
    obtain ⟨k, rfl⟩ : ∃ k, fuel = k + 1 := ⟨fuel - 1, by simp at hf; omega⟩
    have hcur : current = some x := hc.1
    subst hcur
    have hx : found x = false := hall x (by simp)
    simp only [promoteLoop, hx]
    exact ih k (some x) (next x) hc.2 (fun n hn => hall n (by simp [hn]))
      (by simp at hf; omega)

theorem promoteLoop_found (next : Nat → Option Nat) (found : Nat → Bool) (x : Nat)
    (post : List Nat) (hx : found x = true) :
    ∀ (pre : List Nat) (fuel : Nat) (prev current : Option Nat),
      chain next current (pre ++ x :: post) → (∀ n ∈ pre, found n = false) →
      pre.length < fuel →
      promoteLoop next found fuel prev current
        = some (if pre = [] then prev else pre.getLast?, some x) := by
  intro pre
  induction pre with
  | nil =>
    intro fuel prev current hc _ hf
    obtain ⟨k, rfl⟩ : ∃ k, fuel = k + 1 := ⟨fuel - 1, by simp at hf; omega⟩
    have hcur : current = some x := hc.1
    subst hcur
    simp [promoteLoop, hx]
  | cons a pre ih =>
    intro fuel prev current hc hall hf
    obtain ⟨k, rfl⟩ : ∃ k, fuel = k + 1 := ⟨fuel - 1, by simp at hf; omega⟩
    have hcur : current = some a := hc.1
    subst hcur
    have ha : found a = false := hall a (by simp)
    simp only [promoteLoop, ha]
    rw [ih k (some a) (next a) hc.2 (fun n hn => hall n (by simp [hn]))
      (by simp at hf; omega)]
    cases pre with
    | nil => simp
    | cons b pre => simp [List.getLast?_cons_cons]

theorem chain_remove (next next2 : Nat → Option Nat) (p x : Nat) (post : List Nat) :
    ∀ (pre : List Nat) (q : Option Nat), chain next q (pre ++ p :: x :: post) →
      (pre ++ p :: x :: post).Nodup → (∀ m, m ≠ p → m ≠ x → next2 m = next m) →
      next2 p = next x → chain next2 q (pre ++ p :: post) := by
  intro pre
  induction pre with
  | nil =>
    intro q hc hnd hother hp
    have hnd2 : (p :: x :: post).Nodup := hnd
    refine ⟨hc.1, ?_⟩
    rw [hp]
    refine chain_congr next next2 post _ ?_ hc.2.2
    intro m hm
    have h1 : m ≠ p := by
      rintro rfl
      exact (List.nodup_cons.1 hnd2).1 (by simp [hm])
    have h2 : m ≠ x := by
      rintro rfl
      exact (List.nodup_cons.1 (List.nodup_cons.1 hnd2).2).1 hm
    exact hother m h1 h2
  | cons a pre ih =>
    intro q hc hnd hother hp
    have hnd2 : (a :: (pre ++ p :: x :: post)).Nodup := hnd
    have ha := (List.nodup_cons.1 hnd2).1
    have h1 : a ≠ p := by
      rintro rfl
      exact ha (by simp)
    have h2 : a ≠ x := by
      rintro rfl
      exact ha (by simp)
    refine ⟨hc.1, ?_⟩
    rw [hother a h1 h2]
    exact ih _ hc.2 (List.nodup_cons.1 hnd2).2 hother hp

theorem chain_drop (next : Nat → Option Nat) :
    ∀ (pre : List Nat) (q : Option Nat) (l : List Nat), chain next q (pre ++ l) →
      ∃ q2, chain next q2 l := by
  intro pre
  induction pre with
  | nil => intro q l h; exact ⟨q, h⟩
  | cons a pre ih => intro q l h; exact ih _ l h.2

theorem promote_isQueue (s : QState) (l : List Nat) (found : Nat → Bool) (fuel : Nat)
    (h : IsQueue s l) (hf : l.length < fuel) :
    ((∀ n ∈ l, found n = false) → promote fuel found s = some (false, s)) ∧
    (∀ pre x post, l = pre ++ x :: post → (∀ n ∈ pre, found n = false) → found x = true →
      ∃ s2, promote fuel found s = some (true, s2) ∧ IsQueue s2 (x :: (pre ++ post))) := by
  obtain ⟨hc, hnd, ht⟩ := h
  constructor
  · intro hall
    cases l with
    | nil =>
      have hh : s.head = none := hc
      simp [promote, hh]
    | cons a l =>
      have hh : s.head = some a := hc.1
      obtain ⟨p, hp⟩ := promoteLoop_none_found s.next found (a :: l) fuel none (some a)
        ⟨rfl, hc.2⟩ hall hf
      simp [promote, hh, hp]
  · intro pre x post hl hall hx
    subst hl
    rcases List.eq_nil_or_concat pre with hpre | ⟨pre0, p, hpre⟩
    · subst hpre
      have hh : s.head = some x := hc.1
      have hp := promoteLoop_found s.next found x post hx [] fuel none (some x)
        ⟨rfl, hc.2⟩ (by simp) (by simp at hf ⊢; omega)
      refine ⟨s, ?_, ⟨hc, hnd, ht⟩⟩
      simp [promote, hh, hp]
    · subst hpre
      rw [List.concat_eq_append] at *
      have hne : pre0 ++ [p] ≠ [] := by simp
      obtain ⟨h0, hh⟩ : ∃ h0, s.head = some h0 := by
        cases pre0 with
        | nil => exact ⟨p, hc.1⟩
        | cons a pre1 => exact ⟨a, hc.1⟩
      have hc0 : chain s.next (some h0) (pre0 ++ [p] ++ x :: post) := by
        rw [← hh]; exact hc
      have hp := promoteLoop_found s.next found x post hx (pre0 ++ [p]) fuel none (some h0)
        hc0 hall (by simp at hf ⊢; omega)
      have hlast : (pre0 ++ [p]).getLast? = some p := by simp
      rw [if_neg hne, hlast] at hp
      have hnd2 : (pre0 ++ p :: x :: post).Nodup := by simpa using hnd
      have hc2 : chain s.next s.head (pre0 ++ p :: x :: post) := by simpa using hc
      have hxh : x ≠ h0 := by
        rintro rfl
        cases pre0 with
        | nil =>
          have e : p = x := by
            have := hc2.1
            rw [hh] at this
            exact (Option.some.inj this).symm
          subst e
          exact (List.nodup_cons.1 hnd2).1 (by simp)
        | cons a pre1 =>
          have e : a = x := by
            have := hc2.1
            rw [hh] at this
            exact (Option.some.inj this).symm
          subst e
          exact (List.nodup_cons.1 hnd2).1 (by simp)
      have hxp : x ≠ p := by
        rintro rfl
        have := (List.nodup_append.1 hnd2).2.1
        exact (List.nodup_cons.1 this).1 (by simp)
      obtain ⟨q2, hq2⟩ := chain_drop s.next (pre0 ++ [p]) s.head (x :: post) hc
      have hpost : chain s.next (s.next x) post := hq2.2
      refine ⟨{ next := fun m => if m = x then s.head
                  else if m = p then s.next x else s.next m,
                head := some x,
                tail := if s.next x = none then some p else s.tail }, ?_, ?_, ?_, ?_⟩
      · simp [promote, hh, hp, hxh]
      · refine ⟨rfl, ?_⟩
        have e : (if x = x then s.head else if x = p then s.next x else s.next x)
            = s.head := by simp
        show chain _ (if x = x then s.head else if x = p then s.next x else s.next x) _
        rw [e]
        have := chain_remove s.next
          (fun m => if m = x then s.head else if m = p then s.next x else s.next m)
          p x post pre0 s.head hc2 hnd2
          (fun m hm1 hm2 => by simp [hm1, hm2]) (by simp [hxp.symm])
        simpa using this
      · have hperm : (x :: (pre0 ++ [p] ++ post)).Perm (pre0 ++ p :: x :: post) := by
          simp only [List.append_assoc, List.singleton_append]
          exact (List.perm_middle.symm).trans
            (List.Perm.append_left pre0 (List.Perm.swap p x post))
        exact hperm.nodup_iff.2 hnd2
      · cases post with
        | nil =>
          have : s.next x = none := hpost
          have e : (x :: (pre0 ++ [p] ++ [])).getLast? = some p := by
            rw [List.append_nil, ← List.cons_append,
              List.getLast?_append_of_ne_nil _ (by simp)]
            rfl
          simp only [this, if_true]
          exact e.symm
        | cons y post =>
          have hy : s.next x = some y := hpost.1
          have ht2 : s.tail = (y :: post).getLast? := by
            rw [ht, List.getLast?_append_of_ne_nil _ (by simp), List.getLast?_cons_cons]
          have e : (x :: (pre0 ++ [p] ++ y :: post)).getLast? = (y :: post).getLast? := by
            rw [← List.cons_append, List.getLast?_append_of_ne_nil _ (by simp)]
          simp only [hy, if_false, reduceCtorEq]
          rw [ht2, e]

/-- C28: for a well-formed queue with nodes `l` and the predicate `found` (the value of
`n.equals(example, n)` at each node `n`): if no node of the queue satisfies it, `promote`
returns `false` and leaves the state unchanged; if `x` is the first node that satisfies it,
with the nodes `pre` before and `post` after it, `promote` returns `true` and the queue
becomes `x` followed by `pre` and `post`. -/
theorem promote_spec (s : QState) (l : List Nat) (found : Nat → Bool) (h : IsQueue s l) :
    ((∀ n ∈ l, found n = false) → promote (l.length + 1) found s = some (false, s)) ∧
    (∀ pre x post, l = pre ++ x :: post → (∀ n ∈ pre, found n = false) → found x = true →
      ∃ s2, promote (l.length + 1) found s = some (true, s2) ∧
        IsQueue s2 (x :: (pre ++ post))) :=
  promote_isQueue s l found (l.length + 1) h (Nat.lt_succ_self _)

theorem promote_spec_witness :
    IsQueue ([1, 2, 3].foldl enqueue (makeQueue (fun _ => none))) [1, 2, 3] ∧
    ∃ s2, promote 4 (fun n => n == 3) ([1, 2, 3].foldl enqueue (makeQueue (fun _ => none)))
        = some (true, s2) ∧ IsQueue s2 [3, 1, 2] :=
  ⟨foldl_enqueue_isQueue [1, 2, 3] (makeQueue (fun _ => none)) [] ⟨rfl, by simp, rfl⟩
      (by decide) (fun _ _ => rfl),
    (promote_spec ([1, 2, 3].foldl enqueue (makeQueue (fun _ => none))) [1, 2, 3]
      (fun n => n == 3)
      (foldl_enqueue_isQueue [1, 2, 3] (makeQueue (fun _ => none)) [] ⟨rfl, by simp, rfl⟩
        (by decide) (fun _ _ => rfl))).2 [1, 2] 3 [] rfl (by decide) rfl⟩

end P6

namespace P4

/-! ## Theorems on `schedule.c` -/

end P4
